import Mathlib

/-!
Verification development for the `xml_struct_diff` structural XML diff engine
(repository `exypton/scripts`).  The reference implementation embedded here is
`src/xml_struct_diff-11.py` (the action-plugin variant built on
`difflib.SequenceMatcher`); the auxiliary height function of
`src/xml_struct_diff-6.py` is embedded as `countLines6`.

Modeling conventions:
* An ElementTree element is a `XSD.Node`: tag, attribute list (unique keys, in
  document order), optional text, child list.  Python dict equality on
  attributes is modeled as equality of the sorted pair lists (`dictEq`), which
  agrees with dict equality because attribute names are unique.
* Python string `.strip()` is modeled on the ASCII whitespace subset recognised
  by `Char.isWhitespace`; `escape_html`, a chain of three `str.replace` calls,
  is modeled as the equivalent character-wise expansion.
* The implementation reserves the tag `__spacer__` and attribute names
  `__diff_style__` / `__append_spacer__` / `lines` for its own annotations; the
  annotated output is therefore modeled by a dedicated type `ATree` carrying
  those fields directly (always written as `str(n)` and read back with `int`,
  so the numeric round trip is exact).  Input documents are assumed not to use
  the reserved names, which the implementation silently requires.
* `difflib.SequenceMatcher` (CPython, `isjunk=None`, `autojunk=True`) is
  modeled faithfully: `b2j` with the popularity purge (length ≥ 200 and more
  than `n/100 + 1` occurrences), `find_longest_match` with its two non-junk
  extension passes (the junk passes never fire because `bjunk` is empty when
  `isjunk is None`), recursive matching blocks in sorted order, adjacent-block
  collapsing, and opcode generation.
* Recursion that is not structural is expressed with an explicit fuel
  argument; the exported wrappers supply sufficient fuel, and fuel-adequacy
  lemmas show the value of fuel does not matter beyond the bound.
* XML parsing (`ET.fromstring` plus the namespace-stripping regexes) is out of
  scope per the spec; `parseClean` takes the raw parser as an oracle function
  returning `none` for a parse failure, and models the blank-input guard and
  the canonical sort that `parse_clean` performs itself.
-/

set_option maxHeartbeats 1600000

namespace XSD

/-! ### Strings: strip and escape_html -/

/-- Python `str.strip()` on the ASCII whitespace subset: drop leading and
trailing whitespace characters from a character list. -/
def trimChars (cs : List Char) : List Char :=
  ((cs.dropWhile Char.isWhitespace).reverse.dropWhile Char.isWhitespace).reverse

/-- Python `(s or "").strip()` at the string level. -/
def stripStr (s : String) : String := String.mk (trimChars s.data)

/-- One character of `escape_html`: the replacement chains
`&`→`&amp;`, `<`→`&lt;`, `>`→`&gt;` applied in that order are equivalent to
this character-wise expansion because no replacement output contains a
character that a later replacement rewrites. -/
def escChar (c : Char) : List Char :=
  if c = '&' then ['&', 'a', 'm', 'p', ';']
  else if c = '<' then ['&', 'l', 't', ';']
  else if c = '>' then ['&', 'g', 't', ';']
  else [c]

/-- `escape_html` from the source: empty and falsy strings map to `""`,
otherwise the three entity replacements are applied. -/
def escapeHtml (s : String) : String := String.mk (s.data.flatMap escChar)

/-- Truthiness test `elem.text and elem.text.strip()` used for text lines:
the optional text is present and strips to a non-empty string. -/
def textHasContent (t : Option String) : Bool :=
  match t with
  | none => false
  | some s => !(trimChars s.data).isEmpty

/-! ### Ordering combinators mirroring Python tuple/str comparison -/

def natCmp (m n : Nat) : Ordering :=
  if m < n then .lt else if n < m then .gt else .eq

def charCmp (c d : Char) : Ordering := natCmp c.toNat d.toNat

def listCmp (cmp : α → α → Ordering) : List α → List α → Ordering
  | [], [] => .eq
  | [], _ :: _ => .lt
  | _ :: _, [] => .gt
  | a :: as, b :: bs => (cmp a b).then (listCmp cmp as bs)

/-- Python string comparison: lexicographic over code points. -/
def strCmp (s t : String) : Ordering := listCmp charCmp s.data t.data

/-- Python pair (2-tuple) comparison. -/
def pairCmp (cmp₁ : α → α → Ordering) (cmp₂ : β → β → Ordering)
    (p q : α × β) : Ordering :=
  (cmp₁ p.1 q.1).then (cmp₂ p.2 q.2)

/-- Comparison of `(name, value)` attribute pairs. -/
def attrCmp : String × String → String × String → Ordering :=
  pairCmp strCmp strCmp

@[simp] theorem lt_then (o : Ordering) : Ordering.lt.then o = .lt := rfl
@[simp] theorem gt_then (o : Ordering) : Ordering.gt.then o = .gt := rfl
@[simp] theorem eq_then (o : Ordering) : Ordering.eq.then o = o := rfl

/-- A comparison function is lawful when it decides equality, is
orientation-symmetric, and its strict part is transitive. -/
structure LawCmp (cmp : α → α → Ordering) : Prop where
  eq_iff : ∀ a b, cmp a b = .eq ↔ a = b
  swap_eq : ∀ a b, (cmp a b).swap = cmp b a
  lt_trans : ∀ {a b c}, cmp a b = .lt → cmp b c = .lt → cmp a c = .lt

theorem natCmp_lawful : LawCmp natCmp := by
  constructor
  · intro a b
    unfold natCmp
    split
    · simp only [reduceCtorEq, false_iff]; omega
    · split
      · simp only [reduceCtorEq, false_iff]; omega
      · simp only [true_iff]; omega
  · intro a b
    unfold natCmp
    rcases Nat.lt_trichotomy a b with h | h | h
    · have h1 : ¬ b < a := by omega
      simp only [if_pos h, if_neg h1]
      rfl
    · subst h
      simp only [if_neg (Nat.lt_irrefl a)]
      rfl
    · have h1 : ¬ a < b := by omega
      simp only [if_neg h1, if_pos h]
      rfl
  · intro a b c hab hbc
    unfold natCmp at *
    split at hab
    · split at hbc
      · have : a < c := by omega
        simp [natCmp, this]
      · split at hbc <;> simp_all
    · split at hab <;> simp_all

theorem charCmp_lawful : LawCmp charCmp := by
  obtain ⟨he, hs, ht⟩ := natCmp_lawful
  constructor
  · intro a b
    rw [charCmp, he]
    constructor
    · intro h
      exact Char.eq_of_val_eq (UInt32.ext (by simpa [Char.toNat] using h))
    · intro h; rw [h]
  · intro a b; exact hs _ _
  · intro a b c hab hbc; exact ht hab hbc

theorem listCmp_lawful {cmp : α → α → Ordering} (h : LawCmp cmp) :
    LawCmp (listCmp cmp) := by
  constructor
  · intro a
    induction a with
    | nil => intro b; cases b <;> simp [listCmp]
    | cons x xs ih =>
      intro b
      cases b with
      | nil => simp [listCmp]
      | cons y ys =>
        simp only [listCmp]
        constructor
        · intro hthen
          have h1 : cmp x y = .eq := by
            cases hc : cmp x y <;> simp [hc, Ordering.then] at hthen ⊢
          have h2 : listCmp cmp xs ys = .eq := by
            rw [h1] at hthen; simpa [Ordering.then] using hthen
          have := (h.eq_iff x y).mp h1
          have := (ih ys).mp h2
          simp_all
        · intro he
          injection he with h1 h2
          rw [(h.eq_iff x y).mpr h1, ((ih ys).mpr h2)]
          rfl
  · intro a
    induction a with
    | nil => intro b; cases b <;> simp [listCmp, Ordering.swap]
    | cons x xs ih =>
      intro b
      cases b with
      | nil => simp [listCmp, Ordering.swap]
      | cons y ys =>
        simp only [listCmp]
        rw [← h.swap_eq x y, ← ih ys]
        cases cmp x y <;> cases listCmp cmp xs ys <;> rfl
  · intro a
    induction a with
    | nil =>
      intro b c hab hbc
      cases b <;> cases c <;> simp_all [listCmp]
    | cons x xs ih =>
      intro b c hab hbc
      cases b with
      | nil => simp [listCmp] at hab
      | cons y ys =>
        cases c with
        | nil => simp [listCmp] at hbc
        | cons z zs =>
          simp only [listCmp] at hab hbc ⊢
          cases hxy : cmp x y with
          | lt =>
            cases hyz : cmp y z with
            | lt => simp [h.lt_trans hxy hyz, Ordering.then]
            | eq =>
              have := (h.eq_iff y z).mp hyz
              subst this
              simp [hxy, Ordering.then]
            | gt => simp [hyz, Ordering.then] at hbc
          | eq =>
            have := (h.eq_iff x y).mp hxy
            subst this
            simp only [hxy, eq_then] at hab
            cases hyz : cmp x z with
            | lt => simp [Ordering.then]
            | eq =>
              have := (h.eq_iff x z).mp hyz
              subst this
              simp only [hyz, eq_then] at hbc ⊢
              exact ih hab hbc
            | gt => simp [hyz, Ordering.then] at hbc
          | gt => simp [hxy, Ordering.then] at hab

theorem strCmp_lawful : LawCmp strCmp := by
  have h := listCmp_lawful charCmp_lawful
  constructor
  · intro a b
    rw [strCmp, h.eq_iff]
    constructor
    · intro hd
      cases a; cases b; simp_all
    · intro hd; rw [hd]
  · intro a b; exact h.swap_eq _ _
  · intro a b c hab hbc; exact h.lt_trans hab hbc

theorem pairCmp_lawful {cmp₁ : α → α → Ordering} {cmp₂ : β → β → Ordering}
    (h₁ : LawCmp cmp₁) (h₂ : LawCmp cmp₂) : LawCmp (pairCmp cmp₁ cmp₂) := by
  constructor
  · intro a b
    simp only [pairCmp]
    constructor
    · intro hthen
      have hc1 : cmp₁ a.1 b.1 = .eq := by
        cases hc : cmp₁ a.1 b.1 <;> simp [hc, Ordering.then] at hthen ⊢
      have hc2 : cmp₂ a.2 b.2 = .eq := by
        rw [hc1] at hthen; simpa [Ordering.then] using hthen
      have e1 := (h₁.eq_iff _ _).mp hc1
      have e2 := (h₂.eq_iff _ _).mp hc2
      exact Prod.ext e1 e2
    · intro he
      rw [he, (h₁.eq_iff _ _).mpr rfl, (h₂.eq_iff _ _).mpr rfl]
      rfl
  · intro a b
    simp only [pairCmp]
    rw [← h₁.swap_eq, ← h₂.swap_eq]
    cases cmp₁ b.1 a.1 <;> cases cmp₂ b.2 a.2 <;> rfl
  · intro a b c hab hbc
    simp only [pairCmp] at hab hbc ⊢
    cases hxy : cmp₁ a.1 b.1 with
    | lt =>
      cases hyz : cmp₁ b.1 c.1 with
      | lt => simp [h₁.lt_trans hxy hyz, Ordering.then]
      | eq =>
        have := (h₁.eq_iff _ _).mp hyz
        simp [Ordering.then, ← this, hxy]
      | gt => simp [hxy, hyz, Ordering.then] at hbc
    | eq =>
      have e := (h₁.eq_iff _ _).mp hxy
      simp only [hxy, eq_then] at hab
      cases hyz : cmp₁ b.1 c.1 with
      | lt => simp [e ▸ hyz, Ordering.then]
      | eq =>
        have e2 := (h₁.eq_iff _ _).mp hyz
        have : cmp₁ a.1 c.1 = .eq := (h₁.eq_iff _ _).mpr (e.trans e2)
        simp only [hyz, eq_then] at hbc
        simp [this, Ordering.then, h₂.lt_trans hab hbc]
      | gt => simp [hyz, Ordering.then] at hbc
    | gt => simp [hxy, Ordering.then] at hab

theorem attrCmp_lawful : LawCmp attrCmp := pairCmp_lawful strCmp_lawful strCmp_lawful

/-- The non-strict order `cmp a b ≠ gt` induced by a comparison; Python's
stable ascending sort is modeled by `List.insertionSort` over this order. -/
def cmpLe (cmp : α → α → Ordering) (a b : α) : Prop := cmp a b ≠ .gt

instance cmpLeDecidable (cmp : α → α → Ordering) : DecidableRel (cmpLe cmp) :=
  fun a b => by unfold cmpLe; infer_instance

theorem LawCmp.ge_of_not_le {cmp : α → α → Ordering} (h : LawCmp cmp) {a b : α}
    (hab : ¬ cmpLe cmp a b) : cmp b a = .lt := by
  unfold cmpLe at hab
  have hg : cmp a b = .gt := by
    cases hc : cmp a b <;> simp [hc] at hab ⊢
  have := h.swap_eq a b
  rw [hg] at this
  cases hc : cmp b a <;> rw [hc] at this <;> simp [Ordering.swap] at this ⊢

theorem LawCmp.le_total {cmp : α → α → Ordering} (h : LawCmp cmp) :
    ∀ a b : α, cmpLe cmp a b ∨ cmpLe cmp b a := by
  intro a b
  by_cases hab : cmpLe cmp a b
  · exact Or.inl hab
  · right
    have := h.ge_of_not_le hab
    unfold cmpLe
    simp [this]

theorem LawCmp.le_trans {cmp : α → α → Ordering} (h : LawCmp cmp) : ∀ {a b c : α},
    cmpLe cmp a b → cmpLe cmp b c → cmpLe cmp a c := by
  intro a b c hab hbc
  unfold cmpLe at *
  cases h1 : cmp a b with
  | lt =>
    cases h2 : cmp b c with
    | lt => simp [h.lt_trans h1 h2]
    | eq =>
      have := (h.eq_iff b c).mp h2
      subst this; simp [h1]
    | gt => exact absurd h2 hbc
  | eq =>
    have := (h.eq_iff a b).mp h1
    subst this; exact hbc
  | gt => exact absurd h1 hab

theorem LawCmp.le_antisymm {cmp : α → α → Ordering} (h : LawCmp cmp) {a b : α}
    (hab : cmpLe cmp a b) (hba : cmpLe cmp b a) : a = b := by
  unfold cmpLe at *
  cases h1 : cmp a b with
  | lt =>
    have := h.swap_eq a b
    rw [h1] at this
    exact absurd this.symm (by simpa [Ordering.swap] using hba)
  | eq => exact (h.eq_iff a b).mp h1
  | gt => exact absurd h1 hab

/-! ### Identity keys (`sort_and_key`) -/

/-- The identity key computed by `sort_and_key`:
`(node.tag, tuple(sorted(node.attrib.items())), (node.text or "").strip(), sorted_child_keys)`. -/
inductive Key where
  | node (tag : String) (attrs : List (String × String)) (text : String)
         (children : List Key)
deriving Repr

/- Python tuple comparison of identity keys: componentwise, with the child
keys compared as a (possibly shorter/longer) tuple. -/
mutual
def keyCmp : Key → Key → Ordering
  | .node t1 a1 x1 c1, .node t2 a2 x2 c2 =>
    (strCmp t1 t2).then ((listCmp attrCmp a1 a2).then
      ((strCmp x1 x2).then (keyListCmp c1 c2)))
def keyListCmp : List Key → List Key → Ordering
  | [], [] => .eq
  | [], _ :: _ => .lt
  | _ :: _, [] => .gt
  | k :: ks, l :: ls => (keyCmp k l).then (keyListCmp ks ls)
end

theorem then_eq_eq {o₁ o₂ : Ordering} : o₁.then o₂ = .eq ↔ o₁ = .eq ∧ o₂ = .eq := by
  cases o₁ <;> simp

theorem then_eq_lt {o₁ o₂ : Ordering} :
    o₁.then o₂ = .lt ↔ o₁ = .lt ∨ (o₁ = .eq ∧ o₂ = .lt) := by
  cases o₁ <;> simp

theorem then_swap (o₁ o₂ : Ordering) : (o₁.then o₂).swap = o₁.swap.then o₂.swap := by
  cases o₁ <;> cases o₂ <;> rfl

theorem keyCmp_eq_iff : ∀ k l : Key, keyCmp k l = .eq ↔ k = l := by
  have main : ∀ n : Nat,
      (∀ k l : Key, sizeOf k + sizeOf l ≤ n → (keyCmp k l = .eq ↔ k = l)) ∧
      (∀ ks ls : List Key, sizeOf ks + sizeOf ls ≤ n →
        (keyListCmp ks ls = .eq ↔ ks = ls)) := by
    intro n
    induction n using Nat.strong_induction_on with
    | _ n ih =>
      constructor
      · intro k l hn
        cases k with
        | node t1 a1 x1 c1 =>
          cases l with
          | node t2 a2 x2 c2 =>
            have hlist := (ih (n - 1) (by
              simp only [Key.node.sizeOf_spec] at hn
              omega)).2 c1 c2 (by
              simp only [Key.node.sizeOf_spec] at hn
              omega)
            rw [keyCmp]
            simp only [then_eq_eq]
            rw [strCmp_lawful.eq_iff, (listCmp_lawful attrCmp_lawful).eq_iff,
              strCmp_lawful.eq_iff, hlist]
            constructor
            · rintro ⟨h1, h2, h3, h4⟩
              rw [h1, h2, h3, h4]
            · intro h
              injection h with h1 h2 h3 h4
              exact ⟨h1, h2, h3, h4⟩
      · intro ks ls hn
        cases ks with
        | nil => cases ls <;> simp [keyListCmp]
        | cons k ks =>
          cases ls with
          | nil => simp [keyListCmp]
          | cons l ls =>
            have h1 := (ih (n - 1) (by
              simp only [List.cons.sizeOf_spec] at hn
              omega)).1 k l (by
              simp only [List.cons.sizeOf_spec] at hn
              omega)
            have h2 := (ih (n - 1) (by
              simp only [List.cons.sizeOf_spec] at hn
              omega)).2 ks ls (by
              simp only [List.cons.sizeOf_spec] at hn
              omega)
            rw [keyListCmp]
            simp only [then_eq_eq]
            rw [h1, h2]
            constructor
            · rintro ⟨h3, h4⟩
              rw [h3, h4]
            · intro h
              injection h with h3 h4
              exact ⟨h3, h4⟩
  intro k l
  exact (main (sizeOf k + sizeOf l)).1 k l le_rfl

theorem keyCmp_swap : ∀ k l : Key, (keyCmp k l).swap = keyCmp l k := by
  have main : ∀ n : Nat,
      (∀ k l : Key, sizeOf k + sizeOf l ≤ n → (keyCmp k l).swap = keyCmp l k) ∧
      (∀ ks ls : List Key, sizeOf ks + sizeOf ls ≤ n →
        (keyListCmp ks ls).swap = keyListCmp ls ks) := by
    intro n
    induction n using Nat.strong_induction_on with
    | _ n ih =>
      constructor
      · intro k l hn
        cases k with
        | node t1 a1 x1 c1 =>
          cases l with
          | node t2 a2 x2 c2 =>
            have hlist := (ih (n - 1) (by
              simp only [Key.node.sizeOf_spec] at hn
              omega)).2 c1 c2 (by
              simp only [Key.node.sizeOf_spec] at hn
              omega)
            rw [keyCmp, keyCmp]
            rw [then_swap, then_swap, then_swap]
            rw [strCmp_lawful.swap_eq, (listCmp_lawful attrCmp_lawful).swap_eq,
              strCmp_lawful.swap_eq, hlist]
      · intro ks ls hn
        cases ks with
        | nil => cases ls <;> rfl
        | cons k ks =>
          cases ls with
          | nil => rfl
          | cons l ls =>
            have h1 := (ih (n - 1) (by
              simp only [List.cons.sizeOf_spec] at hn
              omega)).1 k l (by
              simp only [List.cons.sizeOf_spec] at hn
              omega)
            have h2 := (ih (n - 1) (by
              simp only [List.cons.sizeOf_spec] at hn
              omega)).2 ks ls (by
              simp only [List.cons.sizeOf_spec] at hn
              omega)
            rw [keyListCmp, keyListCmp, then_swap, h1, h2]
  intro k l
  exact (main (sizeOf k + sizeOf l)).1 k l le_rfl

theorem keyCmp_lt_trans : ∀ {k l m : Key},
    keyCmp k l = .lt → keyCmp l m = .lt → keyCmp k m = .lt := by
  have main : ∀ n : Nat,
      (∀ k l m : Key, sizeOf k + sizeOf l + sizeOf m ≤ n →
        keyCmp k l = .lt → keyCmp l m = .lt → keyCmp k m = .lt) ∧
      (∀ ks ls ms : List Key, sizeOf ks + sizeOf ls + sizeOf ms ≤ n →
        keyListCmp ks ls = .lt → keyListCmp ls ms = .lt → keyListCmp ks ms = .lt) := by
    intro n
    induction n using Nat.strong_induction_on with
    | _ n ih =>
      constructor
      · intro k l m hn hab hbc
        cases k with
        | node t1 a1 x1 c1 =>
        cases l with
        | node t2 a2 x2 c2 =>
        cases m with
        | node t3 a3 x3 c3 =>
        have hlist : keyListCmp c1 c2 = .lt → keyListCmp c2 c3 = .lt →
            keyListCmp c1 c3 = .lt := by
          intro u v
          refine (ih (n - 1) (by
            simp only [Key.node.sizeOf_spec] at hn
            omega)).2 c1 c2 c3 (by
            simp only [Key.node.sizeOf_spec] at hn
            omega) u v
        rw [keyCmp] at hab hbc ⊢
        rcases then_eq_lt.mp hab with h1 | ⟨h1, hab2⟩
        · rcases then_eq_lt.mp hbc with h2 | ⟨h2, _⟩
          · exact then_eq_lt.mpr (Or.inl (strCmp_lawful.lt_trans h1 h2))
          · rw [strCmp_lawful.eq_iff] at h2
            rw [h2] at h1
            exact then_eq_lt.mpr (Or.inl h1)
        · rw [strCmp_lawful.eq_iff] at h1
          subst h1
          rcases then_eq_lt.mp hbc with h2 | ⟨h2, hbc2⟩
          · exact then_eq_lt.mpr (Or.inl h2)
          · rw [strCmp_lawful.eq_iff] at h2
            subst h2
            refine then_eq_lt.mpr (Or.inr ⟨(strCmp_lawful.eq_iff _ _).mpr rfl, ?_⟩)
            rcases then_eq_lt.mp hab2 with g1 | ⟨g1, hab3⟩
            · rcases then_eq_lt.mp hbc2 with g2 | ⟨g2, _⟩
              · exact then_eq_lt.mpr
                  (Or.inl ((listCmp_lawful attrCmp_lawful).lt_trans g1 g2))
              · rw [(listCmp_lawful attrCmp_lawful).eq_iff] at g2
                rw [g2] at g1
                exact then_eq_lt.mpr (Or.inl g1)
            · rw [(listCmp_lawful attrCmp_lawful).eq_iff] at g1
              subst g1
              rcases then_eq_lt.mp hbc2 with g2 | ⟨g2, hbc3⟩
              · exact then_eq_lt.mpr (Or.inl g2)
              · rw [(listCmp_lawful attrCmp_lawful).eq_iff] at g2
                subst g2
                refine then_eq_lt.mpr
                  (Or.inr ⟨((listCmp_lawful attrCmp_lawful).eq_iff _ _).mpr rfl, ?_⟩)
                rcases then_eq_lt.mp hab3 with f1 | ⟨f1, hab4⟩
                · rcases then_eq_lt.mp hbc3 with f2 | ⟨f2, _⟩
                  · exact then_eq_lt.mpr (Or.inl (strCmp_lawful.lt_trans f1 f2))
                  · rw [strCmp_lawful.eq_iff] at f2
                    rw [f2] at f1
                    exact then_eq_lt.mpr (Or.inl f1)
                · rw [strCmp_lawful.eq_iff] at f1
                  subst f1
                  rcases then_eq_lt.mp hbc3 with f2 | ⟨f2, hbc4⟩
                  · exact then_eq_lt.mpr (Or.inl f2)
                  · rw [strCmp_lawful.eq_iff] at f2
                    subst f2
                    exact then_eq_lt.mpr
                      (Or.inr ⟨(strCmp_lawful.eq_iff _ _).mpr rfl, hlist hab4 hbc4⟩)
      · intro ks ls ms hn hab hbc
        cases ks with
        | nil =>
          cases ls with
          | nil => cases ms <;> simp_all [keyListCmp]
          | cons l ls =>
            cases ms with
            | nil => simp [keyListCmp] at hbc
            | cons m ms => simp [keyListCmp]
        | cons k ks =>
          cases ls with
          | nil => simp [keyListCmp] at hab
          | cons l ls =>
            cases ms with
            | nil => simp [keyListCmp] at hbc
            | cons m ms =>
              rw [keyListCmp] at hab hbc ⊢
              have hkey : keyCmp k l = .lt → keyCmp l m = .lt → keyCmp k m = .lt := by
                intro u v
                refine (ih (n - 1) (by
                  simp only [List.cons.sizeOf_spec] at hn
                  omega)).1 k l m (by
                  simp only [List.cons.sizeOf_spec] at hn
                  omega) u v
              have hrest : keyListCmp ks ls = .lt → keyListCmp ls ms = .lt →
                  keyListCmp ks ms = .lt := by
                intro u v
                refine (ih (n - 1) (by
                  simp only [List.cons.sizeOf_spec] at hn
                  omega)).2 ks ls ms (by
                  simp only [List.cons.sizeOf_spec] at hn
                  omega) u v
              rcases then_eq_lt.mp hab with h1 | ⟨h1, hab2⟩
              · rcases then_eq_lt.mp hbc with h2 | ⟨h2, _⟩
                · exact then_eq_lt.mpr (Or.inl (hkey h1 h2))
                · rw [keyCmp_eq_iff] at h2
                  rw [h2] at h1
                  exact then_eq_lt.mpr (Or.inl h1)
              · rw [keyCmp_eq_iff] at h1
                subst h1
                rcases then_eq_lt.mp hbc with h2 | ⟨h2, hbc2⟩
                · exact then_eq_lt.mpr (Or.inl h2)
                · rw [keyCmp_eq_iff] at h2
                  subst h2
                  exact then_eq_lt.mpr
                    (Or.inr ⟨(keyCmp_eq_iff _ _).mpr rfl, hrest hab2 hbc2⟩)
  intro k l m hab hbc
  exact (main (sizeOf k + sizeOf l + sizeOf m)).1 k l m le_rfl hab hbc

theorem keyCmp_lawful : LawCmp keyCmp :=
  ⟨keyCmp_eq_iff, keyCmp_swap, fun hab hbc => keyCmp_lt_trans hab hbc⟩

instance : DecidableEq Key := fun k l =>
  decidable_of_iff (keyCmp k l = .eq) (keyCmp_eq_iff k l)

/-! ### The input tree (`Node`) and the canonicalizer -/

/-- A parsed, namespace-stripped XML element: the engine input.  Attribute
names are unique; `text` is `none` when the element has no text node. -/
structure Node where
  tag : String
  attrib : List (String × String)
  text : Option String
  children : List Node
deriving Repr

/-- Python `sorted(...)` on attribute pairs (stable, ascending by pair
comparison). -/
def sortPairs (l : List (String × String)) : List (String × String) :=
  List.insertionSort (cmpLe attrCmp) l

/-- Python dict equality on attribute mappings, via the sorted item lists
(equivalent because attribute names are unique). -/
def dictEq (a b : List (String × String)) : Bool := sortPairs a = sortPairs b

/-- The ordering used by `sorted(zip(node, child_keys), key=lambda x: x[1])`:
compare `(child, key)` pairs by the key component only. -/
def pairKeyLe (p q : Node × Key) : Prop := cmpLe keyCmp p.2 q.2

instance : DecidableRel pairKeyLe := fun p q => by
  unfold pairKeyLe
  infer_instance

/- `sort_and_key` from the source: recursively sort every child list by the
children's identity keys (a stable ascending sort, like Python's `sorted`)
and return the rebuilt node together with its key, whose fourth component
lists the child keys in sorted order. -/
mutual
def canonPair : Node → Node × Key
  | .mk t a x cs =>
    let pcs := List.insertionSort pairKeyLe (canonPairList cs)
    (Node.mk t a x (pcs.map Prod.fst),
     Key.node t (sortPairs a) (stripStr (x.getD "")) (pcs.map Prod.snd))
def canonPairList : List Node → List (Node × Key)
  | [] => []
  | c :: cs => canonPair c :: canonPairList cs
end

/-- The canonicalized (deep-sorted) tree, as stored by `parse_clean`. -/
def canonNode (t : Node) : Node := (canonPair t).1

/-- The identity key of the whole tree as computed by `sort_and_key`. -/
def canonKey (t : Node) : Key := (canonPair t).2

/- The key of a node as it currently stands (children in current order).
On canonicalized trees this agrees with the stored `node_keys` entry
(`nodeKey_canonNode`), which is how `compare_nodes` reads keys back. -/
mutual
def nodeKey : Node → Key
  | .mk t a x cs => Key.node t (sortPairs a) (stripStr (x.getD "")) (nodeKeyList cs)
def nodeKeyList : List Node → List Key
  | [] => []
  | c :: cs => nodeKey c :: nodeKeyList cs
end

/-! ### The `difflib.SequenceMatcher` model (CPython, `isjunk=None`) -/

/-- Default key used for out-of-range indexing; every indexed access in the
pipeline is within bounds (proved where needed), the default only totalizes
the function. -/
def dfltKey : Key := .node "" [] "" []

/-- All positions of `k` in `b`, ascending: the `b2j` table before the
popularity purge. -/
def positions (b : List Key) (k : Key) : List Nat :=
  (List.range b.length).filter (fun i => decide (b.getD i dfltKey = k))

/-- The `autojunk` popularity test: with `n = len(b) ≥ 200`, elements occurring
more than `n // 100 + 1` times are purged from `b2j`. -/
def isPopular (b : List Key) (k : Key) : Bool :=
  decide (200 ≤ b.length) && decide (b.length / 100 + 1 < (positions b k).length)

/-- `b2j` after the popularity purge (`bjunk` itself stays empty because
`isjunk is None`). -/
def b2j (b : List Key) (k : Key) : List Nat :=
  if isPopular b k then [] else positions b k

/-- A matching block `(besti, bestj, bestsize)`. -/
structure Best where
  i : Nat
  j : Nat
  size : Nat
deriving DecidableEq, Repr

/-- Inner loop of `find_longest_match` over one `j`:
`k = newj2len[j] = j2len.get(j-1, 0) + 1`, updating the running best on a
strict improvement.  `j2len` is the previous row (read side), the fold state
carries the best so far and `newj2len` (write side). -/
def flmInner (i : Nat) (j2len : Nat → Nat) (st : Best × (Nat → Nat)) (j : Nat) :
    Best × (Nat → Nat) :=
  let k := (if j = 0 then 0 else j2len (j - 1)) + 1
  let best := if st.1.size < k then Best.mk (i + 1 - k) (j + 1 - k) k else st.1
  (best, Function.update st.2 j k)

/-- The positions scanned in row `i`: `b2j[a[i]]` restricted to `[blo, bhi)`
(the `continue`/`break` filters on the ascending position list). -/
def rowJs (a : List Key) (blo bhi : Nat) (bj : Key → List Nat) (i : Nat) : List Nat :=
  (bj (a.getD i dfltKey)).filter (fun j => decide (blo ≤ j) && decide (j < bhi))

/-- One row of `find_longest_match`: fold the row positions starting from a
fresh `newj2len`. -/
def flmRow (a : List Key) (blo bhi : Nat) (bj : Key → List Nat)
    (st : Best × (Nat → Nat)) (i : Nat) : Best × (Nat → Nat) :=
  (rowJs a blo bhi bj i).foldl (flmInner i st.2) (st.1, fun _ => 0)

/-- The dynamic-programming core of `find_longest_match`. -/
def flmCore (a : List Key) (alo ahi blo bhi : Nat) (bj : Key → List Nat) : Best :=
  ((List.range' alo (ahi - alo)).foldl (flmRow a blo bhi bj)
    (Best.mk alo blo 0, fun _ => 0)).1

/-- Left extension loop (`bjunk` is empty when `isjunk is None`, so the
non-junk guard is vacuous and the junk loops never fire). -/
def extLeft (a b : List Key) (alo blo : Nat) : Nat → Best → Best
  | 0, st => st
  | fuel + 1, st =>
    if alo < st.i ∧ blo < st.j ∧ a.getD (st.i - 1) dfltKey = b.getD (st.j - 1) dfltKey
    then extLeft a b alo blo fuel (Best.mk (st.i - 1) (st.j - 1) (st.size + 1))
    else st

/-- Right extension loop. -/
def extRight (a b : List Key) (ahi bhi : Nat) : Nat → Best → Best
  | 0, st => st
  | fuel + 1, st =>
    if st.i + st.size < ahi ∧ st.j + st.size < bhi ∧
        a.getD (st.i + st.size) dfltKey = b.getD (st.j + st.size) dfltKey
    then extRight a b ahi bhi fuel (Best.mk st.i st.j (st.size + 1))
    else st

/-- `find_longest_match(alo, ahi, blo, bhi)`. The extension loops run at most
`i - alo` resp. `ahi` times, so those fuels are always sufficient. -/
def findLongestMatch (a b : List Key) (alo ahi blo bhi : Nat)
    (bj : Key → List Nat) : Best :=
  let core := flmCore a alo ahi blo bhi bj
  extRight a b ahi bhi ahi (extLeft a b alo blo core.i core)

/-- `get_matching_blocks` recursion (the CPython queue plus the final sort
visits the same blocks; this recursion lists them directly in sorted order).
Each recursive window is strictly smaller, so fuel
`(ahi - alo) + (bhi - blo) + 1` is always sufficient. -/
def mbAux (a b : List Key) (bj : Key → List Nat) :
    Nat → Nat → Nat → Nat → Nat → List Best
  | 0, _, _, _, _ => []
  | fuel + 1, alo, ahi, blo, bhi =>
    let m := findLongestMatch a b alo ahi blo bhi bj
    if 0 < m.size then
      (if alo < m.i ∧ blo < m.j then mbAux a b bj fuel alo m.i blo m.j else []) ++
      [m] ++
      (if m.i + m.size < ahi ∧ m.j + m.size < bhi then
        mbAux a b bj fuel (m.i + m.size) ahi (m.j + m.size) bhi else [])
    else []

/-- Collapse adjacent blocks and append the `(la, lb, 0)` sentinel. -/
def nonAdjacent (blocks : List Best) (la lb : Nat) : List Best :=
  let step : (List Best × Best) → Best → (List Best × Best) := fun st blk =>
    if st.2.i + st.2.size = blk.i ∧ st.2.j + st.2.size = blk.j then
      (st.1, Best.mk st.2.i st.2.j (st.2.size + blk.size))
    else if 0 < st.2.size then (st.1 ++ [st.2], blk) else (st.1, blk)
  let r := blocks.foldl step ([], Best.mk 0 0 0)
  (if 0 < r.2.size then r.1 ++ [r.2] else r.1) ++ [Best.mk la lb 0]

/-- `get_matching_blocks()` for the two key sequences. -/
def matchingBlocks (a b : List Key) : List Best :=
  nonAdjacent (mbAux a b (b2j b) (a.length + b.length + 1) 0 a.length 0 b.length)
    a.length b.length

inductive OpTag where
  | equal | replace | delete | insert
deriving DecidableEq, Repr

structure Opcode where
  tag : OpTag
  i1 : Nat
  i2 : Nat
  j1 : Nat
  j2 : Nat
deriving DecidableEq, Repr

/-- The cursor walk of `get_opcodes()` over the matching blocks. -/
def opcodesFrom : Nat → Nat → List Best → List Opcode
  | _, _, [] => []
  | i, j, blk :: rest =>
    (if i < blk.i ∧ j < blk.j then [Opcode.mk .replace i blk.i j blk.j]
     else if i < blk.i then [Opcode.mk .delete i blk.i j blk.j]
     else if j < blk.j then [Opcode.mk .insert i blk.i j blk.j]
     else []) ++
    (if 0 < blk.size then
      [Opcode.mk .equal blk.i (blk.i + blk.size) blk.j (blk.j + blk.size)]
     else []) ++
    opcodesFrom (blk.i + blk.size) (blk.j + blk.size) rest

/-- `SequenceMatcher(None, a, b).get_opcodes()`. -/
def getOpcodes (a b : List Key) : List Opcode := opcodesFrom 0 0 (matchingBlocks a b)

/-! ### Annotated output trees -/

/-- An annotated output element.  `spacer n` is `ET.Element("__spacer__",
lines=str(n))`; a `node` carries the `__diff_style__` and `__append_spacer__`
annotations as fields (the source stores them as stringified numbers and
reads them back with `int`, an exact round trip). -/
inductive ATree where
  | spacer (lines : Nat)
  | node (tag : String) (attrib : List (String × String)) (diffStyle : Option String)
         (text : Option String) (appendSpacer : Nat) (children : List ATree)
deriving Repr

/-- `len(elem) == 0` on annotated elements (spacers have no children). -/
def aIsLeaf : ATree → Bool
  | .spacer _ => true
  | .node _ _ _ _ _ cs => cs.isEmpty

/-- The `mark_tree` text wrapper
`<span style="{style} font-weight:bold;">{escape_html(text)}</span>`. -/
def spanBold (style s : String) : String :=
  "<span style=\"" ++ style ++ " font-weight:bold;\">" ++ escapeHtml s ++ "</span>"

/-- The modified-text wrapper used in the same-tag branch. -/
def modSpan (s : String) : String :=
  "<span style=\"color:#ff8800; font-weight:bold;\">" ++ escapeHtml s ++ "</span>"

/- `mark_tree(deepcopy(node), style)`: wrap any non-blank text, stamp the
style on every element. -/
mutual
def markTree (style : String) : Node → ATree
  | .mk t a x cs =>
    ATree.node t a (some style)
      (match x with
       | some s => if textHasContent (some s) then some (spanBold style s) else some s
       | none => none)
      0 (markTreeList style cs)
def markTreeList (style : String) : List Node → List ATree
  | [] => []
  | c :: cs => markTree style c :: markTreeList style cs
end

/- A plain `deepcopy` of an input subtree viewed as annotated output. -/
mutual
def toACopy : Node → ATree
  | .mk t a x cs => ATree.node t a none x 0 (toACopyList cs)
def toACopyList : List Node → List ATree
  | [] => []
  | c :: cs => toACopy c :: toACopyList cs
end

/-- A preserved context child: a deepcopy whose root text is replaced by
`escape_html((text or "").strip())`. -/
def ctxtCopy (c : Node) : ATree :=
  ATree.node c.tag c.attrib none (some (escapeHtml (stripStr (c.text.getD ""))))
    0 (toACopyList c.children)

/- `count_lines` of `xml_struct_diff-11.py`: `is_leaf` forces 1, otherwise
2 for the tag pair, 1 for non-blank text, plus children (childless children
count 1).  This function has no spacer case; the pipeline only applies it to
freshly marked copies, which contain none. -/
mutual
def countLinesA : ATree → Bool → Nat
  | .spacer _, isLeaf => if isLeaf then 1 else 2
  | .node _ _ _ x _ cs, isLeaf =>
    if isLeaf then 1
    else 2 + (if textHasContent x then 1 else 0) + countChildrenA cs
def countChildrenA : List ATree → Nat
  | [] => 0
  | c :: cs => countLinesA c (aIsLeaf c) + countChildrenA cs
end

/- `count_lines` of `xml_struct_diff-6.py`: explicit spacers count their
stored `lines`, childless elements count 1, containers count
`2 + text + children + __append_spacer__`. -/
mutual
def countLines6 : ATree → Nat
  | .spacer n => n
  | .node _ _ _ x app cs =>
    if cs.isEmpty then 1
    else 2 + (if textHasContent x then 1 else 0) + countChildren6 cs + app
def countChildren6 : List ATree → Nat
  | [] => 0
  | c :: cs => countLines6 c + countChildren6 cs
end

/- The number of rendered `<div>` lines `serialize` emits for a node:
spacers render their stored count, a leaf renders one line, a container
renders open tag, optional text line, children, close tag; trailing
`__append_spacer__` lines follow in both shapes. -/
mutual
def serializeLines : ATree → Nat
  | .spacer n => n
  | .node _ _ _ x app cs =>
    if cs.isEmpty then 1 + app
    else 2 + (if textHasContent x then 1 else 0) + serializeChildren cs + app
def serializeChildren : List ATree → Nat
  | [] => 0
  | c :: cs => serializeLines c + serializeChildren cs
end

/-- Kernel-computable `str.startswith`. -/
def strStartsWith (s p : String) : Bool := decide (s.data.take p.data.length = p.data)

/-- `escape_html(v).replace('"', '&quot;')` for attribute values (the final
replace is the character-wise quote expansion). -/
def escAttrValue (v : String) : String :=
  String.mk ((escapeHtml v).data.flatMap
    (fun c => if c = '"' then ['&', 'q', 'u', 'o', 't', ';'] else [c]))

/-- Attribute rendering: names beginning `__` are internal and skipped. -/
def attrsHtml (l : List (String × String)) : String :=
  l.foldl (fun acc p =>
    if strStartsWith p.1 "__" then acc
    else acc ++ " " ++ p.1 ++ "=\"" ++ escAttrValue p.2 ++ "\"") ""

def spacerDivs (n : Nat) : String :=
  String.join (List.replicate n "<div class=\"spacer\">&nbsp;</div>")

/- `serialize(elem, level)`: the HTML rendering of one annotated tree. -/
mutual
def serializeHtml : ATree → Nat → String
  | .spacer n, _ => spacerDivs n
  | .node tg ab dsty x app cs, level =>
    let indentStyle := "padding-left: " ++ toString (level * 20) ++ "px;"
    let tagStyle := dsty.getD "color: #6b7280;"
    let startTag := "<span style=\"" ++ tagStyle ++ "\">&lt;" ++ tg ++ attrsHtml ab
      ++ "&gt;</span>"
    let endTag := "<span style=\"" ++ tagStyle ++ "\">&lt;/" ++ tg ++ "&gt;</span>"
    let spacerHtml := spacerDivs app
    if cs.isEmpty then
      let content := x.getD ""
      let content := if strStartsWith content "<span" then content
        else "<span style=\"color: #374151;\">" ++ content ++ "</span>"
      "<div style=\"" ++ indentStyle ++ "\">" ++ startTag ++ content ++ endTag
        ++ "</div>" ++ spacerHtml
    else
      let textPart :=
        if textHasContent x then
          let textIndent := "padding-left: " ++ toString (level * 20 + 20) ++ "px;"
          let tc := stripStr (x.getD "")
          let tc := if strStartsWith tc "<span" then tc
            else "<span style=\"color: #374151;\">" ++ tc ++ "</span>"
          "<div style=\"" ++ textIndent ++ "\">" ++ tc ++ "</div>"
        else ""
      "<div style=\"" ++ indentStyle ++ "\">" ++ startTag ++ "</div>" ++ textPart ++
        serializeHtmlList cs (level + 1) ++
        "<div style=\"" ++ indentStyle ++ "\">" ++ endTag ++ "</div>" ++ spacerHtml
def serializeHtmlList : List ATree → Nat → String
  | [], _ => ""
  | c :: cs, level => serializeHtml c level ++ serializeHtmlList cs level
end

/-! ### The Differ (`compare_nodes`) and the pipeline (`compute_diff`) -/

/-- The change counters, accumulated once per diff invocation. -/
structure Stats where
  added : Nat
  removed : Nat
  modified : Nat
deriving DecidableEq, Repr

def Stats.zero : Stats := ⟨0, 0, 0⟩

def Stats.add (s t : Stats) : Stats :=
  ⟨s.added + t.added, s.removed + t.removed, s.modified + t.modified⟩

def sumStats (l : List Stats) : Stats := l.foldr Stats.add Stats.zero

/-- The result of one `compare_nodes` call: the two annotated outputs, the
change flag, and the stat increments performed by the call (the Python code
mutates a shared dict; returning the per-call delta is equivalent). -/
structure Res where
  left : Option ATree
  right : Option ATree
  changed : Bool
  stats : Stats
deriving Repr

def removedStyle : String := "color:#cc0000;"

def addedStyle : String := "color:#00aa00;"

/-- The `CONTEXT_TAGS` set of `xml_struct_diff-11.py`. -/
def contextTags : List String := ["name", "id", "description", "type", "vlan-id"]

/-- The one-sided removal case: mark the whole subtree, pair it with a spacer
sized `count_lines(res_a, len(res_a) == 0)`. -/
def mkRemoved (t : Node) : ATree × ATree :=
  let ra := markTree removedStyle t
  (ra, ATree.spacer (countLinesA ra (aIsLeaf ra)))

/-- The one-sided insertion case, symmetric to `mkRemoved`. -/
def mkAdded (t : Node) : ATree × ATree :=
  let rb := markTree addedStyle t
  (ATree.spacer (countLinesA rb (aIsLeaf rb)), rb)

/-- Store `__append_spacer__` on an element. -/
def setAppend : ATree → Nat → ATree
  | .spacer n, _ => .spacer n
  | .node t a d x _ cs, app => .node t a d x app cs

/-- The tag-mismatch branch: full removal of `a` plus full insertion of `b`,
with `__append_spacer__` equalizing the rendered heights. -/
def mismatchCompare (a b : Node) : Res :=
  let ra := markTree removedStyle a
  let rb := markTree addedStyle b
  let la := countLinesA ra (aIsLeaf ra)
  let lb := countLinesA rb (aIsLeaf rb)
  ⟨some (if la < lb then setAppend ra (lb - la) else ra),
   some (if lb < la then setAppend rb (la - lb) else rb),
   true, ⟨1, 1, 0⟩⟩

/-- One aligned work item produced by walking the opcodes over the two child
lists. -/
inductive Slot where
  | ctxt (ca cb : Node)
  | pair (ca cb : Node)
  | repl (ca cb : Node)
  | del (ca : Node)
  | ins (cb : Node)
deriving Repr

/-- `xs[start : start + len]`. -/
def segment {α : Type} (l : List α) (start len : Nat) : List α := (l.drop start).take len

/-- The work items of one opcode.  `equal` pairs positionally (context tags
are copied, others compared); `replace` pairs the shorter prefix positionally
(same tag: recursive compare; different tags: simultaneous remove plus
insert) and resolves the leftover of the longer side one-sidedly;
`delete`/`insert` are one-sided.  Indexing `children_a[i1+k]` is rendered as
`zip`/`segment`, identical for the in-range opcodes the matcher produces. -/
def slotsOfOpcode (A B : List Node) (op : Opcode) : List Slot :=
  match op.tag with
  | .equal =>
    ((segment A op.i1 (op.i2 - op.i1)).zip (segment B op.j1 (op.j2 - op.j1))).map
      (fun p => if p.1.tag ∈ contextTags then Slot.ctxt p.1 p.2 else Slot.pair p.1 p.2)
  | .replace =>
    let lenA := op.i2 - op.i1
    let lenB := op.j2 - op.j1
    let m := min lenA lenB
    ((segment A op.i1 m).zip (segment B op.j1 m)).map
      (fun p => if p.1.tag = p.2.tag then Slot.pair p.1 p.2 else Slot.repl p.1 p.2) ++
    (segment A (op.i1 + m) (lenA - m)).map Slot.del ++
    (segment B (op.j1 + m) (lenB - m)).map Slot.ins
  | .delete => (segment A op.i1 (op.i2 - op.i1)).map Slot.del
  | .insert => (segment B op.j1 (op.j2 - op.j1)).map Slot.ins

def buildSlots (A B : List Node) (ops : List Opcode) : List Slot :=
  ops.flatMap (slotsOfOpcode A B)

/-- What one slot appends to `out_a` / `out_b`, whether it set
`has_child_changes`, and its stat increments. -/
structure SlotRes where
  la : List ATree
  rb : List ATree
  changed : Bool
  stats : Stats
deriving Repr

/-- Processing of one work item in the child loop of `compare_nodes`, with
the recursive comparison passed in as `cmp`. -/
def processSlotF (cmp : Option Node → Option Node → Res) : Slot → SlotRes
  | .ctxt ca cb => SlotRes.mk [ctxtCopy ca] [ctxtCopy cb] false Stats.zero
  | .pair ca cb =>
    let r := cmp (some ca) (some cb)
    if r.changed then SlotRes.mk r.left.toList r.right.toList true r.stats
    else SlotRes.mk [] [] false r.stats
  | .repl ca cb =>
    let r1 := cmp (some ca) none
    let r2 := cmp none (some cb)
    SlotRes.mk (r1.left.toList ++ r2.left.toList)
      (r1.right.toList ++ r2.right.toList) true (r1.stats.add r2.stats)
  | .del ca =>
    let r := cmp (some ca) none
    SlotRes.mk r.left.toList r.right.toList true r.stats
  | .ins cb =>
    let r := cmp none (some cb)
    SlotRes.mk r.left.toList r.right.toList true r.stats

/-- Assembly of the same-tag result from the processed child slots:
`has_child_changes = results.any changed`; prune when nothing changed,
otherwise build the two annotated output elements. -/
def assembleRes (a b : Node) (isMod : Bool) (ta tb : String)
    (results : List SlotRes) : Res :=
  if !isMod && !(results.any SlotRes.changed) then
    ⟨none, none, false, sumStats (results.map SlotRes.stats)⟩
  else
    ⟨some (ATree.node a.tag a.attrib (if isMod then some "color:#ff8800;" else none)
      (some (if isMod then modSpan ta else escapeHtml ta)) 0
      ((results.map SlotRes.la).flatten)),
     some (ATree.node b.tag b.attrib (if isMod then some "color:#ff8800;" else none)
      (some (if isMod then modSpan tb else escapeHtml tb)) 0
      ((results.map SlotRes.rb).flatten)),
     true, (sumStats (results.map SlotRes.stats)).add (if isMod then ⟨0, 0, 1⟩ else Stats.zero)⟩

/-- The same-tag branch of `compare_nodes`: compare trimmed text and attribute
dicts, align and process the children, prune when nothing changed. -/
def sameTagRes (cmp : Option Node → Option Node → Res) (a b : Node) : Res :=
  assembleRes a b
    (decide (stripStr (a.text.getD "") ≠ stripStr (b.text.getD "")) || !(dictEq a.attrib b.attrib))
    (stripStr (a.text.getD "")) (stripStr (b.text.getD ""))
    ((buildSlots a.children b.children
      (getOpcodes (nodeKeyList a.children) (nodeKeyList b.children))).map (processSlotF cmp))

/-- `compare_nodes`, fueled.  The wrapper `compareNodes` supplies fuel
`optWeight oa + optWeight ob`, which `compareFuel_congr` shows is always
sufficient; the fuel-0 branch is dead code. -/
def compareFuel : Nat → Option Node → Option Node → Res
  | 0, _, _ => ⟨none, none, false, Stats.zero⟩
  | _ + 1, none, none => ⟨none, none, false, Stats.zero⟩
  | _ + 1, some a, none =>
    let p := mkRemoved a
    ⟨some p.1, some p.2, true, ⟨0, 1, 0⟩⟩
  | _ + 1, none, some b =>
    let p := mkAdded b
    ⟨some p.1, some p.2, true, ⟨1, 0, 0⟩⟩
  | fuel + 1, some a, some b =>
    if a.tag ≠ b.tag then mismatchCompare a b
    else sameTagRes (compareFuel fuel) a b

/- Node count of a tree, the fuel measure for `compareFuel`. -/
mutual
def nodeWeight : Node → Nat
  | .mk _ _ _ cs => 1 + nodeWeightList cs
def nodeWeightList : List Node → Nat
  | [] => 0
  | c :: cs => nodeWeight c + nodeWeightList cs
end

def optWeight : Option Node → Nat
  | none => 0
  | some t => nodeWeight t

/-- `compare_nodes(node_a, node_b)`. -/
def compareNodes (oa ob : Option Node) : Res :=
  compareFuel (optWeight oa + optWeight ob) oa ob

/-- The "no changes" marker emitted when a side serializes to nothing. -/
def noChangesMarker : String := "<div class=\"text-gray-400 italic p-4\">No Changes</div>"

/-- `parse_clean`: blank input gives `None`; otherwise the external parser
(the namespace regexes plus `ET.fromstring`, modeled by the oracle
`fromstring`, which returns `none` exactly when `ET.ParseError` is raised)
produces a tree that is then canonically sorted in place. -/
def parseClean (fromstring : String → Option Node) (s : String) : Option Node :=
  if s = "" ∨ stripStr s = "" then none
  else (fromstring s).map canonNode

def serializeTop : Option ATree → String
  | none => ""
  | some t => serializeHtml t 0

/-- The `compute_diff` return value. -/
structure DiffResult where
  left : String
  right : String
  changed : Bool
  addedCount : Nat
  removedCount : Nat
  modifiedCount : Nat
deriving Repr

/-- `compute_diff(before_str, after_str)`. -/
def computeDiff (fromstring : String → Option Node) (before after : String) : DiffResult :=
  let r := compareNodes (parseClean fromstring before) (parseClean fromstring after)
  let l := serializeTop r.left
  let rr := serializeTop r.right
  ⟨if l = "" then noChangesMarker else l,
   if rr = "" then noChangesMarker else rr,
   r.changed, r.stats.added, r.stats.removed, r.stats.modified⟩

/-! ### Auxiliary notions used by the statements and proofs -/

/-- Total number of rendered lines of an optional output tree. -/
def optLines : Option ATree → Nat
  | none => 0
  | some t => serializeLines t

/-- The `__append_spacer__` annotation of an annotated element. -/
def appendOf : ATree → Nat
  | .spacer _ => 0
  | .node _ _ _ _ app _ => app

/- A "plain" annotated tree: no `__spacer__` elements and no
`__append_spacer__` annotations anywhere.  Freshly marked or copied input
subtrees are plain. -/
mutual
def plainA : ATree → Bool
  | .spacer _ => false
  | .node _ _ _ _ app cs => decide (app = 0) && plainList cs
def plainList : List ATree → Bool
  | [] => true
  | c :: cs => plainA c && plainList cs
end

/-- Sum of the three change counters. -/
def Stats.total (s : Stats) : Nat := s.added + s.removed + s.modified

/-- A genuinely matching block between two key sequences: the two slices
agree and lie inside the sequences. -/
def genuine (a b : List Key) (m : Best) : Prop :=
  segment a m.i m.size = segment b m.j m.size ∧
    m.i + m.size ≤ a.length ∧ m.j + m.size ≤ b.length

/-- The cursor position on the `a` side after walking a block list. -/
def endI (blocks : List Best) (i : Nat) : Nat :=
  blocks.foldl (fun _ blk => blk.i + blk.size) i

/-- The cursor position on the `b` side after walking a block list. -/
def endJ (blocks : List Best) (j : Nat) : Nat :=
  blocks.foldl (fun _ blk => blk.j + blk.size) j

/-- Whether the element of `L` at position `t` survives the popularity purge. -/
def keptAt (L : List Key) (t : Nat) : Bool := !isPopular L (L.getD t dfltKey)

/-- Length of the maximal purge-surviving run of `L` ending at position `t`. -/
def runF (L : List Key) : Nat → Nat
  | 0 => if keptAt L 0 then 1 else 0
  | t + 1 => if keptAt L (t + 1) then runF L t + 1 else 0

/- The child-permutation relation of the move-insensitivity property: `T'`
arises from `T` by reordering child lists anywhere in the tree, with no other
change. -/
mutual
inductive TreePerm : Node → Node → Prop where
  | node (t : String) (a : List (String × String)) (x : Option String)
      {cs ds : List Node} : ChildPerm cs ds → TreePerm (.mk t a x cs) (.mk t a x ds)
inductive ChildPerm : List Node → List Node → Prop where
  | nil : ChildPerm [] []
  | cons {c d : Node} {cs ds : List Node} :
      TreePerm c d → ChildPerm cs ds → ChildPerm (c :: cs) (d :: ds)
  | swap (c d : Node) (cs : List Node) : ChildPerm (c :: d :: cs) (d :: c :: cs)
  | trans {cs ds es : List Node} : ChildPerm cs ds → ChildPerm ds es → ChildPerm cs es
end

/-- The height contract exactly as the specification states it: leaves count
1, containers count `2 + text + children`, spacers count their stored value. -/
def heightSpec (h : ATree → Nat) : Prop :=
  (∀ n, h (.spacer n) = n) ∧
  (∀ t a d x app, h (.node t a d x app []) = 1) ∧
  (∀ t a d x app cs, cs ≠ [] →
    h (.node t a d x app cs) = 2 + (if textHasContent x then 1 else 0) + (cs.map h).sum)

/-! ### Concrete scenario inputs (from the specification's examples) -/

/-- `<b>1</b>`. -/
def exB1 : Node := .mk "b" [] (some "1") []

/-- `<c>2</c>`. -/
def exC2 : Node := .mk "c" [] (some "2") []

/-- `<c>3</c>`. -/
def exC3 : Node := .mk "c" [] (some "3") []

/-- `<config><a><b>1</b><c>2</c></a></config>`. -/
def exCfgBefore : Node := .mk "config" [] none [.mk "a" [] none [exB1, exC2]]

/-- `<config><a><b>1</b><c>3</c></a></config>`. -/
def exCfgAfter : Node := .mk "config" [] none [.mk "a" [] none [exB1, exC3]]

/-- `<config><x>1</x></config>`. -/
def exCfgX : Node := .mk "config" [] none [.mk "x" [] (some "1") []]

/-- `<config><y>1</y></config>`. -/
def exCfgY : Node := .mk "config" [] none [.mk "y" [] (some "1") []]

/-- `<config><a>1</a></config>`. -/
def exInsBefore : Node := .mk "config" [] none [.mk "a" [] (some "1") []]

/-- `<config><a>1</a><b>2</b></config>`. -/
def exInsAfter : Node :=
  .mk "config" [] none [.mk "a" [] (some "1") [], .mk "b" [] (some "2") []]

/- Size measure on annotated trees, used as induction fuel. -/
mutual
def aWeight : ATree → Nat
  | .spacer _ => 1
  | .node _ _ _ _ _ cs => 1 + aWeightList cs
def aWeightList : List ATree → Nat
  | [] => 0
  | c :: cs => aWeight c + aWeightList cs
end

/-- The find-longest-match invariant for the running best block: it lies in
the search window and its two slices genuinely agree. -/
def bestInv (a b : List Key) (alo ahi blo bhi : Nat) (m : Best) : Prop :=
  alo ≤ m.i ∧ blo ≤ m.j ∧ m.i + m.size ≤ ahi ∧ m.j + m.size ≤ bhi ∧
    segment a m.i m.size = segment b m.j m.size

/-- The `j2len` invariant: every nonzero entry `T j` records a genuine common
slice that ends at row `iEnd - 1` and at position `j`, inside the window. -/
def tEnds (a b : List Key) (alo blo iEnd : Nat) (T : Nat → Nat) : Prop :=
  ∀ j, T j ≠ 0 → ∃ i0 j0, i0 + T j = iEnd ∧ j0 + T j = j + 1 ∧ alo ≤ i0 ∧ blo ≤ j0 ∧
    j < b.length ∧ iEnd ≤ a.length ∧ segment a i0 (T j) = segment b j0 (T j)

/-- Largest purge-surviving run value among rows before `i`. -/
def runMaxB (L : List Key) : Nat → Nat
  | 0 => 0
  | i + 1 => max (runMaxB L i) (runF L i)

/-- The run value of the row before `i` (0 at the start). -/
def prevRun (L : List Key) : Nat → Nat
  | 0 => 0
  | t + 1 => runF L t

/-- The per-slot facts the master invariant needs: balanced output lines,
matching emptiness, zero stats when unchanged, positive stats when changed. -/
def SlotOK (sr : SlotRes) : Prop :=
  ((sr.la.map serializeLines).sum = (sr.rb.map serializeLines).sum) ∧
  (sr.la.isEmpty = sr.rb.isEmpty) ∧
  (sr.changed = false → sr.stats = Stats.zero) ∧
  (sr.changed = true → 0 < sr.stats.total)

/-- The master invariant of `compare_nodes` results: both sides present or
both absent, balanced rendered heights, the change flag tracks the counters,
and an unchanged comparison is fully pruned. -/
def ResOK (r : Res) : Prop :=
  (r.left.isSome = r.right.isSome) ∧
  (optLines r.left = optLines r.right) ∧
  (r.changed = true ↔ 0 < r.stats.total) ∧
  (r.changed = false → r.left = none ∧ r.right = none ∧ r.stats = Stats.zero)

/-- Blocks listed in walk order: each starts at or after the running cursor. -/
def ascBlocks : Nat → Nat → List Best → Prop
  | _, _, [] => True
  | i, j, blk :: rest =>
    i ≤ blk.i ∧ j ≤ blk.j ∧ ascBlocks (blk.i + blk.size) (blk.j + blk.size) rest

/-- The collapsing step of `nonAdjacent` as a named function. -/
def naStep : (List Best × Best) → Best → (List Best × Best)
  | (acc, pending), blk =>
    if pending.i + pending.size = blk.i ∧ pending.j + pending.size = blk.j then
      (acc, Best.mk pending.i pending.j (pending.size + blk.size))
    else if 0 < pending.size then (acc ++ [pending], blk) else (acc, blk)

/-- Forward input of the symmetry counterexample: `<r><s>x</s><t>2</t></r>`. -/
def exSymA1 : Node := .mk "r" [] none [.mk "s" [] (some "x") [], .mk "t" [] (some "2") []]

/-- Backward input of the symmetry counterexample: 200 children, the `s`
and `z` keys popular enough for the autojunk heuristic to purge. -/
def exSymB1 : Node := .mk "r" [] none
  ([.mk "b" [] (some "1") []] ++ List.replicate 4 (.mk "s" [] (some "x") [])
    ++ List.replicate 195 (.mk "z" [] (some "j") []))

/-- Forward input of the modified-counter counterexample. -/
def exSymA2 : Node := .mk "r" [] none [.mk "p" [] (some "1") [], .mk "y" [] none []]

/-- Backward input of the modified-counter counterexample: the popular
`<p>1</p>` key is purged in one direction only. -/
def exSymB2 : Node := .mk "r" [] none
  ([.mk "p" [] (some "0") []] ++ List.replicate 4 (.mk "p" [] (some "1") [])
    ++ List.replicate 195 (.mk "x" [] (some "9") []))

/-- A parser oracle serving the four symmetry-counterexample documents. -/
def cexOracle : String → Option Node := fun s =>
  if s = "A1" then some exSymA1 else if s = "B1" then some exSymB1
  else if s = "A2" then some exSymA2 else if s = "B2" then some exSymB2 else none

/-- `<r><b>1</b><c>2</c></r>`, a tree whose children get reordered. -/
def exPermL : Node := .mk "r" [] none [exB1, exC2]

/-- `<r><c>2</c><b>1</b></r>`: `exPermL` with the two children swapped. -/
def exPermR : Node := .mk "r" [] none [exC2, exB1]

/-! ### Basic facts about the mutual list helpers -/

theorem nodeKeyList_eq_map : ∀ cs : List Node, nodeKeyList cs = cs.map nodeKey := by
  intro cs
  induction cs with
  | nil => rfl
  | cons c cs ih => rw [nodeKeyList, ih, List.map_cons]

theorem canonPairList_eq_map : ∀ cs : List Node, canonPairList cs = cs.map canonPair := by
  intro cs
  induction cs with
  | nil => rfl
  | cons c cs ih => rw [canonPairList, ih, List.map_cons]

theorem markTreeList_eq_map (style : String) :
    ∀ cs : List Node, markTreeList style cs = cs.map (markTree style) := by
  intro cs
  induction cs with
  | nil => rfl
  | cons c cs ih => rw [markTreeList, ih, List.map_cons]

theorem toACopyList_eq_map : ∀ cs : List Node, toACopyList cs = cs.map toACopy := by
  intro cs
  induction cs with
  | nil => rfl
  | cons c cs ih => rw [toACopyList, ih, List.map_cons]

theorem countChildrenA_eq_sum : ∀ cs : List ATree,
    countChildrenA cs = (cs.map (fun c => countLinesA c (aIsLeaf c))).sum := by
  intro cs
  induction cs with
  | nil => rfl
  | cons c cs ih => rw [countChildrenA, ih, List.map_cons, List.sum_cons]

theorem serializeChildren_eq_sum : ∀ cs : List ATree,
    serializeChildren cs = (cs.map serializeLines).sum := by
  intro cs
  induction cs with
  | nil => rfl
  | cons c cs ih => rw [serializeChildren, ih, List.map_cons, List.sum_cons]

theorem countChildren6_eq_sum : ∀ cs : List ATree,
    countChildren6 cs = (cs.map countLines6).sum := by
  intro cs
  induction cs with
  | nil => rfl
  | cons c cs ih => rw [countChildren6, ih, List.map_cons, List.sum_cons]

theorem nodeWeightList_eq_sum : ∀ cs : List Node,
    nodeWeightList cs = (cs.map nodeWeight).sum := by
  intro cs
  induction cs with
  | nil => rfl
  | cons c cs ih => rw [nodeWeightList, ih, List.map_cons, List.sum_cons]

theorem nodeWeight_pos (t : Node) : 1 ≤ nodeWeight t := by
  cases t with
  | mk tg a x cs =>
    rw [nodeWeight]
    omega

theorem nodeWeight_le_of_mem {c : Node} {cs : List Node} (h : c ∈ cs) :
    nodeWeight c ≤ nodeWeightList cs := by
  induction cs with
  | nil => cases h
  | cons d ds ih =>
    rw [nodeWeightList]
    rcases List.mem_cons.mp h with h | h
    · subst h; omega
    · have := ih h; omega

theorem nodeWeight_children (t : Node) : nodeWeightList t.children + 1 = nodeWeight t := by
  cases t with
  | mk tg a x cs =>
    show nodeWeightList cs + 1 = nodeWeight (Node.mk tg a x cs)
    rw [nodeWeight]
    omega

/-! ### Membership facts for slots -/

theorem mem_segment {c : Node} {l : List Node} {s n : Nat}
    (h : c ∈ segment l s n) : c ∈ l :=
  List.mem_of_mem_drop (List.mem_of_mem_take h)

/-- Every tree stored in a slot is a child of the corresponding side. -/
theorem slot_mem {A B : List Node} {ops : List Opcode} {s : Slot}
    (h : s ∈ buildSlots A B ops) :
    (match s with
     | .ctxt ca cb => ca ∈ A ∧ cb ∈ B
     | .pair ca cb => ca ∈ A ∧ cb ∈ B
     | .repl ca cb => ca ∈ A ∧ cb ∈ B
     | .del ca => ca ∈ A
     | .ins cb => cb ∈ B) := by
  rw [buildSlots, List.mem_flatMap] at h
  obtain ⟨op, -, h⟩ := h
  rw [slotsOfOpcode] at h
  rcases htag : op.tag with _ | _ | _ | _ <;> rw [htag] at h
  · rw [List.mem_map] at h
    obtain ⟨p, hp, he⟩ := h
    have := List.of_mem_zip hp
    have h1 := mem_segment this.1
    have h2 := mem_segment this.2
    split at he <;> (cases s <;> simp_all)
  · rw [List.append_assoc, List.mem_append, List.mem_append] at h
    rcases h with h | h | h
    · rw [List.mem_map] at h
      obtain ⟨p, hp, he⟩ := h
      have := List.of_mem_zip hp
      have h1 := mem_segment this.1
      have h2 := mem_segment this.2
      split at he <;> (cases s <;> simp_all)
    · rw [List.mem_map] at h
      obtain ⟨c, hc, he⟩ := h
      have h1 := mem_segment hc
      cases s <;> simp_all
    · rw [List.mem_map] at h
      obtain ⟨c, hc, he⟩ := h
      have h1 := mem_segment hc
      cases s <;> simp_all
  · rw [List.mem_map] at h
    obtain ⟨c, hc, he⟩ := h
    have h1 := mem_segment hc
    cases s <;> simp_all
  · rw [List.mem_map] at h
    obtain ⟨c, hc, he⟩ := h
    have h1 := mem_segment hc
    cases s <;> simp_all

/-! ### Fuel adequacy for `compareFuel` -/

theorem sameTagRes_congr {c1 c2 : Option Node → Option Node → Res} (a b : Node)
    (h : ∀ s ∈ buildSlots a.children b.children
      (getOpcodes (nodeKeyList a.children) (nodeKeyList b.children)),
      processSlotF c1 s = processSlotF c2 s) :
    sameTagRes c1 a b = sameTagRes c2 a b := by
  rw [sameTagRes, sameTagRes, List.map_congr_left h]

/-- With fuel at least the combined node count, the result no longer depends
on the exact fuel value: `compareNodes` therefore computes the unbounded
recursion of `compare_nodes`. -/
theorem compareFuel_congr : ∀ f g : Nat, ∀ oa ob : Option Node,
    optWeight oa + optWeight ob ≤ f → optWeight oa + optWeight ob ≤ g →
    compareFuel f oa ob = compareFuel g oa ob := by
  intro f
  induction f using Nat.strong_induction_on with
  | _ f ihf =>
    intro g oa ob hf hg
    match f, oa, ob with
    | 0, oa, ob =>
      have h1 : optWeight oa = 0 := by omega
      have h2 : optWeight ob = 0 := by omega
      match oa, ob with
      | none, none => cases g <;> rfl
      | some a, _ =>
        have := nodeWeight_pos a
        rw [optWeight] at h1
        omega
      | none, some b =>
        have := nodeWeight_pos b
        rw [optWeight] at h2
        omega
    | (f + 1), oa, ob =>
      match g, oa, ob with
      | 0, oa, ob =>
        have h1 : optWeight oa = 0 := by omega
        have h2 : optWeight ob = 0 := by omega
        match oa, ob with
        | none, none => rfl
        | some a, _ =>
          have := nodeWeight_pos a
          rw [optWeight] at h1
          omega
        | none, some b =>
          have := nodeWeight_pos b
          rw [optWeight] at h2
          omega
      | (g + 1), none, none => rfl
      | (g + 1), some a, none => rfl
      | (g + 1), none, some b => rfl
      | (g + 1), some a, some b =>
        rw [compareFuel, compareFuel]
        by_cases htag : a.tag ≠ b.tag
        · rw [if_pos htag, if_pos htag]
        · rw [if_neg htag, if_neg htag]
          refine sameTagRes_congr a b ?_
          intro s hs
          have hmem := slot_mem hs
          have hwa := nodeWeight_children a
          have hwb := nodeWeight_children b
          rw [optWeight, optWeight] at hf hg
          cases s with
          | ctxt ca cb => rfl
          | pair ca cb =>
            have hca := nodeWeight_le_of_mem hmem.1
            have hcb := nodeWeight_le_of_mem hmem.2
            have e : compareFuel f (some ca) (some cb) = compareFuel g (some ca) (some cb) := by
              refine ihf f (by omega) g (some ca) (some cb) ?_ ?_ <;>
                (rw [optWeight, optWeight]; omega)
            rw [processSlotF, processSlotF, e]
          | repl ca cb =>
            have hca := nodeWeight_le_of_mem hmem.1
            have hcb := nodeWeight_le_of_mem hmem.2
            have e1 : compareFuel f (some ca) none = compareFuel g (some ca) none := by
              refine ihf f (by omega) g (some ca) none ?_ ?_ <;>
                (rw [optWeight, optWeight]; omega)
            have e2 : compareFuel f none (some cb) = compareFuel g none (some cb) := by
              refine ihf f (by omega) g none (some cb) ?_ ?_ <;>
                (rw [optWeight, optWeight]; omega)
            rw [processSlotF, processSlotF, e1, e2]
          | del ca =>
            have hca := nodeWeight_le_of_mem hmem
            have e1 : compareFuel f (some ca) none = compareFuel g (some ca) none := by
              refine ihf f (by omega) g (some ca) none ?_ ?_ <;>
                (rw [optWeight, optWeight]; omega)
            rw [processSlotF, processSlotF, e1]
          | ins cb =>
            have hcb := nodeWeight_le_of_mem hmem
            have e2 : compareFuel f none (some cb) = compareFuel g none (some cb) := by
              refine ihf f (by omega) g none (some cb) ?_ ?_ <;>
                (rw [optWeight, optWeight]; omega)
            rw [processSlotF, processSlotF, e2]

theorem compareNodes_eq_fuel {f : Nat} {oa ob : Option Node}
    (h : optWeight oa + optWeight ob ≤ f) :
    compareNodes oa ob = compareFuel f oa ob :=
  compareFuel_congr (optWeight oa + optWeight ob) f oa ob le_rfl h

/-! ### Height lemmas: plain trees, marking, copies -/

theorem aWeightList_eq_sum : ∀ cs : List ATree, aWeightList cs = (cs.map aWeight).sum := by
  intro cs
  induction cs with
  | nil => rfl
  | cons c cs ih => rw [aWeightList, ih, List.map_cons, List.sum_cons]

theorem aWeight_pos (t : ATree) : 1 ≤ aWeight t := by
  cases t with
  | spacer n => rw [aWeight]
  | node tg a d x app cs => rw [aWeight]; omega

theorem aWeight_le_of_mem {c : ATree} {cs : List ATree} (h : c ∈ cs) :
    aWeight c ≤ aWeightList cs := by
  induction cs with
  | nil => cases h
  | cons d ds ih =>
    rw [aWeightList]
    rcases List.mem_cons.mp h with h | h
    · subst h; omega
    · have := ih h; omega

theorem plainList_eq_all : ∀ cs : List ATree, plainList cs = cs.all plainA := by
  intro cs
  induction cs with
  | nil => rfl
  | cons c cs ih => rw [plainList, ih, List.all_cons]

theorem serializeLines_node (tg : String) (a : List (String × String))
    (d : Option String) (x : Option String) (app : Nat) (cs : List ATree) :
    serializeLines (.node tg a d x app cs) =
      if cs.isEmpty then 1 + app
      else 2 + (if textHasContent x then 1 else 0) + serializeChildren cs + app := by
  rw [serializeLines]

theorem countLinesA_node (tg : String) (a : List (String × String))
    (d : Option String) (x : Option String) (app : Nat) (cs : List ATree)
    (isLeaf : Bool) :
    countLinesA (.node tg a d x app cs) isLeaf =
      if isLeaf then 1
      else 2 + (if textHasContent x then 1 else 0) + countChildrenA cs := by
  rw [countLinesA]

/-- `text and text.strip()` is determined by the stripped text. -/
theorem textHasContent_eq_strip (x : Option String) :
    textHasContent x = decide (stripStr (x.getD "") ≠ "") := by
  cases x with
  | none => rfl
  | some s =>
    rw [textHasContent, Option.getD_some, stripStr]
    rcases h : trimChars s.data with _ | ⟨c, l⟩
    · decide
    · have hne : (String.mk (c :: l)) ≠ "" := by
        intro hc
        have h2 : c :: l = ([] : List Char) := congrArg String.data hc
        cases h2
      simp [hne]

/-- Stripping a string that starts with an angle bracket leaves it nonempty. -/
theorem trimChars_lt_cons (l : List Char) : (trimChars ('<' :: l)).isEmpty = false := by
  rw [trimChars, List.dropWhile_cons_of_neg (by decide)]
  have hne : ('<' :: l).reverse.dropWhile Char.isWhitespace ≠ [] := by
    rw [Ne, List.dropWhile_eq_nil_iff]
    intro hall
    have := hall '<' (by rw [List.mem_reverse]; exact List.mem_cons_self _ _)
    simp [Char.isWhitespace] at this
  rcases hx : ('<' :: l).reverse.dropWhile Char.isWhitespace with _ | ⟨c, m⟩
  · exact absurd hx hne
  · simp

/-- The modified-text span always renders a text line. -/
theorem modSpan_hasContent (s : String) : textHasContent (some (modSpan s)) = true := by
  rw [textHasContent]
  have h1 : "<span style=\"color:#ff8800; font-weight:bold;\">".data =
      '<' :: "span style=\"color:#ff8800; font-weight:bold;\">".data := by decide
  have hdata : (modSpan s).data = '<' ::
      ("span style=\"color:#ff8800; font-weight:bold;\">".data ++ (escapeHtml s).data
        ++ "</span>".data) := by
    rw [modSpan, String.data_append, String.data_append, h1]
    simp
  rw [hdata, trimChars_lt_cons]
  decide

/-- On plain trees, `count_lines` computes the rendered height. -/
theorem plain_lines : ∀ n : Nat, ∀ t : ATree, aWeight t ≤ n → plainA t = true →
    serializeLines t = countLinesA t (aIsLeaf t) := by
  intro n
  induction n with
  | zero => intro t h; have := aWeight_pos t; omega
  | succ n ih =>
    intro t h hp
    cases t with
    | spacer m => rw [plainA] at hp; cases hp
    | node tg a d x app cs =>
      rw [plainA, Bool.and_eq_true, decide_eq_true_iff] at hp
      obtain ⟨happ, hcs⟩ := hp
      subst happ
      rw [serializeLines_node, countLinesA_node, aIsLeaf]
      by_cases he : cs.isEmpty
      · rw [if_pos he, if_pos he]
      · rw [if_neg he, if_neg he]
        have hsum : ∀ ds : List ATree, aWeightList ds ≤ n → (∀ c ∈ ds, plainA c = true) →
            serializeChildren ds = countChildrenA ds := by
          intro ds
          induction ds with
          | nil => intro _ _; rfl
          | cons c ds ihc =>
            intro hw hall
            rw [serializeChildren, countChildrenA]
            rw [aWeightList] at hw
            have := aWeight_pos c
            have h1 : serializeLines c = countLinesA c (aIsLeaf c) :=
              ih c (by omega) (hall c (List.mem_cons_self c ds))
            have h2 : serializeChildren ds = countChildrenA ds :=
              ihc (by omega) (fun d hd => hall d (List.mem_cons_of_mem c hd))
            omega
        have hw : aWeightList cs ≤ n := by
          rw [aWeight] at h; omega
        rw [plainList_eq_all, List.all_eq_true] at hcs
        rw [hsum cs hw hcs]
        omega

/-- Marked copies of input subtrees are plain. -/
theorem markTree_plain (style : String) : ∀ n : Nat, ∀ t : Node, nodeWeight t ≤ n →
    plainA (markTree style t) = true := by
  intro n
  induction n with
  | zero => intro t h; have := nodeWeight_pos t; omega
  | succ n ih =>
    intro t h
    cases t with
    | mk tg a x cs =>
      simp only [markTree, plainA, Bool.and_eq_true]
      refine ⟨by decide, ?_⟩
      rw [markTreeList_eq_map, plainList_eq_all, List.all_eq_true]
      intro c hc
      rw [List.mem_map] at hc
      obtain ⟨u, hu, he⟩ := hc
      have hw : nodeWeight u ≤ n := by
        have h1 := nodeWeight_le_of_mem hu
        rw [nodeWeight] at h
        omega
      rw [← he]
      exact ih u hw

/-- The rendered height of a marked subtree is its `count_lines` value. -/
theorem markTree_lines (style : String) (t : Node) :
    serializeLines (markTree style t) =
      countLinesA (markTree style t) (aIsLeaf (markTree style t)) :=
  plain_lines (aWeight (markTree style t)) (markTree style t) le_rfl
    (markTree_plain style (nodeWeight t) t le_rfl)

/-- Balance of the pure-removal pair. -/
theorem mkRemoved_lines (t : Node) :
    serializeLines (mkRemoved t).2 = serializeLines (mkRemoved t).1 := by
  rw [mkRemoved]
  show serializeLines (.spacer _) = _
  rw [serializeLines, markTree_lines]

/-- Balance of the pure-insertion pair. -/
theorem mkAdded_lines (t : Node) :
    serializeLines (mkAdded t).1 = serializeLines (mkAdded t).2 := by
  rw [mkAdded]
  show serializeLines (.spacer _) = _
  rw [serializeLines, markTree_lines]

/-- Appending a spacer to a fresh element adds exactly its size to the
rendered height. -/
theorem setAppend_lines (tg : String) (a : List (String × String)) (d : Option String)
    (x : Option String) (cs : List ATree) (app : Nat) :
    serializeLines (setAppend (.node tg a d x 0 cs) app) =
      serializeLines (.node tg a d x 0 cs) + app := by
  rw [setAppend, serializeLines_node, serializeLines_node]
  by_cases he : cs.isEmpty
  · rw [if_pos he, if_pos he]
  · rw [if_neg he, if_neg he]; omega

theorem nodeKeyList_length (cs : List Node) : (nodeKeyList cs).length = cs.length := by
  rw [nodeKeyList_eq_map, List.length_map]

/-- The rendered height of a plain copy is determined by the identity key. -/
theorem toACopy_lines_of_key : ∀ n : Nat, ∀ c d : Node, nodeWeight c ≤ n →
    nodeKey c = nodeKey d → serializeLines (toACopy c) = serializeLines (toACopy d) := by
  intro n
  induction n with
  | zero => intro c d h; have := nodeWeight_pos c; omega
  | succ n ih =>
    intro c d h hk
    cases c with
    | mk t1 a1 x1 cs1 =>
      cases d with
      | mk t2 a2 x2 cs2 =>
        rw [nodeKey, nodeKey, Key.node.injEq] at hk
        obtain ⟨ht, ha, hx, hcs⟩ := hk
        rw [toACopy, toACopy, serializeLines_node, serializeLines_node]
        have hchild : ∀ us vs : List Node, nodeWeightList us ≤ n →
            nodeKeyList us = nodeKeyList vs →
            serializeChildren (toACopyList us) = serializeChildren (toACopyList vs) := by
          intro us
          induction us with
          | nil =>
            intro vs _ hkk
            cases vs with
            | nil => rfl
            | cons v vs => rw [nodeKeyList, nodeKeyList] at hkk; cases hkk
          | cons u us ihc =>
            intro vs hw hkk
            cases vs with
            | nil => rw [nodeKeyList, nodeKeyList] at hkk; cases hkk
            | cons v vs =>
              rw [nodeKeyList, nodeKeyList, List.cons.injEq] at hkk
              rw [toACopyList, toACopyList, serializeChildren, serializeChildren]
              rw [nodeWeightList] at hw
              have := nodeWeight_pos u
              have h1 : serializeLines (toACopy u) = serializeLines (toACopy v) :=
                ih u v (by omega) hkk.1
              have h2 := ihc vs (by omega) hkk.2
              omega
        have hlen : cs1.length = cs2.length := by
          have := congrArg List.length hcs
          rwa [nodeKeyList_length, nodeKeyList_length] at this
        have hemp : (toACopyList cs1).isEmpty = (toACopyList cs2).isEmpty := by
          rw [toACopyList_eq_map, toACopyList_eq_map]
          cases cs1 <;> cases cs2 <;> simp_all
        rw [hemp]
        by_cases he : (toACopyList cs2).isEmpty
        · rw [if_pos he, if_pos he]
        · rw [if_neg he, if_neg he]
          have htxt : textHasContent x1 = textHasContent x2 := by
            rw [textHasContent_eq_strip, textHasContent_eq_strip, hx]
          have hw1 : nodeWeightList cs1 ≤ n := by
            rw [nodeWeight] at h; omega
          rw [htxt, hchild cs1 cs2 hw1 hcs]

/-- The rendered height of a preserved context child is determined by the
identity key. -/
theorem ctxtCopy_lines_of_key {c d : Node} (hk : nodeKey c = nodeKey d) :
    serializeLines (ctxtCopy c) = serializeLines (ctxtCopy d) := by
  cases c with
  | mk t1 a1 x1 cs1 =>
    cases d with
    | mk t2 a2 x2 cs2 =>
      rw [nodeKey, nodeKey, Key.node.injEq] at hk
      obtain ⟨ht, ha, hx, hcs⟩ := hk
      rw [ctxtCopy, ctxtCopy]
      rw [serializeLines_node, serializeLines_node]
      have hchild : ∀ us vs : List Node, nodeKeyList us = nodeKeyList vs →
          serializeChildren (toACopyList us) = serializeChildren (toACopyList vs) := by
        intro us
        induction us with
        | nil =>
          intro vs hkk
          cases vs with
          | nil => rfl
          | cons v vs => rw [nodeKeyList, nodeKeyList] at hkk; cases hkk
        | cons u us ihc =>
          intro vs hkk
          cases vs with
          | nil => rw [nodeKeyList, nodeKeyList] at hkk; cases hkk
          | cons v vs =>
            rw [nodeKeyList, nodeKeyList, List.cons.injEq] at hkk
            rw [toACopyList, toACopyList, serializeChildren, serializeChildren]
            have h1 : serializeLines (toACopy u) = serializeLines (toACopy v) :=
              toACopy_lines_of_key (nodeWeight u) u v le_rfl hkk.1
            have h2 := ihc vs hkk.2
            omega
      have hlen : cs1.length = cs2.length := by
        have := congrArg List.length hcs
        rwa [nodeKeyList_length, nodeKeyList_length] at this
      have hemp : (toACopyList cs1).isEmpty = (toACopyList cs2).isEmpty := by
        rw [toACopyList_eq_map, toACopyList_eq_map]
        cases cs1 <;> cases cs2 <;> simp_all
      rw [hemp]
      by_cases he : (toACopyList cs2).isEmpty
      · rw [if_pos he, if_pos he]
      · rw [if_neg he, if_neg he]
        rw [hx, hchild cs1 cs2 hcs]

/-! ### Slice arithmetic -/

theorem segment_cons {α : Type} (l : List α) (d : α) (s n : Nat) (h : s < l.length) :
    segment l s (n + 1) = l.getD s d :: segment l (s + 1) n := by
  rw [segment, segment, List.drop_eq_getElem_cons h, List.take_succ_cons]
  rw [List.getD_eq_getElem l d h]

theorem segment_snoc {α : Type} (l : List α) (d : α) (s n : Nat) (h : s + n < l.length) :
    segment l s (n + 1) = segment l s n ++ [l.getD (s + n) d] := by
  rw [segment, segment, List.take_succ]
  congr 1
  rw [List.getElem?_drop, List.getElem?_eq_getElem h, List.getD_eq_getElem l d h]
  rfl

theorem segment_add {α : Type} (l : List α) (s n m : Nat) :
    segment l s (n + m) = segment l s n ++ segment l (s + n) m := by
  rw [segment, segment, segment, List.take_add, List.drop_drop]

theorem segment_length {α : Type} (l : List α) (s n : Nat) (h : s + n ≤ l.length) :
    (segment l s n).length = n := by
  rw [segment, List.length_take, List.length_drop]
  omega

theorem segment_map {α β : Type} (f : α → β) (l : List α) (s n : Nat) :
    segment (l.map f) s n = (segment l s n).map f := by
  rw [segment, segment, ← List.map_drop, ← List.map_take]

/-! ### Position table facts -/

theorem mem_positions {b : List Key} {k : Key} {j : Nat} :
    j ∈ positions b k ↔ j < b.length ∧ b.getD j dfltKey = k := by
  rw [positions, List.mem_filter, List.mem_range, decide_eq_true_iff]

theorem mem_b2j {b : List Key} {k : Key} {j : Nat} (h : j ∈ b2j b k) :
    j < b.length ∧ b.getD j dfltKey = k := by
  rw [b2j] at h
  split at h
  · cases h
  · exact mem_positions.mp h

theorem mem_rowJs {a b : List Key} {blo bhi i j : Nat}
    (h : j ∈ rowJs a blo bhi (b2j b) i) :
    blo ≤ j ∧ j < bhi ∧ j < b.length ∧ b.getD j dfltKey = a.getD i dfltKey := by
  rw [rowJs, List.mem_filter, Bool.and_eq_true, decide_eq_true_iff, decide_eq_true_iff] at h
  obtain ⟨hm, h1, h2⟩ := h
  have := mem_b2j hm
  exact ⟨h1, h2, this.1, this.2⟩

/-! ### Soundness of the matching core: every reported block is genuine -/

theorem bestInv_mk {a b : List Key} {alo ahi blo bhi i0 j0 k X Y : Nat}
    (hX : X = i0) (hY : Y = j0) (h1 : alo ≤ i0) (h2 : blo ≤ j0)
    (h3 : i0 + k ≤ ahi) (h4 : j0 + k ≤ bhi)
    (h5 : segment a i0 k = segment b j0 k) :
    bestInv a b alo ahi blo bhi (Best.mk X Y k) := by
  subst hX
  subst hY
  exact ⟨h1, h2, h3, h4, h5⟩

theorem flmInner_sound {a b : List Key} {alo ahi blo bhi : Nat}
    (hahi : ahi ≤ a.length) (hbhi : bhi ≤ b.length)
    {i : Nat} (hilo : alo ≤ i) (hihi : i < ahi)
    {Told : Nat → Nat} (hT : tEnds a b alo blo i Told)
    {st : Best × (Nat → Nat)} (hb : bestInv a b alo ahi blo bhi st.1)
    (hnew : tEnds a b alo blo (i + 1) st.2)
    {j : Nat} (hjlo : blo ≤ j) (hjhi : j < bhi) (hjb : j < b.length)
    (hval : b.getD j dfltKey = a.getD i dfltKey) :
    bestInv a b alo ahi blo bhi (flmInner i Told st j).1 ∧
      tEnds a b alo blo (i + 1) (flmInner i Told st j).2 := by
  have hk : ∃ i0 j0, i0 + ((if j = 0 then 0 else Told (j - 1)) + 1) = i + 1 ∧
      j0 + ((if j = 0 then 0 else Told (j - 1)) + 1) = j + 1 ∧ alo ≤ i0 ∧ blo ≤ j0 ∧
        segment a i0 ((if j = 0 then 0 else Told (j - 1)) + 1) =
          segment b j0 ((if j = 0 then 0 else Told (j - 1)) + 1) := by
    by_cases h0 : (if j = 0 then 0 else Told (j - 1)) = 0
    · refine ⟨i, j, by omega, by omega, hilo, hjlo, ?_⟩
      rw [h0]
      rw [segment_cons a dfltKey i 0 (by omega), segment_cons b dfltKey j 0 hjb]
      rw [segment, segment]
      rw [hval]
      simp
    · have hj0 : j ≠ 0 := by
        intro hc; rw [if_pos hc] at h0; exact h0 rfl
      rw [if_neg hj0] at h0 ⊢
      obtain ⟨i0, j0, hi0, hj0e, hi0lo, hj0lo, hjb1, hie, hseg⟩ := hT (j - 1) h0
      refine ⟨i0, j0, by omega, by omega, hi0lo, hj0lo, ?_⟩
      rw [segment_snoc a dfltKey i0 (Told (j - 1)) (by omega),
          segment_snoc b dfltKey j0 (Told (j - 1)) (by omega)]
      rw [hseg]
      have e1 : i0 + Told (j - 1) = i := hi0
      have e2 : j0 + Told (j - 1) = j := by omega
      rw [e1, e2, hval]
  obtain ⟨i0, j0, hi0, hj0e, hi0lo, hj0lo, hseg⟩ := hk
  rw [flmInner]
  dsimp only
  constructor
  · by_cases himp : st.1.size < (if j = 0 then 0 else Told (j - 1)) + 1
    · simp only [if_pos himp]
      exact bestInv_mk (by omega) (by omega) hi0lo hj0lo (by omega) (by omega) hseg
    · simp only [if_neg himp]
      exact hb
  · intro j1 hj1
    by_cases hjj : j1 = j
    · subst hjj
      rw [Function.update_same] at hj1 ⊢
      exact ⟨i0, j0, by omega, by omega, hi0lo, hj0lo, hjb, by omega, hseg⟩
    · rw [Function.update_noteq hjj] at hj1 ⊢
      exact hnew j1 hj1

theorem flmRow_fold_sound {a b : List Key} {alo ahi blo bhi : Nat}
    (hahi : ahi ≤ a.length) (hbhi : bhi ≤ b.length)
    {i : Nat} (hilo : alo ≤ i) (hihi : i < ahi) {Told : Nat → Nat}
    (hT : tEnds a b alo blo i Told) :
    ∀ js : List Nat, (∀ j ∈ js, blo ≤ j ∧ j < bhi ∧ j < b.length ∧
        b.getD j dfltKey = a.getD i dfltKey) →
    ∀ st : Best × (Nat → Nat), bestInv a b alo ahi blo bhi st.1 →
      tEnds a b alo blo (i + 1) st.2 →
      bestInv a b alo ahi blo bhi (js.foldl (flmInner i Told) st).1 ∧
        tEnds a b alo blo (i + 1) (js.foldl (flmInner i Told) st).2 := by
  intro js
  induction js with
  | nil => intro _ st hb hn; exact ⟨hb, hn⟩
  | cons j js ih =>
    intro hmem st hb hn
    rw [List.foldl_cons]
    have hj := hmem j (List.mem_cons_self j js)
    have hstep := flmInner_sound hahi hbhi hilo hihi hT hb hn hj.1 hj.2.1 hj.2.2.1 hj.2.2.2
    exact ih (fun j1 h1 => hmem j1 (List.mem_cons_of_mem j h1)) _ hstep.1 hstep.2

theorem flmRow_sound {a b : List Key} {alo ahi blo bhi : Nat}
    (hahi : ahi ≤ a.length) (hbhi : bhi ≤ b.length)
    {i : Nat} (hilo : alo ≤ i) (hihi : i < ahi) {st : Best × (Nat → Nat)}
    (hb : bestInv a b alo ahi blo bhi st.1) (hT : tEnds a b alo blo i st.2) :
    bestInv a b alo ahi blo bhi (flmRow a blo bhi (b2j b) st i).1 ∧
      tEnds a b alo blo (i + 1) (flmRow a blo bhi (b2j b) st i).2 := by
  rw [flmRow]
  refine flmRow_fold_sound hahi hbhi hilo hihi hT _ ?_ (st.1, fun _ => 0) hb ?_
  · intro j hj
    exact mem_rowJs hj
  · intro j hj
    exact absurd rfl hj

theorem flmRows_sound {a b : List Key} {alo ahi blo bhi : Nat}
    (hahi : ahi ≤ a.length) (hbhi : bhi ≤ b.length) :
    ∀ m i, alo ≤ i → i + m ≤ ahi →
    ∀ st : Best × (Nat → Nat), bestInv a b alo ahi blo bhi st.1 →
      tEnds a b alo blo i st.2 →
      bestInv a b alo ahi blo bhi
        ((List.range' i m).foldl (flmRow a blo bhi (b2j b)) st).1 := by
  intro m
  induction m with
  | zero => intro i _ _ st hb _; exact hb
  | succ m ih =>
    intro i hlo hhi st hb hT
    rw [List.range'_succ, List.foldl_cons]
    have hstep := flmRow_sound hahi hbhi hlo (by omega) hb hT
    exact ih (i + 1) (by omega) (by omega) _ hstep.1 hstep.2

theorem flmCore_sound {a b : List Key} {alo ahi blo bhi : Nat}
    (halo : alo ≤ ahi) (hahi : ahi ≤ a.length) (hblo : blo ≤ bhi) (hbhi : bhi ≤ b.length) :
    bestInv a b alo ahi blo bhi (flmCore a alo ahi blo bhi (b2j b)) := by
  rw [flmCore]
  refine flmRows_sound hahi hbhi (ahi - alo) alo le_rfl (by omega)
    (Best.mk alo blo 0, fun _ => 0) ?_ ?_
  · exact bestInv_mk rfl rfl le_rfl le_rfl (by omega) (by omega) rfl
  · intro j hj
    exact absurd rfl hj

theorem extLeft_sound {a b : List Key} {alo ahi blo bhi : Nat}
    (hahi : ahi ≤ a.length) (hbhi : bhi ≤ b.length) :
    ∀ fuel st, bestInv a b alo ahi blo bhi st →
      bestInv a b alo ahi blo bhi (extLeft a b alo blo fuel st) := by
  intro fuel
  induction fuel with
  | zero => intro st h; exact h
  | succ fuel ih =>
    intro st h
    rw [extLeft]
    split
    · rename_i hcond
      obtain ⟨h1, h2, h3⟩ := hcond
      obtain ⟨hi, hj, hia, hjb, hseg⟩ := h
      refine ih _ (bestInv_mk rfl rfl (by omega) (by omega) (by omega) (by omega) ?_)
      rw [segment_cons a dfltKey _ _ (by omega), segment_cons b dfltKey _ _ (by omega)]
      have e1 : st.i - 1 + 1 = st.i := by omega
      have e2 : st.j - 1 + 1 = st.j := by omega
      rw [e1, e2, h3, hseg]
    · exact h

theorem extRight_sound {a b : List Key} {alo ahi blo bhi : Nat}
    (hahi : ahi ≤ a.length) (hbhi : bhi ≤ b.length) :
    ∀ fuel st, bestInv a b alo ahi blo bhi st →
      bestInv a b alo ahi blo bhi (extRight a b ahi bhi fuel st) := by
  intro fuel
  induction fuel with
  | zero => intro st h; exact h
  | succ fuel ih =>
    intro st h
    rw [extRight]
    split
    · rename_i hcond
      obtain ⟨h1, h2, h3⟩ := hcond
      obtain ⟨hi, hj, hia, hjb, hseg⟩ := h
      refine ih _ (bestInv_mk rfl rfl hi hj (by omega) (by omega) ?_)
      rw [segment_snoc a dfltKey _ _ (by omega), segment_snoc b dfltKey _ _ (by omega)]
      rw [hseg, h3]
    · exact h

theorem findLongestMatch_sound {a b : List Key} {alo ahi blo bhi : Nat}
    (halo : alo ≤ ahi) (hahi : ahi ≤ a.length) (hblo : blo ≤ bhi) (hbhi : bhi ≤ b.length) :
    bestInv a b alo ahi blo bhi (findLongestMatch a b alo ahi blo bhi (b2j b)) := by
  rw [findLongestMatch]
  exact extRight_sound hahi hbhi _ _
    (extLeft_sound hahi hbhi _ _ (flmCore_sound halo hahi hblo hbhi))

theorem mbAux_genuine {a b : List Key} :
    ∀ fuel alo ahi blo bhi, alo ≤ ahi → ahi ≤ a.length → blo ≤ bhi → bhi ≤ b.length →
    ∀ blk ∈ mbAux a b (b2j b) fuel alo ahi blo bhi, genuine a b blk := by
  intro fuel
  induction fuel with
  | zero => intro alo ahi blo bhi _ _ _ _ blk h; cases h
  | succ fuel ih =>
    intro alo ahi blo bhi halo hahi hblo hbhi blk h
    rw [mbAux] at h
    set m := findLongestMatch a b alo ahi blo bhi (b2j b) with hm
    have hinv := findLongestMatch_sound halo hahi hblo hbhi (a := a) (b := b)
    rw [← hm] at hinv
    obtain ⟨hi, hj, hia, hjb, hseg⟩ := hinv
    split at h
    · rw [List.mem_append, List.mem_append] at h
      rcases h with (h | h) | h
      · split at h
        · rename_i hrec
          exact ih alo m.i blo m.j hi (by omega) hj (by omega) blk h
        · cases h
      · rw [List.mem_singleton] at h
        subst h
        exact ⟨hseg, by omega, by omega⟩
      · split at h
        · rename_i hrec
          exact ih (m.i + m.size) ahi (m.j + m.size) bhi (by omega) hahi (by omega) hbhi blk h
        · cases h
    · cases h

theorem nonAdjacent_genuine {a b : List Key} {blocks : List Best}
    (h : ∀ blk ∈ blocks, genuine a b blk) :
    ∀ blk ∈ nonAdjacent blocks a.length b.length, genuine a b blk := by
  rw [nonAdjacent]
  have hstep : ∀ (acc : List Best × Best), (∀ blk ∈ acc.1, genuine a b blk) →
      genuine a b acc.2 → (∀ blk ∈ blocks, genuine a b blk) →
      (∀ blk ∈ (blocks.foldl (fun st blk =>
          if st.2.i + st.2.size = blk.i ∧ st.2.j + st.2.size = blk.j then
            (st.1, Best.mk st.2.i st.2.j (st.2.size + blk.size))
          else if 0 < st.2.size then (st.1 ++ [st.2], blk) else (st.1, blk)) acc).1,
        genuine a b blk) ∧
      genuine a b (blocks.foldl (fun st blk =>
          if st.2.i + st.2.size = blk.i ∧ st.2.j + st.2.size = blk.j then
            (st.1, Best.mk st.2.i st.2.j (st.2.size + blk.size))
          else if 0 < st.2.size then (st.1 ++ [st.2], blk) else (st.1, blk)) acc).2 := by
    clear h
    induction blocks with
    | nil => intro acc h1 h2 _; exact ⟨h1, h2⟩
    | cons blk blocks ihb =>
      intro acc h1 h2 hall
      rw [List.foldl_cons]
      have hblk := hall blk (List.mem_cons_self blk blocks)
      have hall2 : ∀ c ∈ blocks, genuine a b c :=
        fun c hc => hall c (List.mem_cons_of_mem blk hc)
      by_cases hadj : acc.2.i + acc.2.size = blk.i ∧ acc.2.j + acc.2.size = blk.j
      · rw [if_pos hadj]
        refine ihb _ h1 ?_ hall2
        obtain ⟨hs1, hs2, hs3⟩ := h2
        obtain ⟨hb1, hb2, hb3⟩ := hblk
        refine ⟨?_, ?_, ?_⟩
        · show segment a acc.2.i (acc.2.size + blk.size) = segment b acc.2.j (acc.2.size + blk.size)
          rw [segment_add a acc.2.i acc.2.size blk.size, segment_add b acc.2.j acc.2.size blk.size]
          rw [hs1, hadj.1, hadj.2, hb1]
        · show acc.2.i + (acc.2.size + blk.size) ≤ a.length
          omega
        · show acc.2.j + (acc.2.size + blk.size) ≤ b.length
          omega
      · rw [if_neg hadj]
        by_cases hsz : 0 < acc.2.size
        · rw [if_pos hsz]
          refine ihb _ ?_ hblk hall2
          intro c hc
          rw [List.mem_append, List.mem_singleton] at hc
          rcases hc with hc | hc
          · exact h1 c hc
          · subst hc; exact h2
        · rw [if_neg hsz]
          exact ihb _ h1 hblk hall2
  have hres := hstep ([], Best.mk 0 0 0) (by intro blk h1; cases h1)
    ⟨rfl, by show 0 + 0 ≤ a.length; omega, by show 0 + 0 ≤ b.length; omega⟩ h
  intro blk hmem
  rw [List.mem_append] at hmem
  rcases hmem with hmem | hmem
  · split at hmem
    · rw [List.mem_append, List.mem_singleton] at hmem
      rcases hmem with hmem | hmem
      · exact hres.1 blk hmem
      · subst hmem; exact hres.2
    · exact hres.1 blk hmem
  · rw [List.mem_singleton] at hmem
    subst hmem
    exact ⟨rfl, by show a.length + 0 ≤ a.length; omega, by show b.length + 0 ≤ b.length; omega⟩

theorem matchingBlocks_genuine {a b : List Key} :
    ∀ blk ∈ matchingBlocks a b, genuine a b blk := by
  rw [matchingBlocks]
  exact nonAdjacent_genuine
    (mbAux_genuine _ 0 a.length 0 b.length (by omega) le_rfl (by omega) le_rfl)

/-- Every `equal` opcode names two genuinely identical slices of the key
sequences. -/
theorem opcodesFrom_equal_genuine {a b : List Key} :
    ∀ blocks : List Best, (∀ blk ∈ blocks, genuine a b blk) →
    ∀ i j, ∀ op ∈ opcodesFrom i j blocks, op.tag = .equal →
      ∃ n, op.i2 = op.i1 + n ∧ op.j2 = op.j1 + n ∧
        segment a op.i1 n = segment b op.j1 n ∧
        op.i1 + n ≤ a.length ∧ op.j1 + n ≤ b.length := by
  intro blocks
  induction blocks with
  | nil => intro _ i j op h; cases h
  | cons blk blocks ihb =>
    intro hall i j op hop htag
    have hblk := hall blk (List.mem_cons_self blk blocks)
    rw [opcodesFrom, List.mem_append, List.mem_append] at hop
    rcases hop with (hop | hop) | hop
    · exfalso
      split at hop
      · rw [List.mem_singleton] at hop; subst hop; cases htag
      · split at hop
        · rw [List.mem_singleton] at hop; subst hop; cases htag
        · split at hop
          · rw [List.mem_singleton] at hop; subst hop; cases htag
          · cases hop
    · split at hop
      · rw [List.mem_singleton] at hop
        subst hop
        obtain ⟨h1, h2, h3⟩ := hblk
        exact ⟨blk.size, rfl, rfl, h1, h2, h3⟩
      · cases hop
    · exact ihb (fun c hc => hall c (List.mem_cons_of_mem blk hc)) _ _ op hop htag

theorem getOpcodes_equal_genuine {a b : List Key} {op : Opcode}
    (h : op ∈ getOpcodes a b) (htag : op.tag = .equal) :
    ∃ n, op.i2 = op.i1 + n ∧ op.j2 = op.j1 + n ∧
      segment a op.i1 n = segment b op.j1 n ∧
      op.i1 + n ≤ a.length ∧ op.j1 + n ≤ b.length :=
  opcodesFrom_equal_genuine (matchingBlocks a b) matchingBlocks_genuine 0 0 op h htag

/-! ### Equal opcodes pair key-equal children -/

theorem zip_map_eq {α β : Type} {f : α → β} :
    ∀ {xs ys : List α}, xs.map f = ys.map f →
      ∀ p ∈ xs.zip ys, f p.1 = f p.2 := by
  intro xs
  induction xs with
  | nil => intro ys _ p hp; cases hp
  | cons x xs ih =>
    intro ys h p hp
    cases ys with
    | nil => cases hp
    | cons y ys =>
      rw [List.map_cons, List.map_cons, List.cons.injEq] at h
      rw [List.zip_cons_cons, List.mem_cons] at hp
      rcases hp with hp | hp
      · subst hp
        exact h.1
      · exact ih h.2 p hp

/-- Within an `equal` opcode over the child key lists, every positionally
paired pair of children has equal identity keys. -/
theorem equal_op_pairs_keyEq {A B : List Node} {op : Opcode}
    (h : op ∈ getOpcodes (nodeKeyList A) (nodeKeyList B)) (htag : op.tag = .equal) :
    ∀ p ∈ (segment A op.i1 (op.i2 - op.i1)).zip (segment B op.j1 (op.j2 - op.j1)),
      nodeKey p.1 = nodeKey p.2 := by
  obtain ⟨n, hn1, hn2, hseg, hb1, hb2⟩ := getOpcodes_equal_genuine h htag
  have e1 : op.i2 - op.i1 = n := by omega
  have e2 : op.j2 - op.j1 = n := by omega
  rw [e1, e2]
  refine zip_map_eq ?_
  rw [← segment_map, ← segment_map, ← nodeKeyList_eq_map, ← nodeKeyList_eq_map]
  exact hseg

/-! ### Self-comparison: the matcher returns the full diagonal -/

theorem keptAt_congr {L : List Key} {i j : Nat}
    (h : L.getD j dfltKey = L.getD i dfltKey) : keptAt L j = keptAt L i := by
  rw [keptAt, keptAt, h]

theorem runF_zero_eq {L : List Key} : runF L 0 = if keptAt L 0 then 1 else 0 := rfl

theorem runF_succ_eq {L : List Key} (t : Nat) :
    runF L (t + 1) = if keptAt L (t + 1) then runF L t + 1 else 0 := rfl

theorem runF_of_kept {L : List Key} {i : Nat} (h : keptAt L i = true) :
    runF L i = prevRun L i + 1 := by
  cases i with
  | zero => rw [runF_zero_eq, if_pos h, prevRun]
  | succ t => rw [runF_succ_eq, if_pos h, prevRun]

theorem runF_of_unkept {L : List Key} {i : Nat} (h : keptAt L i = false) :
    runF L i = 0 := by
  cases i with
  | zero => rw [runF_zero_eq, if_neg (by rw [h]; exact Bool.false_ne_true)]
  | succ t => rw [runF_succ_eq, if_neg (by rw [h]; exact Bool.false_ne_true)]

theorem runF_le_runMaxB {L : List Key} : ∀ i t, t < i → runF L t ≤ runMaxB L i := by
  intro i
  induction i with
  | zero => intro t h; omega
  | succ s ih =>
    intro t h
    rw [runMaxB]
    by_cases hts : t = s
    · subst hts; omega
    · have := ih t (by omega); omega

theorem positions_pairwise (b : List Key) (k : Key) : (positions b k).Pairwise (· < ·) := by
  rw [positions]
  exact (List.pairwise_lt_range b.length).filter _

theorem rowJs_self_unkept {L : List Key} {n i : Nat} (h : keptAt L i = false) :
    rowJs L 0 n (b2j L) i = [] := by
  rw [rowJs, b2j, if_pos ?_]
  · rfl
  · rw [keptAt] at h
    simpa using h

theorem rowJs_self_kept {L : List Key} {n i : Nat} (hn : n = L.length)
    (h : keptAt L i = true) :
    rowJs L 0 n (b2j L) i = positions L (L.getD i dfltKey) := by
  rw [rowJs, b2j, if_neg ?_]
  · rw [List.filter_eq_self]
    intro j hj
    rw [mem_positions] at hj
    rw [Bool.and_eq_true, decide_eq_true_iff, decide_eq_true_iff]
    omega
  · rw [keptAt, Bool.not_eq_true'] at h
    rw [h]
    exact Bool.false_ne_true

/-- Inner-loop invariant of a row of the self-comparison: the best stays on
the diagonal and dominates every run value seen so far. -/
theorem flmInner_self_fold {L : List Key} {i : Nat} (hi : i < L.length)
    (hkept : keptAt L i = true) {Told : Nat → Nat}
    (hG : ∀ j, Told j ≤ runF L j) (hB : ∀ j, Told j ≤ prevRun L i)
    (hD : ∀ t, i = t + 1 → Told t = runF L t) :
    ∀ js : List Nat, js.Pairwise (· < ·) →
      (∀ j ∈ js, j < L.length ∧ L.getD j dfltKey = L.getD i dfltKey) →
    ∀ st : Best × (Nat → Nat),
      st.1.i = st.1.j → runMaxB L i ≤ st.1.size →
      (i ∉ js → runF L i ≤ st.1.size) →
      (∀ j, st.2 j ≤ runF L j) → (∀ j, st.2 j ≤ runF L i) →
      (i ∉ js → st.2 i = runF L i) →
      (js.foldl (flmInner i Told) st).1.i = (js.foldl (flmInner i Told) st).1.j ∧
        runF L i ≤ (js.foldl (flmInner i Told) st).1.size ∧
        runMaxB L i ≤ (js.foldl (flmInner i Told) st).1.size ∧
        (∀ j, (js.foldl (flmInner i Told) st).2 j ≤ runF L j) ∧
        (∀ j, (js.foldl (flmInner i Told) st).2 j ≤ runF L i) ∧
        (js.foldl (flmInner i Told) st).2 i = runF L i := by
  intro js
  induction js with
  | nil =>
    intro _ _ st hd hmax hfin hg hb hdone
    have h1 := hfin (by intro h; cases h)
    have h2 := hdone (by intro h; cases h)
    exact ⟨hd, h1, hmax, hg, hb, h2⟩
  | cons j rest ih =>
    intro hpw hmem st hd hmax hfin hg hb hdone
    rw [List.pairwise_cons] at hpw
    have hj := hmem j (List.mem_cons_self j rest)
    have hkj : keptAt L j = true := by rw [keptAt_congr hj.2]; exact hkept
    have hrunFi : runF L i = prevRun L i + 1 := runF_of_kept hkept
    have hkv_le_j : (if j = 0 then 0 else Told (j - 1)) + 1 ≤ runF L j := by
      cases j with
      | zero => rw [if_pos rfl, runF_of_kept hkj, prevRun]
      | succ t =>
        rw [if_neg (by omega), runF_of_kept hkj, prevRun]
        have := hG t
        simp only [Nat.add_sub_cancel]
        omega
    have hkv_le_i : (if j = 0 then 0 else Told (j - 1)) + 1 ≤ runF L i := by
      cases j with
      | zero => rw [if_pos rfl]; omega
      | succ t =>
        rw [if_neg (by omega)]
        have := hB (t + 1 - 1)
        omega
    rw [List.foldl_cons]
    by_cases hij : j = i
    · subst hij
      have hkv_eq : (if j = 0 then 0 else Told (j - 1)) + 1 = runF L j := by
        cases hjz : j with
        | zero =>
          rw [if_pos rfl, ← hjz, hrunFi]
          rw [hjz, prevRun]
        | succ t =>
          rw [if_neg (by omega)]
          have hDt := hD t hjz
          rw [← hjz, hrunFi, hjz, prevRun]
          simp only [Nat.add_sub_cancel]
          rw [hDt]
      have hnotin : j ∉ rest := fun hmem2 => absurd (hpw.1 j hmem2) (by omega)
      rw [flmInner]
      by_cases himp : st.1.size < (if j = 0 then 0 else Told (j - 1)) + 1
      · rw [if_pos himp]
        refine ih hpw.2 (fun r hr => hmem r (List.mem_cons_of_mem j hr)) _ rfl
          (by show runMaxB L j ≤ (if j = 0 then 0 else Told (j - 1)) + 1; omega)
          (fun _ => by
            show runF L j ≤ (if j = 0 then 0 else Told (j - 1)) + 1
            omega)
          ?_ ?_ ?_
        · intro j1
          dsimp only
          by_cases hjj : j1 = j
          · subst hjj; rw [Function.update_same]; omega
          · rw [Function.update_noteq hjj]; exact hg j1
        · intro j1
          dsimp only
          by_cases hjj : j1 = j
          · subst hjj; rw [Function.update_same]; omega
          · rw [Function.update_noteq hjj]; exact hb j1
        · intro _
          dsimp only
          rw [Function.update_same]
          omega
      · rw [if_neg himp]
        refine ih hpw.2 (fun r hr => hmem r (List.mem_cons_of_mem j hr)) _ hd hmax
          (fun _ => by show runF L j ≤ st.1.size; omega) ?_ ?_ ?_
        · intro j1
          dsimp only
          by_cases hjj : j1 = j
          · subst hjj; rw [Function.update_same]; omega
          · rw [Function.update_noteq hjj]; exact hg j1
        · intro j1
          dsimp only
          by_cases hjj : j1 = j
          · subst hjj; rw [Function.update_same]; omega
          · rw [Function.update_noteq hjj]; exact hb j1
        · intro _
          dsimp only
          rw [Function.update_same]
          omega
    · have hnostrict : ¬ st.1.size < (if j = 0 then 0 else Told (j - 1)) + 1 := by
        by_cases hin : i ∈ j :: rest
        · have hir : i ∈ rest := by
            rcases List.mem_cons.mp hin with h | h
            · exact absurd h.symm hij
            · exact h
          have hji : j < i := hpw.1 i hir
          have := runF_le_runMaxB (L := L) i j hji
          omega
        · have := hfin hin
          omega
      rw [flmInner]
      rw [if_neg hnostrict]
      have hinotin : i ∉ j :: rest → i ∉ rest := by
        intro h hc; exact h (List.mem_cons_of_mem j hc)
      refine ih hpw.2 (fun r hr => hmem r (List.mem_cons_of_mem j hr)) _ hd hmax
        (fun hnr => hfin (by
          intro hc
          rcases List.mem_cons.mp hc with h | h
          · exact hij h.symm
          · exact hnr h)) ?_ ?_ ?_
      · intro j1
        dsimp only
        by_cases hjj : j1 = j
        · subst hjj; rw [Function.update_same]; omega
        · rw [Function.update_noteq hjj]; exact hg j1
      · intro j1
        dsimp only
        by_cases hjj : j1 = j
        · subst hjj; rw [Function.update_same]; omega
        · rw [Function.update_noteq hjj]; exact hb j1
      · intro hnr
        dsimp only
        rw [Function.update_noteq (by omega)]
        exact hdone (by
          intro hc
          rcases List.mem_cons.mp hc with h | h
          · exact hij h.symm
          · exact hnr h)

/-- Row invariant of the self-comparison. -/
theorem flmRow_self {L : List Key} {n : Nat} (hn : n = L.length) {i : Nat} (hi : i < n)
    {st : Best × (Nat → Nat)}
    (hd : st.1.i = st.1.j) (hmax : runMaxB L i ≤ st.1.size)
    (hG : ∀ j, st.2 j ≤ runF L j) (hB : ∀ j, st.2 j ≤ prevRun L i)
    (hD : ∀ t, i = t + 1 → st.2 t = runF L t) :
    (flmRow L 0 n (b2j L) st i).1.i = (flmRow L 0 n (b2j L) st i).1.j ∧
      runMaxB L (i + 1) ≤ (flmRow L 0 n (b2j L) st i).1.size ∧
      (∀ j, (flmRow L 0 n (b2j L) st i).2 j ≤ runF L j) ∧
      (∀ j, (flmRow L 0 n (b2j L) st i).2 j ≤ prevRun L (i + 1)) ∧
      (∀ t, i + 1 = t + 1 → (flmRow L 0 n (b2j L) st i).2 t = runF L t) := by
  rw [flmRow]
  by_cases hkept : keptAt L i = true
  · rw [rowJs_self_kept hn hkept]
    have hself : i ∈ positions L (L.getD i dfltKey) :=
      mem_positions.mpr ⟨by omega, rfl⟩
    have hres := flmInner_self_fold (by omega) hkept hG hB hD
      (positions L (L.getD i dfltKey)) (positions_pairwise L _)
      (fun j hj => by
        have := mem_positions.mp hj
        exact ⟨this.1, this.2⟩)
      (st.1, fun _ => 0) hd hmax
      (fun hni => absurd hself hni)
      (fun j => by show (0 : Nat) ≤ runF L j; omega)
      (fun j => by show (0 : Nat) ≤ runF L i; omega)
      (fun hni => absurd hself hni)
    obtain ⟨r1, r2, r3, r4, r5, r6⟩ := hres
    refine ⟨r1, ?_, r4, ?_, ?_⟩
    · rw [runMaxB]; omega
    · intro j
      rw [prevRun]
      exact r5 j
    · intro t ht
      have : t = i := by omega
      subst this
      exact r6
  · rw [Bool.not_eq_true] at hkept
    rw [rowJs_self_unkept hkept]
    have hrz : runF L i = 0 := runF_of_unkept hkept
    rw [List.foldl_nil]
    refine ⟨hd, ?_, fun j => by show (0 : Nat) ≤ runF L j; omega,
      fun j => by show (0 : Nat) ≤ prevRun L (i + 1); omega, ?_⟩
    · rw [runMaxB]
      show max (runMaxB L i) (runF L i) ≤ st.1.size
      omega
    · intro t ht
      have : t = i := by omega
      subst this
      show 0 = runF L t
      omega

/-- The whole dynamic-programming pass of the self-comparison keeps the best
block on the diagonal. -/
theorem flmRows_self {L : List Key} {n : Nat} (hn : n = L.length) :
    ∀ m i, i + m ≤ n →
    ∀ st : Best × (Nat → Nat), st.1.i = st.1.j → runMaxB L i ≤ st.1.size →
      (∀ j, st.2 j ≤ runF L j) → (∀ j, st.2 j ≤ prevRun L i) →
      (∀ t, i = t + 1 → st.2 t = runF L t) →
      ((List.range' i m).foldl (flmRow L 0 n (b2j L)) st).1.i =
        ((List.range' i m).foldl (flmRow L 0 n (b2j L)) st).1.j := by
  intro m
  induction m with
  | zero => intro i _ st hd _ _ _ _; exact hd
  | succ m ih =>
    intro i hlt st hd hmax hG hB hD
    rw [List.range'_succ, List.foldl_cons]
    have hstep := flmRow_self hn (by omega) hd hmax hG hB hD
    obtain ⟨r1, r2, r3, r4, r5⟩ := hstep
    exact ih (i + 1) (by omega) _ r1 r2 r3 r4 r5

theorem flmCore_self {L : List Key} :
    (flmCore L 0 L.length 0 L.length (b2j L)).i =
      (flmCore L 0 L.length 0 L.length (b2j L)).j := by
  rw [flmCore]
  refine flmRows_self rfl (L.length - 0) 0 (by omega) (Best.mk 0 0 0, fun _ => 0)
    rfl ?_ (fun j => by show (0 : Nat) ≤ runF L j; omega)
    (fun j => by show (0 : Nat) ≤ prevRun L 0; omega) (fun t ht => by omega)
  show runMaxB L 0 ≤ 0
  rw [runMaxB]

theorem extLeft_self {L : List Key} :
    ∀ fuel c s, c ≤ fuel →
      extLeft L L 0 0 fuel (Best.mk c c s) = Best.mk 0 0 (c + s) := by
  intro fuel
  induction fuel with
  | zero =>
    intro c s hc
    have : c = 0 := by omega
    subst this
    rw [extLeft]
    congr 1
    omega
  | succ fuel ih =>
    intro c s hc
    rw [extLeft]
    cases c with
    | zero =>
      rw [if_neg ?_]
      · congr 1
        omega
      · intro hcond
        have h2 : (0 : Nat) < 0 := hcond.1
        omega
    | succ c =>
      rw [if_pos ?_]
      · show extLeft L L 0 0 fuel (Best.mk c c (s + 1)) = _
        rw [ih c (s + 1) (by omega)]
        congr 1
        omega
      · refine ⟨?_, ?_, rfl⟩
        · show 0 < c + 1
          omega
        · show 0 < c + 1
          omega

theorem extRight_self {L : List Key} {n : Nat} (hn : n = L.length) :
    ∀ fuel m, n ≤ m + fuel → m ≤ n →
      extRight L L n n fuel (Best.mk 0 0 m) = Best.mk 0 0 n := by
  intro fuel
  induction fuel with
  | zero =>
    intro m h1 h2
    have : m = n := by omega
    subst this
    rw [extRight]
  | succ fuel ih =>
    intro m h1 h2
    rw [extRight]
    by_cases hlt : m < n
    · rw [if_pos ?_]
      · show extRight L L n n fuel (Best.mk 0 0 (m + 1)) = _
        exact ih (m + 1) (by omega) (by omega)
      · refine ⟨?_, ?_, rfl⟩
        · show 0 + m < n
          omega
        · show 0 + m < n
          omega
    · rw [if_neg ?_]
      · have : m = n := by omega
        subst this
        rfl
      · intro hcond
        have h2 : 0 + m < n := hcond.1
        omega

theorem findLongestMatch_self {L : List Key} :
    findLongestMatch L L 0 L.length 0 L.length (b2j L) = Best.mk 0 0 L.length := by
  have hdiag := flmCore_self (L := L)
  have hsound := @flmCore_sound L L 0 L.length 0 L.length (by omega) le_rfl
    (by omega) le_rfl
  rw [findLongestMatch]
  rcases hcore : flmCore L 0 L.length 0 L.length (b2j L) with ⟨ci, cj, cs⟩
  rw [hcore] at hdiag hsound
  have hdiag2 : ci = cj := hdiag
  subst hdiag2
  obtain ⟨h1, h2, h3, h4, h5⟩ := hsound
  have hbound : ci + cs ≤ L.length := h3
  show extRight L L L.length L.length L.length
    (extLeft L L 0 0 ci (Best.mk ci ci cs)) = _
  rw [extLeft_self ci ci cs le_rfl]
  exact extRight_self rfl L.length (ci + cs) (by omega) (by omega)

theorem mbAux_self {L : List Key} :
    ∀ fuel, mbAux L L (b2j L) (fuel + 1) 0 L.length 0 L.length =
      if 0 < L.length then [Best.mk 0 0 L.length] else [] := by
  intro fuel
  rw [mbAux, findLongestMatch_self]
  dsimp only
  by_cases hn : 0 < L.length
  · rw [if_pos hn, if_pos hn, if_neg (by omega), if_neg (by omega)]
    rfl
  · rw [if_neg hn, if_neg hn]

theorem matchingBlocks_self {L : List Key} :
    matchingBlocks L L =
      if 0 < L.length then [Best.mk 0 0 L.length, Best.mk L.length L.length 0]
      else [Best.mk 0 0 0] := by
  rw [matchingBlocks, mbAux_self]
  by_cases hn : 0 < L.length
  · rw [if_pos hn, if_pos hn]
    rw [nonAdjacent]
    simp only [List.foldl_cons, List.foldl_nil]
    rw [if_pos (⟨trivial, trivial⟩ : True ∧ True)]
    dsimp only
    rw [if_pos (by show 0 < 0 + L.length; omega)]
    simp
  · rw [if_neg hn, if_neg hn]
    rw [nonAdjacent]
    simp only [List.foldl_nil]
    rw [if_neg (by intro h; have h2 : (0 : Nat) < 0 := h; omega)]
    have h0 : L.length = 0 := by omega
    rw [h0]
    rfl

/-- Against itself, the matcher produces a single all-covering `equal`
opcode (or none at all for empty sequences). -/
theorem getOpcodes_self (L : List Key) :
    getOpcodes L L =
      if 0 < L.length then [Opcode.mk .equal 0 L.length 0 L.length] else [] := by
  rw [getOpcodes, matchingBlocks_self]
  by_cases hn : 0 < L.length
  · rw [if_pos hn, if_pos hn]
    rw [opcodesFrom]
    dsimp only
    rw [if_neg (by omega), if_neg (by omega), if_neg (by omega), if_pos hn]
    rw [opcodesFrom]
    dsimp only
    rw [if_neg (by omega), if_neg (by omega), if_neg (by omega), if_neg (by omega)]
    simp [opcodesFrom]
  · rw [if_neg hn, if_neg hn]
    rw [opcodesFrom]
    dsimp only
    rw [if_neg (by omega), if_neg (by omega), if_neg (by omega), if_neg (by omega)]
    rfl

/-! ### Stats and option helpers -/

theorem Stats.add_total (s t : Stats) : (s.add t).total = s.total + t.total := by
  cases s with
  | mk sa sr sm =>
    cases t with
    | mk ta tr tm =>
      show sa + ta + (sr + tr) + (sm + tm) = sa + sr + sm + (ta + tr + tm)
      omega

theorem sumStats_total : ∀ l : List Stats, (sumStats l).total = (l.map Stats.total).sum := by
  intro l
  induction l with
  | nil => rfl
  | cons s l ih =>
    rw [sumStats, List.foldr_cons, List.map_cons, List.sum_cons]
    rw [show List.foldr Stats.add Stats.zero l = sumStats l from rfl]
    rw [Stats.add_total, ih]

theorem sumStats_eq_zero : ∀ l : List Stats, (∀ s ∈ l, s = Stats.zero) →
    sumStats l = Stats.zero := by
  intro l
  induction l with
  | nil => intro _; rfl
  | cons s l ih =>
    intro h
    rw [sumStats, List.foldr_cons]
    rw [show List.foldr Stats.add Stats.zero l = sumStats l from rfl]
    rw [h s (List.mem_cons_self s l), ih (fun t ht => h t (List.mem_cons_of_mem s ht))]
    rfl

theorem stats_total_mem_le {s : Stats} {l : List Stats} (h : s ∈ l) :
    s.total ≤ (sumStats l).total := by
  induction l with
  | nil => cases h
  | cons t l ih =>
    rw [sumStats, List.foldr_cons,
      show List.foldr Stats.add Stats.zero l = sumStats l from rfl, Stats.add_total]
    rcases List.mem_cons.mp h with h | h
    · subst h; omega
    · have := ih h; omega

theorem optLines_toList (t : Option ATree) :
    (t.toList.map serializeLines).sum = optLines t := by
  cases t with
  | none => rfl
  | some x =>
    rw [Option.toList_some, List.map_cons, List.map_nil, List.sum_cons, List.sum_nil,
      Nat.add_zero, optLines]

theorem toList_isEmpty (t : Option ATree) : t.toList.isEmpty = !t.isSome := by
  cases t <;> rfl

theorem segment_full {α : Type} (l : List α) : segment l 0 l.length = l := by
  rw [segment, List.drop_zero, List.take_length]

theorem serializeChildren_append (l1 l2 : List ATree) :
    serializeChildren (l1 ++ l2) = serializeChildren l1 + serializeChildren l2 := by
  rw [serializeChildren_eq_sum, serializeChildren_eq_sum, serializeChildren_eq_sum,
    List.map_append, List.sum_append]

theorem serializeChildren_flatten : ∀ ls : List (List ATree),
    serializeChildren ls.flatten = (ls.map (fun l => (l.map serializeLines).sum)).sum := by
  intro ls
  induction ls with
  | nil => rfl
  | cons l ls ih =>
    rw [List.flatten_cons, serializeChildren_append, List.map_cons, List.sum_cons, ih,
      serializeChildren_eq_sum]

theorem isEmpty_append {α : Type} (l1 l2 : List α) :
    (l1 ++ l2).isEmpty = (l1.isEmpty && l2.isEmpty) := by
  cases l1 with
  | nil =>
    rw [List.nil_append]
    cases l2 <;> rfl
  | cons a l => rfl

theorem flatten_isEmpty_congr {α β : Type} : ∀ (ls : List (List α)) (ms : List (List β)),
    ls.length = ms.length → (∀ p ∈ ls.zip ms, p.1.isEmpty = p.2.isEmpty) →
    ls.flatten.isEmpty = ms.flatten.isEmpty := by
  intro ls
  induction ls with
  | nil =>
    intro ms hlen _
    cases ms with
    | nil => rfl
    | cons m ms => cases hlen
  | cons l ls ih =>
    intro ms hlen hp
    cases ms with
    | nil => cases hlen
    | cons m ms =>
      rw [List.flatten_cons, List.flatten_cons, isEmpty_append, isEmpty_append]
      rw [hp (l, m) (by rw [List.zip_cons_cons]; exact List.mem_cons_self _ _)]
      rw [ih ms (by simpa using hlen)
        (fun p hpp => hp p (by rw [List.zip_cons_cons]; exact List.mem_cons_of_mem _ hpp))]


theorem elim_true_eq_false {P : Prop} (h : true = false) : P :=
  absurd h (by decide)

theorem elim_false_eq_true {P : Prop} (h : false = true) : P :=
  absurd h (by decide)

theorem elim_zero_lt_zero {P : Prop} (h : (0 : Nat) < 0) : P :=
  absurd h (by omega)

/-! ### Key-equal subtrees compare to a full prune -/

theorem compareFuel_rem (f : Nat) (t : Node) :
    compareFuel (f + 1) (some t) none =
      Res.mk (some (mkRemoved t).1) (some (mkRemoved t).2) true ⟨0, 1, 0⟩ := rfl

theorem compareFuel_add (f : Nat) (t : Node) :
    compareFuel (f + 1) none (some t) =
      Res.mk (some (mkAdded t).1) (some (mkAdded t).2) true ⟨1, 0, 0⟩ := rfl

theorem assembleRes_unchanged (a b : Node) (ta tb : String) (results : List SlotRes)
    (h : ∀ sr ∈ results, sr.changed = false ∧ sr.stats = Stats.zero) :
    assembleRes a b false ta tb results = Res.mk none none false Stats.zero := by
  rw [assembleRes, if_pos ?_]
  · rw [sumStats_eq_zero]
    intro s hs
    rw [List.mem_map] at hs
    obtain ⟨sr, hsr, he⟩ := hs
    rw [← he]
    exact (h sr hsr).2
  · rw [Bool.not_false, Bool.true_and, Bool.not_eq_true', List.any_eq_false]
    intro sr hsr
    rw [(h sr hsr).1]
    exact Bool.false_ne_true

theorem keyEq_fields {t1 t2 : String} {a1 a2 : List (String × String)}
    {x1 x2 : Option String} {cs1 cs2 : List Node}
    (h : nodeKey (.mk t1 a1 x1 cs1) = nodeKey (.mk t2 a2 x2 cs2)) :
    t1 = t2 ∧ sortPairs a1 = sortPairs a2 ∧
      stripStr (x1.getD "") = stripStr (x2.getD "") ∧
      nodeKeyList cs1 = nodeKeyList cs2 := by
  rw [nodeKey, nodeKey, Key.node.injEq] at h
  exact h

theorem map_eq_of_zip {α β : Type} {f : α → β} :
    ∀ {xs ys : List α}, xs.length = ys.length →
      (∀ p ∈ xs.zip ys, f p.1 = f p.2) → xs.map f = ys.map f := by
  intro xs
  induction xs with
  | nil =>
    intro ys hlen _
    cases ys with
    | nil => rfl
    | cons y ys => cases hlen
  | cons x xs ih =>
    intro ys hlen h
    cases ys with
    | nil => cases hlen
    | cons y ys =>
      rw [List.map_cons, List.map_cons]
      rw [h (x, y) (by rw [List.zip_cons_cons]; exact List.mem_cons_self _ _)]
      rw [ih (by simpa using hlen)
        (fun p hp => h p (by rw [List.zip_cons_cons]; exact List.mem_cons_of_mem _ hp))]

theorem compareFuel_keyEq_step (f : Nat)
    (hpair : ∀ ca cb : Node, nodeKey ca = nodeKey cb →
      compareFuel f (some ca) (some cb) = Res.mk none none false Stats.zero) :
    ∀ a b : Node, nodeKey a = nodeKey b →
      compareFuel (f + 1) (some a) (some b) = Res.mk none none false Stats.zero := by
  intro a b hk
  cases a with
  | mk t1 a1 x1 cs1 =>
    cases b with
    | mk t2 a2 x2 cs2 =>
      obtain ⟨ht, ha, hx, hcs⟩ := keyEq_fields hk
      rw [compareFuel, if_neg (by show ¬ t1 ≠ t2; rw [ht]; exact fun h => h rfl)]
      rw [sameTagRes]
      have hmod : (decide (stripStr ((Node.mk t1 a1 x1 cs1).text.getD "") ≠
          stripStr ((Node.mk t2 a2 x2 cs2).text.getD "")) ||
          !(dictEq (Node.mk t1 a1 x1 cs1).attrib (Node.mk t2 a2 x2 cs2).attrib)) = false := by
        show (decide (stripStr (x1.getD "") ≠ stripStr (x2.getD "")) || !(dictEq a1 a2)) = false
        rw [Bool.or_eq_false_iff]
        refine ⟨?_, ?_⟩
        · rw [decide_eq_false_iff_not]
          intro hc
          exact hc hx
        · rw [Bool.not_eq_false', dictEq, decide_eq_true_eq]
          exact ha
      rw [hmod]
      refine assembleRes_unchanged _ _ _ _ _ ?_
      show ∀ sr ∈ (buildSlots cs1 cs2
          (getOpcodes (nodeKeyList cs1) (nodeKeyList cs2))).map (processSlotF (compareFuel f)),
        sr.changed = false ∧ sr.stats = Stats.zero
      rw [← hcs, getOpcodes_self]
      by_cases hn : 0 < (nodeKeyList cs1).length
      · rw [if_pos hn]
        intro sr hsr
        rw [List.mem_map] at hsr
        obtain ⟨s, hs, hesr⟩ := hsr
        rw [buildSlots] at hs
        rw [List.flatMap_cons, List.flatMap_nil, List.append_nil, slotsOfOpcode] at hs
        rw [List.mem_map] at hs
        obtain ⟨p, hp, hes⟩ := hs
        have hzip := hp
        have e1 : segment cs1 (Opcode.mk OpTag.equal 0 (nodeKeyList cs1).length 0
            (nodeKeyList cs1).length).i1 ((Opcode.mk OpTag.equal 0 (nodeKeyList cs1).length 0
            (nodeKeyList cs1).length).i2 - (Opcode.mk OpTag.equal 0 (nodeKeyList cs1).length 0
            (nodeKeyList cs1).length).i1) = cs1 := by
          show segment cs1 0 ((nodeKeyList cs1).length - 0) = cs1
          rw [Nat.sub_zero, nodeKeyList_length, segment_full]
        have e2 : segment cs2 (Opcode.mk OpTag.equal 0 (nodeKeyList cs1).length 0
            (nodeKeyList cs1).length).j1 ((Opcode.mk OpTag.equal 0 (nodeKeyList cs1).length 0
            (nodeKeyList cs1).length).j2 - (Opcode.mk OpTag.equal 0 (nodeKeyList cs1).length 0
            (nodeKeyList cs1).length).j1) = cs2 := by
          show segment cs2 0 ((nodeKeyList cs1).length - 0) = cs2
          rw [Nat.sub_zero, hcs, nodeKeyList_length, segment_full]
        rw [e1, e2] at hzip
        have hkey : nodeKey p.1 = nodeKey p.2 := by
          refine zip_map_eq ?_ p hzip
          rw [← nodeKeyList_eq_map, ← nodeKeyList_eq_map]
          exact hcs
        rw [← hesr, ← hes]
        by_cases hctx : p.1.tag ∈ contextTags
        · rw [if_pos hctx]
          exact ⟨rfl, rfl⟩
        · rw [if_neg hctx]
          have hr := hpair p.1 p.2 hkey
          rw [processSlotF, hr]
          exact ⟨rfl, rfl⟩
      · rw [if_neg hn]
        intro sr hsr
        rw [buildSlots, List.flatMap_nil, List.map_nil] at hsr
        cases hsr

/-- `compare_nodes` on two subtrees with equal identity keys prunes
completely: no output, no change flag, no counter increments. -/
theorem compareFuel_keyEq : ∀ f : Nat, ∀ a b : Node, nodeKey a = nodeKey b →
    compareFuel (f + 1) (some a) (some b) = Res.mk none none false Stats.zero := by
  intro f
  induction f with
  | zero => exact compareFuel_keyEq_step 0 (fun ca cb _ => rfl)
  | succ f ih => exact compareFuel_keyEq_step (f + 1) ih

theorem compareNodes_keyEq {a b : Node} (h : nodeKey a = nodeKey b) :
    compareNodes (some a) (some b) = Res.mk none none false Stats.zero := by
  rw [compareNodes]
  have h1 := nodeWeight_pos a
  obtain ⟨k, hk⟩ : ∃ k, optWeight (some a) + optWeight (some b) = k + 1 :=
    ⟨optWeight (some a) + optWeight (some b) - 1, by rw [optWeight, optWeight]; omega⟩
  rw [hk]
  exact compareFuel_keyEq k a b h

/-! ### The master invariant -/

theorem assembleRes_ResOK (a b : Node) (isMod : Bool) (ta tb : String)
    (results : List SlotRes) (hm : isMod = false → ta = tb)
    (hall : ∀ sr ∈ results, SlotOK sr) :
    ResOK (assembleRes a b isMod ta tb results) := by
  rw [assembleRes]
  by_cases hcond : (!isMod && !(results.any SlotRes.changed)) = true
  · rw [if_pos hcond]
    rw [Bool.and_eq_true, Bool.not_eq_true', Bool.not_eq_true', List.any_eq_false] at hcond
    have hz : sumStats (results.map SlotRes.stats) = Stats.zero := by
      apply sumStats_eq_zero
      intro s hs
      rw [List.mem_map] at hs
      obtain ⟨sr, hsr, he⟩ := hs
      have hch : sr.changed = false := by
        cases hc2 : sr.changed with
        | false => rfl
        | true => exact absurd hc2 (hcond.2 sr hsr)
      rw [← he]
      exact (hall sr hsr).2.2.1 hch
    refine ⟨rfl, rfl, ?_, fun _ => ⟨rfl, rfl, hz⟩⟩
    constructor
    · intro h
      exact elim_false_eq_true h
    · intro h
      rw [hz] at h
      exact elim_zero_lt_zero h
  · rw [if_neg hcond]
    have hpos : 0 < ((sumStats (results.map SlotRes.stats)).add
        (if isMod = true then (⟨0, 0, 1⟩ : Stats) else Stats.zero)).total := by
      rw [Stats.add_total]
      cases hMod : isMod with
      | true =>
        rw [if_pos rfl]
        have : (⟨0, 0, 1⟩ : Stats).total = 1 := rfl
        omega
      | false =>
        rw [hMod] at hcond
        rw [Bool.not_false, Bool.true_and, Bool.not_eq_true, Bool.not_eq_false',
          List.any_eq_true] at hcond
        obtain ⟨sr, hsr, hch⟩ := hcond
        have h4 := (hall sr hsr).2.2.2 hch
        have hmem : sr.stats ∈ results.map SlotRes.stats := List.mem_map_of_mem _ hsr
        have h5 := stats_total_mem_le hmem
        have hz : (if false = true then (⟨0, 0, 1⟩ : Stats) else Stats.zero).total = 0 := rfl
        omega
    have hemp : ((results.map SlotRes.la).flatten).isEmpty =
        ((results.map SlotRes.rb).flatten).isEmpty := by
      refine flatten_isEmpty_congr _ _ (by rw [List.length_map, List.length_map]) ?_
      intro p hp
      rw [List.zip_map'] at hp
      rw [List.mem_map] at hp
      obtain ⟨sr, hsr, he⟩ := hp
      rw [← he]
      exact (hall sr hsr).2.1
    have hsum : serializeChildren ((results.map SlotRes.la).flatten) =
        serializeChildren ((results.map SlotRes.rb).flatten) := by
      rw [serializeChildren_flatten, serializeChildren_flatten, List.map_map, List.map_map]
      refine congrArg List.sum ?_
      refine List.map_congr_left ?_
      intro sr hsr
      exact (hall sr hsr).1
    refine ⟨rfl, ?_, ⟨fun _ => hpos, fun _ => rfl⟩, fun h => elim_true_eq_false h⟩
    show serializeLines _ = serializeLines _
    rw [serializeLines_node, serializeLines_node, hemp]
    by_cases he : ((results.map SlotRes.rb).flatten).isEmpty
    · rw [if_pos he, if_pos he]
    · rw [if_neg he, if_neg he]
      have htxt : textHasContent (some (if isMod = true then modSpan ta else escapeHtml ta)) =
          textHasContent (some (if isMod = true then modSpan tb else escapeHtml tb)) := by
        cases hMod : isMod with
        | true =>
          rw [if_pos rfl, if_pos rfl, modSpan_hasContent, modSpan_hasContent]
        | false =>
          rw [if_neg Bool.false_ne_true, if_neg Bool.false_ne_true, hm hMod]
      rw [htxt, hsum]

theorem slot_SlotOK {f : Nat} {cs1 cs2 : List Node}
    (hIH : ∀ oa ob, optWeight oa + optWeight ob ≤ f → ResOK (compareFuel f oa ob))
    (hwf : nodeWeightList cs1 + nodeWeightList cs2 + 1 ≤ f) :
    ∀ s ∈ buildSlots cs1 cs2 (getOpcodes (nodeKeyList cs1) (nodeKeyList cs2)),
      SlotOK (processSlotF (compareFuel f) s) := by
  have hpairOK : ∀ ca cb : Node, ca ∈ cs1 → cb ∈ cs2 →
      SlotOK (processSlotF (compareFuel f) (.pair ca cb)) := by
    intro ca cb hca hcb
    have hwa := nodeWeight_le_of_mem hca
    have hwb := nodeWeight_le_of_mem hcb
    have hR := hIH (some ca) (some cb) (by rw [optWeight, optWeight]; omega)
    obtain ⟨r1, r2, r3, r4⟩ := hR
    rw [processSlotF]
    by_cases hch : (compareFuel f (some ca) (some cb)).changed = true
    · rw [if_pos hch]
      refine ⟨?_, ?_, fun h => elim_true_eq_false h, fun _ => r3.mp hch⟩
      · show ((compareFuel f (some ca) (some cb)).left.toList.map serializeLines).sum = _
        rw [optLines_toList, optLines_toList, r2]
      · show (compareFuel f (some ca) (some cb)).left.toList.isEmpty = _
        rw [toList_isEmpty, toList_isEmpty, r1]
    · rw [if_neg hch]
      rw [Bool.not_eq_true] at hch
      have hz := (r4 hch).2.2
      exact ⟨rfl, rfl, fun _ => hz, fun h => elim_false_eq_true h⟩
  have hdelOK : ∀ ca : Node, ca ∈ cs1 →
      SlotOK (processSlotF (compareFuel f) (.del ca)) := by
    intro ca hca
    have hwa := nodeWeight_le_of_mem hca
    have hpos := nodeWeight_pos ca
    obtain ⟨f1, rfl⟩ : ∃ f1, f = f1 + 1 := ⟨f - 1, by omega⟩
    rw [processSlotF, compareFuel_rem]
    refine ⟨?_, rfl, fun h => elim_true_eq_false h,
      fun _ => by show 0 < 0 + 1 + 0; omega⟩
    show serializeLines (mkRemoved ca).1 + (0 + 0) = serializeLines (mkRemoved ca).2 + (0 + 0)
    rw [mkRemoved_lines]
  have hinsOK : ∀ cb : Node, cb ∈ cs2 →
      SlotOK (processSlotF (compareFuel f) (.ins cb)) := by
    intro cb hcb
    have hwb := nodeWeight_le_of_mem hcb
    have hpos := nodeWeight_pos cb
    obtain ⟨f1, rfl⟩ : ∃ f1, f = f1 + 1 := ⟨f - 1, by omega⟩
    rw [processSlotF, compareFuel_add]
    refine ⟨?_, rfl, fun h => elim_true_eq_false h,
      fun _ => by show 0 < 1 + 0 + 0; omega⟩
    show serializeLines (mkAdded cb).1 + (0 + 0) = serializeLines (mkAdded cb).2 + (0 + 0)
    rw [mkAdded_lines]
  have hreplOK : ∀ ca cb : Node, ca ∈ cs1 → cb ∈ cs2 →
      SlotOK (processSlotF (compareFuel f) (.repl ca cb)) := by
    intro ca cb hca hcb
    have hwa := nodeWeight_le_of_mem hca
    have hpos := nodeWeight_pos ca
    obtain ⟨f1, rfl⟩ : ∃ f1, f = f1 + 1 := ⟨f - 1, by omega⟩
    rw [processSlotF, compareFuel_rem, compareFuel_add]
    refine ⟨?_, rfl, fun h => elim_true_eq_false h,
      fun _ => by show 0 < 0 + 1 + (1 + 0) + (0 + 0); omega⟩
    show serializeLines (mkRemoved ca).1 + (serializeLines (mkAdded cb).1 + (0 + 0)) =
      serializeLines (mkRemoved ca).2 + (serializeLines (mkAdded cb).2 + (0 + 0))
    rw [mkRemoved_lines, mkAdded_lines]
  intro s hs
  rw [buildSlots, List.mem_flatMap] at hs
  obtain ⟨op, hop, h⟩ := hs
  rw [slotsOfOpcode] at h
  rcases htag : op.tag with _ | _ | _ | _ <;> rw [htag] at h
  · rw [List.mem_map] at h
    obtain ⟨p, hp, he⟩ := h
    have hmem := List.of_mem_zip hp
    have h1 := mem_segment hmem.1
    have h2 := mem_segment hmem.2
    have hkey : nodeKey p.1 = nodeKey p.2 := equal_op_pairs_keyEq hop htag p hp
    rw [← he]
    by_cases hctx : p.1.tag ∈ contextTags
    · rw [if_pos hctx]
      rw [processSlotF]
      refine ⟨?_, rfl, fun _ => rfl, fun h => elim_false_eq_true h⟩
      show serializeLines (ctxtCopy p.1) + 0 = serializeLines (ctxtCopy p.2) + 0
      rw [ctxtCopy_lines_of_key hkey]
    · rw [if_neg hctx]
      exact hpairOK p.1 p.2 h1 h2
  · rw [List.append_assoc, List.mem_append, List.mem_append] at h
    rcases h with h | h | h
    · rw [List.mem_map] at h
      obtain ⟨p, hp, he⟩ := h
      have hmem := List.of_mem_zip hp
      have h1 := mem_segment hmem.1
      have h2 := mem_segment hmem.2
      rw [← he]
      by_cases hsame : p.1.tag = p.2.tag
      · rw [if_pos hsame]
        exact hpairOK p.1 p.2 h1 h2
      · rw [if_neg hsame]
        exact hreplOK p.1 p.2 h1 h2
    · rw [List.mem_map] at h
      obtain ⟨c, hc, he⟩ := h
      rw [← he]
      exact hdelOK c (mem_segment hc)
    · rw [List.mem_map] at h
      obtain ⟨c, hc, he⟩ := h
      rw [← he]
      exact hinsOK c (mem_segment hc)
  · rw [List.mem_map] at h
    obtain ⟨c, hc, he⟩ := h
    rw [← he]
    exact hdelOK c (mem_segment hc)
  · rw [List.mem_map] at h
    obtain ⟨c, hc, he⟩ := h
    rw [← he]
    exact hinsOK c (mem_segment hc)

theorem mismatch_lines (ra rb : ATree) (la lb : Nat)
    (hla : serializeLines ra = la) (hlb : serializeLines rb = lb)
    (hsa : ∀ app, serializeLines (setAppend ra app) = serializeLines ra + app)
    (hsb : ∀ app, serializeLines (setAppend rb app) = serializeLines rb + app) :
    serializeLines (if la < lb then setAppend ra (lb - la) else ra) =
      serializeLines (if lb < la then setAppend rb (la - lb) else rb) := by
  by_cases h1 : la < lb
  · rw [if_pos h1, if_neg (by omega), hsa, hla, hlb]
    omega
  · rw [if_neg h1]
    by_cases h2 : lb < la
    · rw [if_pos h2, hsb, hla, hlb]
      omega
    · rw [if_neg h2, hla, hlb]
      omega

theorem mismatch_ResOK (a b : Node) : ResOK (mismatchCompare a b) := by
  cases a with
  | mk t1 a1 x1 cs1 =>
    cases b with
    | mk t2 a2 x2 cs2 =>
      rw [mismatchCompare]
      refine ⟨rfl, ?_, ⟨fun _ => by show 0 < 1 + 1 + 0; omega, fun _ => rfl⟩,
        fun h => elim_true_eq_false h⟩
      exact mismatch_lines _ _ _ _ (markTree_lines _ _) (markTree_lines _ _)
        (fun app => by
          simp only [markTree]
          exact setAppend_lines _ _ _ _ _ app)
        (fun app => by
          simp only [markTree]
          exact setAppend_lines _ _ _ _ _ app)

/-- The master invariant: with adequate fuel, every `compare_nodes` result has
both sides present or both pruned, balanced rendered heights, a change flag
that is true exactly when some counter moved, and full pruning when unchanged. -/
theorem compareFuel_master : ∀ f : Nat, ∀ oa ob : Option Node,
    optWeight oa + optWeight ob ≤ f → ResOK (compareFuel f oa ob) := by
  intro f
  induction f using Nat.strong_induction_on with
  | _ f ihf =>
    intro oa ob hf
    match f, oa, ob with
    | 0, oa, ob =>
      exact ⟨rfl, rfl, ⟨fun h => elim_false_eq_true h, fun h => elim_zero_lt_zero h⟩,
        fun _ => ⟨rfl, rfl, rfl⟩⟩
    | (f + 1), none, none =>
      exact ⟨rfl, rfl, ⟨fun h => elim_false_eq_true h, fun h => elim_zero_lt_zero h⟩,
        fun _ => ⟨rfl, rfl, rfl⟩⟩
    | (f + 1), some a, none =>
      rw [compareFuel_rem]
      refine ⟨rfl, ?_, ⟨fun _ => by show 0 < 0 + 1 + 0; omega, fun _ => rfl⟩,
        fun h => elim_true_eq_false h⟩
      show serializeLines (mkRemoved a).1 = serializeLines (mkRemoved a).2
      rw [mkRemoved_lines]
    | (f + 1), none, some b =>
      rw [compareFuel_add]
      refine ⟨rfl, ?_, ⟨fun _ => by show 0 < 1 + 0 + 0; omega, fun _ => rfl⟩,
        fun h => elim_true_eq_false h⟩
      show serializeLines (mkAdded b).1 = serializeLines (mkAdded b).2
      rw [mkAdded_lines]
    | (f + 1), some a, some b =>
      rw [compareFuel]
      by_cases htag : a.tag ≠ b.tag
      · rw [if_pos htag]
        exact mismatch_ResOK a b
      · rw [if_neg htag]
        rw [sameTagRes]
        refine assembleRes_ResOK _ _ _ _ _ _ ?_ ?_
        · intro hmod
          rw [Bool.or_eq_false_iff, decide_eq_false_iff_not] at hmod
          have := hmod.1
          by_cases hEq : stripStr (a.text.getD "") = stripStr (b.text.getD "")
          · exact hEq
          · exact absurd hEq this
        · intro sr hsr
          rw [List.mem_map] at hsr
          obtain ⟨s, hs, he⟩ := hsr
          rw [← he]
          refine slot_SlotOK ?_ ?_ s hs
          · intro oa1 ob1 hw1
            exact ihf f (by omega) oa1 ob1 hw1
          · rw [optWeight, optWeight] at hf
            have e1 := nodeWeight_children a
            have e2 := nodeWeight_children b
            omega

/-- The invariant at the fuel `compareNodes` actually uses. -/
theorem compareNodes_ResOK (oa ob : Option Node) : ResOK (compareNodes oa ob) :=
  compareFuel_master (optWeight oa + optWeight ob) oa ob le_rfl

/-! ### Walk order of the matching blocks -/

theorem endI_nil (i : Nat) : endI [] i = i := rfl

theorem endJ_nil (j : Nat) : endJ [] j = j := rfl

theorem endI_cons (blk : Best) (rest : List Best) (i : Nat) :
    endI (blk :: rest) i = endI rest (blk.i + blk.size) := rfl

theorem endJ_cons (blk : Best) (rest : List Best) (j : Nat) :
    endJ (blk :: rest) j = endJ rest (blk.j + blk.size) := rfl

theorem endI_append (l1 l2 : List Best) (i : Nat) :
    endI (l1 ++ l2) i = endI l2 (endI l1 i) := by
  rw [endI, endI, endI, List.foldl_append]

theorem endJ_append (l1 l2 : List Best) (j : Nat) :
    endJ (l1 ++ l2) j = endJ l2 (endJ l1 j) := by
  rw [endJ, endJ, endJ, List.foldl_append]

theorem endI_singleton (blk : Best) (i : Nat) : endI [blk] i = blk.i + blk.size := rfl

theorem endJ_singleton (blk : Best) (j : Nat) : endJ [blk] j = blk.j + blk.size := rfl

theorem asc_append : ∀ (l1 l2 : List Best) (i j : Nat),
    ascBlocks i j (l1 ++ l2) ↔
      ascBlocks i j l1 ∧ ascBlocks (endI l1 i) (endJ l1 j) l2 := by
  intro l1
  induction l1 with
  | nil =>
    intro l2 i j
    rw [List.nil_append, endI_nil, endJ_nil]
    exact ⟨fun h => ⟨trivial, h⟩, fun h => h.2⟩
  | cons blk l1 ih =>
    intro l2 i j
    rw [List.cons_append]
    show (i ≤ blk.i ∧ j ≤ blk.j ∧ ascBlocks (blk.i + blk.size) (blk.j + blk.size) (l1 ++ l2)) ↔ _
    rw [ih l2 (blk.i + blk.size) (blk.j + blk.size), endI_cons, endJ_cons]
    show _ ↔ (i ≤ blk.i ∧ j ≤ blk.j ∧ ascBlocks _ _ l1) ∧ _
    constructor
    · rintro ⟨h1, h2, h3, h4⟩
      exact ⟨⟨h1, h2, h3⟩, h4⟩
    · rintro ⟨⟨h1, h2, h3⟩, h4⟩
      exact ⟨h1, h2, h3, h4⟩

theorem asc_three {L R : List Best} {m : Best} {alo blo : Nat}
    (hL : ascBlocks alo blo L) (hLi : endI L alo ≤ m.i) (hLj : endJ L blo ≤ m.j)
    (hR : ascBlocks (m.i + m.size) (m.j + m.size) R) :
    ascBlocks alo blo (L ++ [m] ++ R) ∧
      endI (L ++ [m] ++ R) alo = endI R (m.i + m.size) ∧
      endJ (L ++ [m] ++ R) blo = endJ R (m.j + m.size) := by
  constructor
  · rw [asc_append, asc_append, endI_append, endJ_append, endI_singleton, endJ_singleton]
    exact ⟨⟨hL, hLi, hLj, trivial⟩, hR⟩
  · rw [endI_append, endI_append, endJ_append, endJ_append, endI_singleton, endJ_singleton]
    exact ⟨rfl, rfl⟩

theorem mbAux_asc {a b : List Key} :
    ∀ fuel alo ahi blo bhi, alo ≤ ahi → ahi ≤ a.length → blo ≤ bhi → bhi ≤ b.length →
      ascBlocks alo blo (mbAux a b (b2j b) fuel alo ahi blo bhi) ∧
        endI (mbAux a b (b2j b) fuel alo ahi blo bhi) alo ≤ ahi ∧
        endJ (mbAux a b (b2j b) fuel alo ahi blo bhi) blo ≤ bhi := by
  intro fuel
  induction fuel with
  | zero =>
    intro alo ahi blo bhi h1 _ h3 _
    exact ⟨trivial, h1, h3⟩
  | succ fuel ih =>
    intro alo ahi blo bhi h1 h2 h3 h4
    rw [mbAux]
    have hm := findLongestMatch_sound h1 h2 h3 h4 (a := a) (b := b)
    obtain ⟨hm1, hm2, hm3, hm4, hm5⟩ := hm
    split
    · rename_i hsz
      have hL := ih alo (findLongestMatch a b alo ahi blo bhi (b2j b)).i blo
        (findLongestMatch a b alo ahi blo bhi (b2j b)).j hm1 (by omega) hm2 (by omega)
      have hR := ih ((findLongestMatch a b alo ahi blo bhi (b2j b)).i +
          (findLongestMatch a b alo ahi blo bhi (b2j b)).size) ahi
        ((findLongestMatch a b alo ahi blo bhi (b2j b)).j +
          (findLongestMatch a b alo ahi blo bhi (b2j b)).size) bhi
        (by omega) h2 (by omega) h4
      have hcomp := @asc_three
        (if alo < (findLongestMatch a b alo ahi blo bhi (b2j b)).i ∧
            blo < (findLongestMatch a b alo ahi blo bhi (b2j b)).j then
          mbAux a b (b2j b) fuel alo (findLongestMatch a b alo ahi blo bhi (b2j b)).i blo
            (findLongestMatch a b alo ahi blo bhi (b2j b)).j else [])
        (if (findLongestMatch a b alo ahi blo bhi (b2j b)).i +
            (findLongestMatch a b alo ahi blo bhi (b2j b)).size < ahi ∧
            (findLongestMatch a b alo ahi blo bhi (b2j b)).j +
            (findLongestMatch a b alo ahi blo bhi (b2j b)).size < bhi then
          mbAux a b (b2j b) fuel ((findLongestMatch a b alo ahi blo bhi (b2j b)).i +
            (findLongestMatch a b alo ahi blo bhi (b2j b)).size) ahi
            ((findLongestMatch a b alo ahi blo bhi (b2j b)).j +
            (findLongestMatch a b alo ahi blo bhi (b2j b)).size) bhi else [])
        (findLongestMatch a b alo ahi blo bhi (b2j b)) alo blo
        ?_ ?_ ?_ ?_
      · refine ⟨hcomp.1, ?_, ?_⟩
        · rw [hcomp.2.1]
          split
          · exact hR.2.1
          · rw [endI_nil]; exact hm3
        · rw [hcomp.2.2]
          split
          · exact hR.2.2
          · rw [endJ_nil]; exact hm4
      · split
        · exact hL.1
        · trivial
      · split
        · exact hL.2.1
        · rw [endI_nil]; exact hm1
      · split
        · exact hL.2.2
        · rw [endJ_nil]; exact hm2
      · split
        · exact hR.1
        · trivial
    · exact ⟨trivial, h1, h3⟩

theorem naStep_eq (acc : List Best) (pending blk : Best) :
    naStep (acc, pending) blk =
      if pending.i + pending.size = blk.i ∧ pending.j + pending.size = blk.j then
        (acc, Best.mk pending.i pending.j (pending.size + blk.size))
      else if 0 < pending.size then (acc ++ [pending], blk) else (acc, blk) := rfl

theorem naStep_fold_asc (la lb : Nat) : ∀ (bs : List Best) (acc : List Best) (pending : Best),
    ascBlocks 0 0 (acc ++ [pending]) →
    ascBlocks (pending.i + pending.size) (pending.j + pending.size) bs →
    pending.i + pending.size ≤ la → pending.j + pending.size ≤ lb →
    endI acc 0 ≤ la → endJ acc 0 ≤ lb →
    (∀ blk ∈ bs, blk.i + blk.size ≤ la ∧ blk.j + blk.size ≤ lb) →
    ascBlocks 0 0 ((bs.foldl naStep (acc, pending)).1 ++ [(bs.foldl naStep (acc, pending)).2]) ∧
      (bs.foldl naStep (acc, pending)).2.i + (bs.foldl naStep (acc, pending)).2.size ≤ la ∧
      (bs.foldl naStep (acc, pending)).2.j + (bs.foldl naStep (acc, pending)).2.size ≤ lb ∧
      endI (bs.foldl naStep (acc, pending)).1 0 ≤ la ∧
      endJ (bs.foldl naStep (acc, pending)).1 0 ≤ lb := by
  intro bs
  induction bs with
  | nil =>
    intro acc pending hap _ hpl hpb hea heb _
    exact ⟨hap, hpl, hpb, hea, heb⟩
  | cons blk bs ihb =>
    intro acc pending hap hrem hpl hpb hea heb hall
    rw [List.foldl_cons, naStep_eq]
    obtain ⟨hr1, hr2, hr3⟩ := hrem
    have hblk := hall blk (List.mem_cons_self blk bs)
    have hall2 : ∀ c ∈ bs, c.i + c.size ≤ la ∧ c.j + c.size ≤ lb :=
      fun c hc => hall c (List.mem_cons_of_mem blk hc)
    by_cases hadj : pending.i + pending.size = blk.i ∧ pending.j + pending.size = blk.j
    · rw [if_pos hadj]
      refine ihb acc (Best.mk pending.i pending.j (pending.size + blk.size)) ?_ ?_ ?_ ?_
        hea heb hall2
      · rw [asc_append] at hap ⊢
        refine ⟨hap.1, ?_⟩
        obtain ⟨g1, g2, g3⟩ := hap.2
        exact ⟨g1, g2, trivial⟩
      · show ascBlocks (pending.i + (pending.size + blk.size))
          (pending.j + (pending.size + blk.size)) bs
        have e1 : pending.i + (pending.size + blk.size) = blk.i + blk.size := by omega
        have e2 : pending.j + (pending.size + blk.size) = blk.j + blk.size := by omega
        rw [e1, e2]
        exact hr3
      · show pending.i + (pending.size + blk.size) ≤ la
        omega
      · show pending.j + (pending.size + blk.size) ≤ lb
        omega
    · rw [if_neg hadj]
      by_cases hsz : 0 < pending.size
      · rw [if_pos hsz]
        refine ihb (acc ++ [pending]) blk ?_ hr3 hblk.1 hblk.2 ?_ ?_ hall2
        · rw [asc_append]
          refine ⟨hap, ?_⟩
          rw [endI_append, endJ_append, endI_singleton, endJ_singleton]
          exact ⟨hr1, hr2, trivial⟩
        · rw [endI_append, endI_singleton]
          exact hpl
        · rw [endJ_append, endJ_singleton]
          exact hpb
      · rw [if_neg hsz]
        refine ihb acc blk ?_ hr3 hblk.1 hblk.2 hea heb hall2
        rw [asc_append] at hap ⊢
        refine ⟨hap.1, ?_⟩
        obtain ⟨g1, g2, g3⟩ := hap.2
        have hps : pending.size = 0 := by omega
        exact ⟨by omega, by omega, trivial⟩

theorem nonAdjacent_eq_step (blocks : List Best) (la lb : Nat) :
    nonAdjacent blocks la lb =
      (if 0 < (blocks.foldl naStep ([], Best.mk 0 0 0)).2.size then
        (blocks.foldl naStep ([], Best.mk 0 0 0)).1 ++
          [(blocks.foldl naStep ([], Best.mk 0 0 0)).2]
      else (blocks.foldl naStep ([], Best.mk 0 0 0)).1) ++ [Best.mk la lb 0] := rfl

theorem nonAdjacent_asc {la lb : Nat} {blocks : List Best}
    (hasc : ascBlocks 0 0 blocks)
    (hbound : ∀ blk ∈ blocks, blk.i + blk.size ≤ la ∧ blk.j + blk.size ≤ lb) :
    ascBlocks 0 0 (nonAdjacent blocks la lb) := by
  rw [nonAdjacent_eq_step]
  have hres := naStep_fold_asc la lb blocks [] (Best.mk 0 0 0)
    ⟨by omega, by omega, trivial⟩
    (by show ascBlocks (0 + 0) (0 + 0) blocks; rw [Nat.add_zero]; exact hasc)
    (by show (0 : Nat) + 0 ≤ la; omega) (by show (0 : Nat) + 0 ≤ lb; omega)
    (by rw [endI_nil]; omega) (by rw [endJ_nil]; omega) hbound
  obtain ⟨hres1, hres2, hres3, hres4, hres5⟩ := hres
  rw [asc_append]
  constructor
  · split
    · exact hres1
    · rw [asc_append] at hres1
      exact hres1.1
  · refine ⟨?_, ?_, trivial⟩
    · split
      · rw [endI_append, endI_singleton]
        exact hres2
      · exact hres4
    · split
      · rw [endJ_append, endJ_singleton]
        exact hres3
      · exact hres5

theorem matchingBlocks_asc {a b : List Key} :
    ascBlocks 0 0 (matchingBlocks a b) := by
  rw [matchingBlocks]
  refine nonAdjacent_asc ?_ ?_
  · exact (mbAux_asc _ 0 a.length 0 b.length (by omega) le_rfl (by omega) le_rfl).1
  · intro blk hblk
    have := mbAux_genuine _ 0 a.length 0 b.length (by omega) le_rfl (by omega) le_rfl blk hblk
    exact ⟨this.2.1, this.2.2⟩

theorem matchingBlocks_ends {a b : List Key} :
    endI (matchingBlocks a b) 0 = a.length ∧ endJ (matchingBlocks a b) 0 = b.length := by
  rw [matchingBlocks, nonAdjacent_eq_step, endI_append, endJ_append,
    endI_singleton, endJ_singleton]
  exact ⟨rfl, rfl⟩

/-! ### Coverage: if the walk pairs every stretch by an equal-keyed slice,
the two sequences coincide -/

theorem drop_eq_segment_append {α : Type} (l : List α) (s n : Nat) :
    List.drop s l = segment l s n ++ List.drop (s + n) l := by
  rw [segment]
  conv =>
    lhs
    rw [← List.take_append_drop n (l.drop s)]
  rw [List.drop_drop]

theorem opcodesFrom_cover {a b : List Key} :
    ∀ (blocks : List Best) (i j : Nat), ascBlocks i j blocks →
      (∀ blk ∈ blocks, genuine a b blk) →
      (∀ op ∈ opcodesFrom i j blocks, ∃ n, op.i2 = op.i1 + n ∧ op.j2 = op.j1 + n ∧
        segment a op.i1 n = segment b op.j1 n) →
      List.drop (endI blocks i) a = List.drop (endJ blocks j) b →
      List.drop i a = List.drop j b := by
  intro blocks
  induction blocks with
  | nil =>
    intro i j _ _ _ hend
    rw [endI_nil, endJ_nil] at hend
    exact hend
  | cons blk rest ih =>
    intro i j hasc hgen hops hend
    obtain ⟨ha1, ha2, ha3⟩ := hasc
    have hgenblk := hgen blk (List.mem_cons_self blk rest)
    have htail : List.drop (blk.i + blk.size) a = List.drop (blk.j + blk.size) b := by
      refine ih (blk.i + blk.size) (blk.j + blk.size) ha3
        (fun c hc => hgen c (List.mem_cons_of_mem blk hc)) ?_ ?_
      · intro op hop
        refine hops op ?_
        rw [opcodesFrom, List.mem_append, List.mem_append]
        right
        exact hop
      · rw [endI_cons, endJ_cons] at hend
        exact hend
    have hblkstep : List.drop blk.i a = List.drop blk.j b := by
      rw [drop_eq_segment_append a blk.i blk.size, drop_eq_segment_append b blk.j blk.size]
      rw [hgenblk.1, htail]
    by_cases hpre : i < blk.i ∨ j < blk.j
    · have hopmem : ∃ op, op ∈ opcodesFrom i j (blk :: rest) ∧ op.i1 = i ∧ op.i2 = blk.i ∧
          op.j1 = j ∧ op.j2 = blk.j := by
        rw [opcodesFrom]
        by_cases h1 : i < blk.i ∧ j < blk.j
        · refine ⟨Opcode.mk .replace i blk.i j blk.j, ?_, rfl, rfl, rfl, rfl⟩
          rw [List.mem_append, List.mem_append, if_pos h1]
          left; left
          exact List.mem_singleton.mpr rfl
        · rcases hpre with h2 | h2
          · refine ⟨Opcode.mk .delete i blk.i j blk.j, ?_, rfl, rfl, rfl, rfl⟩
            rw [List.mem_append, List.mem_append, if_neg h1, if_pos h2]
            left; left
            exact List.mem_singleton.mpr rfl
          · refine ⟨Opcode.mk .insert i blk.i j blk.j, ?_, rfl, rfl, rfl, rfl⟩
            have h3 : ¬ i < blk.i := fun hc => h1 ⟨hc, h2⟩
            rw [List.mem_append, List.mem_append, if_neg h1, if_neg h3, if_pos h2]
            left; left
            exact List.mem_singleton.mpr rfl
      obtain ⟨op, hmem, e1, e2, e3, e4⟩ := hopmem
      obtain ⟨n, hn1, hn2, hseg⟩ := hops op hmem
      rw [e1, e2] at hn1
      rw [e3, e4] at hn2
      rw [e1, e3] at hseg
      rw [drop_eq_segment_append a i n, drop_eq_segment_append b j n, hseg]
      rw [show i + n = blk.i from by omega, show j + n = blk.j from by omega]
      rw [hblkstep]
    · have hi : i = blk.i := by omega
      have hj : j = blk.j := by omega
      rw [hi, hj]
      exact hblkstep

/-- Shape of the cursor opcodes: the one-sided and replace opcodes denote
nonempty in-range stretches. -/
theorem opcodesFrom_shape {a b : List Key} :
    ∀ (blocks : List Best) (i j : Nat), ascBlocks i j blocks →
      (∀ blk ∈ blocks, genuine a b blk) →
      ∀ op ∈ opcodesFrom i j blocks,
        (op.tag = .replace → op.i1 < op.i2 ∧ op.j1 < op.j2 ∧
          op.i2 ≤ a.length ∧ op.j2 ≤ b.length) ∧
        (op.tag = .delete → op.i1 < op.i2 ∧ op.i2 ≤ a.length) ∧
        (op.tag = .insert → op.j1 < op.j2 ∧ op.j2 ≤ b.length) := by
  intro blocks
  induction blocks with
  | nil =>
    intro i j _ _ op hop
    cases hop
  | cons blk rest ih =>
    intro i j hasc hgen op hop
    obtain ⟨ha1, ha2, ha3⟩ := hasc
    have hgenblk := hgen blk (List.mem_cons_self blk rest)
    have hia : blk.i + blk.size ≤ a.length := hgenblk.2.1
    have hjb : blk.j + blk.size ≤ b.length := hgenblk.2.2
    rw [opcodesFrom, List.mem_append, List.mem_append] at hop
    rcases hop with (hop | hop) | hop
    · split at hop
      · rename_i hcond
        rw [List.mem_singleton] at hop
        subst hop
        refine ⟨fun _ => ⟨?_, ?_, ?_, ?_⟩,
          fun hcon => absurd (show OpTag.replace = OpTag.delete from hcon) (by decide),
          fun hcon => absurd (show OpTag.replace = OpTag.insert from hcon) (by decide)⟩
        · exact hcond.1
        · exact hcond.2
        · show blk.i ≤ a.length
          omega
        · show blk.j ≤ b.length
          omega
      · split at hop
        · rename_i hcond
          rw [List.mem_singleton] at hop
          subst hop
          refine ⟨fun hcon => absurd (show OpTag.delete = OpTag.replace from hcon) (by decide),
            fun _ => ⟨hcond, ?_⟩,
            fun hcon => absurd (show OpTag.delete = OpTag.insert from hcon) (by decide)⟩
          show blk.i ≤ a.length
          omega
        · split at hop
          · rename_i hcond
            rw [List.mem_singleton] at hop
            subst hop
            refine ⟨fun hcon => absurd (show OpTag.insert = OpTag.replace from hcon) (by decide),
              fun hcon => absurd (show OpTag.insert = OpTag.delete from hcon) (by decide),
              fun _ => ⟨hcond, ?_⟩⟩
            show blk.j ≤ b.length
            omega
          · cases hop
    · split at hop
      · rw [List.mem_singleton] at hop
        subst hop
        exact ⟨fun hcon => absurd (show OpTag.equal = OpTag.replace from hcon) (by decide),
          fun hcon => absurd (show OpTag.equal = OpTag.delete from hcon) (by decide),
          fun hcon => absurd (show OpTag.equal = OpTag.insert from hcon) (by decide)⟩
      · cases hop
    · exact ih (blk.i + blk.size) (blk.j + blk.size) ha3
        (fun c hc => hgen c (List.mem_cons_of_mem blk hc)) op hop

theorem getOpcodes_shape {a b : List Key} {op : Opcode} (h : op ∈ getOpcodes a b) :
    (op.tag = .replace → op.i1 < op.i2 ∧ op.j1 < op.j2 ∧
      op.i2 ≤ a.length ∧ op.j2 ≤ b.length) ∧
    (op.tag = .delete → op.i1 < op.i2 ∧ op.i2 ≤ a.length) ∧
    (op.tag = .insert → op.j1 < op.j2 ∧ op.j2 ≤ b.length) :=
  opcodesFrom_shape (matchingBlocks a b) 0 0 matchingBlocks_asc
    matchingBlocks_genuine op h

theorem getOpcodes_cover {a b : List Key}
    (hops : ∀ op ∈ getOpcodes a b, ∃ n, op.i2 = op.i1 + n ∧ op.j2 = op.j1 + n ∧
      segment a op.i1 n = segment b op.j1 n) :
    a = b := by
  have hends := matchingBlocks_ends (a := a) (b := b)
  have := opcodesFrom_cover (matchingBlocks a b) 0 0 matchingBlocks_asc
    matchingBlocks_genuine hops ?_
  · rw [List.drop_zero, List.drop_zero] at this
    exact this
  · rw [hends.1, hends.2, List.drop_length, List.drop_length]

/-! ### An unchanged comparison forces equal identity keys -/

theorem assembleRes_changed_false {a b : Node} {isMod : Bool} {ta tb : String}
    {results : List SlotRes} (h : (assembleRes a b isMod ta tb results).changed = false) :
    isMod = false ∧ results.any SlotRes.changed = false := by
  by_cases hcond : (!isMod && !(results.any SlotRes.changed)) = true
  · rw [Bool.and_eq_true, Bool.not_eq_true', Bool.not_eq_true'] at hcond
    exact hcond
  · rw [assembleRes, if_neg hcond] at h
    exact elim_true_eq_false h

theorem mismatch_changed (a b : Node) : (mismatchCompare a b).changed = true := rfl

theorem processSlot_del_changed (cmp : Option Node → Option Node → Res) (c : Node) :
    (processSlotF cmp (.del c)).changed = true := rfl

theorem processSlot_ins_changed (cmp : Option Node → Option Node → Res) (c : Node) :
    (processSlotF cmp (.ins c)).changed = true := rfl

theorem processSlot_repl_changed (cmp : Option Node → Option Node → Res) (ca cb : Node) :
    (processSlotF cmp (.repl ca cb)).changed = true := rfl

theorem processSlot_pair_changed (cmp : Option Node → Option Node → Res) (ca cb : Node) :
    (processSlotF cmp (.pair ca cb)).changed = (cmp (some ca) (some cb)).changed := by
  rw [processSlotF]
  by_cases h : (cmp (some ca) (some cb)).changed = true
  · rw [if_pos h, h]
  · rw [if_neg h]
    rw [Bool.not_eq_true] at h
    rw [h]

theorem del_slot_mem {A B : List Node} {op : Opcode} (htg : op.tag = .delete) {c : Node}
    (hc : c ∈ segment A op.i1 (op.i2 - op.i1)) : Slot.del c ∈ slotsOfOpcode A B op := by
  rw [slotsOfOpcode, htg]
  exact List.mem_map_of_mem _ hc

theorem ins_slot_mem {A B : List Node} {op : Opcode} (htg : op.tag = .insert) {c : Node}
    (hc : c ∈ segment B op.j1 (op.j2 - op.j1)) : Slot.ins c ∈ slotsOfOpcode A B op := by
  rw [slotsOfOpcode, htg]
  exact List.mem_map_of_mem _ hc

theorem repl_del_slot_mem {A B : List Node} {op : Opcode} (htg : op.tag = .replace) {c : Node}
    (hc : c ∈ segment A (op.i1 + min (op.i2 - op.i1) (op.j2 - op.j1))
      ((op.i2 - op.i1) - min (op.i2 - op.i1) (op.j2 - op.j1))) :
    Slot.del c ∈ slotsOfOpcode A B op := by
  rw [slotsOfOpcode, htg]
  rw [List.append_assoc, List.mem_append, List.mem_append]
  right
  left
  exact List.mem_map_of_mem _ hc

theorem repl_ins_slot_mem {A B : List Node} {op : Opcode} (htg : op.tag = .replace) {c : Node}
    (hc : c ∈ segment B (op.j1 + min (op.i2 - op.i1) (op.j2 - op.j1))
      ((op.j2 - op.j1) - min (op.i2 - op.i1) (op.j2 - op.j1))) :
    Slot.ins c ∈ slotsOfOpcode A B op := by
  rw [slotsOfOpcode, htg]
  rw [List.append_assoc, List.mem_append, List.mem_append]
  right
  right
  exact List.mem_map_of_mem _ hc

theorem repl_zip_slot_mem {A B : List Node} {op : Opcode} (htg : op.tag = .replace)
    {p : Node × Node}
    (hp : p ∈ (segment A op.i1 (min (op.i2 - op.i1) (op.j2 - op.j1))).zip
      (segment B op.j1 (min (op.i2 - op.i1) (op.j2 - op.j1)))) :
    (if p.1.tag = p.2.tag then Slot.pair p.1 p.2 else Slot.repl p.1 p.2) ∈
      slotsOfOpcode A B op := by
  rw [slotsOfOpcode, htg]
  rw [List.append_assoc, List.mem_append]
  left
  exact List.mem_map_of_mem _ hp

/-- If `compare_nodes` reports no change on two present nodes, their identity
keys coincide. -/
theorem compareFuel_changed_key : ∀ f : Nat, ∀ a b : Node,
    nodeWeight a + nodeWeight b ≤ f →
    (compareFuel f (some a) (some b)).changed = false → nodeKey a = nodeKey b := by
  intro f
  induction f using Nat.strong_induction_on with
  | _ f ihf =>
    intro a b hw hch
    match f, hw with
    | 0, hw =>
      exfalso
      have h1 := nodeWeight_pos a
      have h2 := nodeWeight_pos b
      omega
    | (f + 1), hw =>
      rw [compareFuel] at hch
      by_cases htag : a.tag ≠ b.tag
      · rw [if_pos htag, mismatch_changed] at hch
        exact elim_true_eq_false hch
      · rw [if_neg htag, sameTagRes] at hch
        have ht : a.tag = b.tag := by
          by_cases h : a.tag = b.tag
          · exact h
          · exact absurd h htag
        obtain ⟨hmod, hany⟩ := assembleRes_changed_false hch
        rw [Bool.or_eq_false_iff, decide_eq_false_iff_not] at hmod
        have htxt : stripStr (a.text.getD "") = stripStr (b.text.getD "") := by
          by_cases h : stripStr (a.text.getD "") = stripStr (b.text.getD "")
          · exact h
          · exact absurd h hmod.1
        have hattr : sortPairs a.attrib = sortPairs b.attrib := by
          have := hmod.2
          rw [Bool.not_eq_false', dictEq, decide_eq_true_eq] at this
          exact this
        rw [List.any_eq_false] at hany
        have hslot : ∀ s ∈ buildSlots a.children b.children
            (getOpcodes (nodeKeyList a.children) (nodeKeyList b.children)),
            (processSlotF (compareFuel f) s).changed = false := by
          intro s hs
          have hm := hany _ (List.mem_map_of_mem (processSlotF (compareFuel f)) hs)
          cases hc2 : (processSlotF (compareFuel f) s).changed with
          | false => rfl
          | true => exact absurd hc2 hm
        have hwf : nodeWeightList a.children + nodeWeightList b.children + 1 ≤ f := by
          have e1 := nodeWeight_children a
          have e2 := nodeWeight_children b
          omega
        have hlenA : (nodeKeyList a.children).length = a.children.length :=
          nodeKeyList_length a.children
        have hlenB : (nodeKeyList b.children).length = b.children.length :=
          nodeKeyList_length b.children
        have hkeq : nodeKeyList a.children = nodeKeyList b.children := by
          refine getOpcodes_cover ?_
          intro op hop
          rcases htg : op.tag with _ | _ | _ | _
          · obtain ⟨n, h1, h2, hseg, h4, h5⟩ := getOpcodes_equal_genuine hop htg
            exact ⟨n, h1, h2, hseg⟩
          · obtain ⟨hi12, hj12, hi2, hj2⟩ := (getOpcodes_shape hop).1 htg
            have hlA : op.i1 + (op.i2 - op.i1) ≤ a.children.length := by omega
            have hlB : op.j1 + (op.j2 - op.j1) ≤ b.children.length := by omega
            have hnodel : ¬ op.j2 - op.j1 < op.i2 - op.i1 := by
              intro hlt
              have hm : min (op.i2 - op.i1) (op.j2 - op.j1) = op.j2 - op.j1 := by omega
              have hpos : 0 < (segment a.children
                  (op.i1 + min (op.i2 - op.i1) (op.j2 - op.j1))
                  ((op.i2 - op.i1) - min (op.i2 - op.i1) (op.j2 - op.j1))).length := by
                rw [segment_length]
                · omega
                · omega
              obtain ⟨c, hc⟩ := List.exists_mem_of_length_pos hpos
              have := hslot _ (List.mem_flatMap.mpr
                ⟨op, hop, repl_del_slot_mem htg hc⟩)
              rw [processSlot_del_changed] at this
              exact elim_true_eq_false this
            have hnoins : ¬ op.i2 - op.i1 < op.j2 - op.j1 := by
              intro hlt
              have hpos : 0 < (segment b.children
                  (op.j1 + min (op.i2 - op.i1) (op.j2 - op.j1))
                  ((op.j2 - op.j1) - min (op.i2 - op.i1) (op.j2 - op.j1))).length := by
                rw [segment_length]
                · omega
                · omega
              obtain ⟨c, hc⟩ := List.exists_mem_of_length_pos hpos
              have := hslot _ (List.mem_flatMap.mpr
                ⟨op, hop, repl_ins_slot_mem htg hc⟩)
              rw [processSlot_ins_changed] at this
              exact elim_true_eq_false this
            have heqlen : op.i2 - op.i1 = op.j2 - op.j1 := by omega
            have hminA : min (op.i2 - op.i1) (op.j2 - op.j1) = op.i2 - op.i1 := by omega
            refine ⟨op.i2 - op.i1, by omega, by omega, ?_⟩
            rw [nodeKeyList_eq_map, nodeKeyList_eq_map, segment_map, segment_map]
            refine map_eq_of_zip ?_ ?_
            · rw [segment_length, segment_length]
              · omega
              · omega
            · intro p hp
              have hp2 : p ∈ (segment a.children op.i1
                  (min (op.i2 - op.i1) (op.j2 - op.j1))).zip
                  (segment b.children op.j1 (min (op.i2 - op.i1) (op.j2 - op.j1))) := by
                rw [hminA, ← heqlen] at *
                exact hp
              have hmemz := List.of_mem_zip hp2
              have hmA := mem_segment hmemz.1
              have hmB := mem_segment hmemz.2
              have hsame : p.1.tag = p.2.tag := by
                by_cases hs : p.1.tag = p.2.tag
                · exact hs
                · have hsl := hslot _ (List.mem_flatMap.mpr
                    ⟨op, hop, repl_zip_slot_mem htg hp2⟩)
                  rw [if_neg hs, processSlot_repl_changed] at hsl
                  exact elim_true_eq_false hsl
              have hsl := hslot _ (List.mem_flatMap.mpr
                ⟨op, hop, repl_zip_slot_mem htg hp2⟩)
              rw [if_pos hsame, processSlot_pair_changed] at hsl
              have hwp1 := nodeWeight_le_of_mem hmA
              have hwp2 := nodeWeight_le_of_mem hmB
              exact ihf f (by omega) p.1 p.2 (by omega) hsl
          · obtain ⟨hi12, hi2⟩ := (getOpcodes_shape hop).2.1 htg
            exfalso
            have hpos : 0 < (segment a.children op.i1 (op.i2 - op.i1)).length := by
              rw [segment_length]
              · omega
              · omega
            obtain ⟨c, hc⟩ := List.exists_mem_of_length_pos hpos
            have := hslot _ (List.mem_flatMap.mpr ⟨op, hop, del_slot_mem htg hc⟩)
            rw [processSlot_del_changed] at this
            exact elim_true_eq_false this
          · obtain ⟨hj12, hj2⟩ := (getOpcodes_shape hop).2.2 htg
            exfalso
            have hpos : 0 < (segment b.children op.j1 (op.j2 - op.j1)).length := by
              rw [segment_length]
              · omega
              · omega
            obtain ⟨c, hc⟩ := List.exists_mem_of_length_pos hpos
            have := hslot _ (List.mem_flatMap.mpr ⟨op, hop, ins_slot_mem htg hc⟩)
            rw [processSlot_ins_changed] at this
            exact elim_true_eq_false this
        cases a with
        | mk t1 a1 x1 cs1 =>
          cases b with
          | mk t2 a2 x2 cs2 =>
            rw [nodeKey, nodeKey]
            rw [show (Node.mk t1 a1 x1 cs1).tag = t1 from rfl,
              show (Node.mk t2 a2 x2 cs2).tag = t2 from rfl] at ht
            rw [ht]
            rw [show (Node.mk t1 a1 x1 cs1).attrib = a1 from rfl,
              show (Node.mk t2 a2 x2 cs2).attrib = a2 from rfl] at hattr
            rw [hattr]
            rw [show (Node.mk t1 a1 x1 cs1).text = x1 from rfl,
              show (Node.mk t2 a2 x2 cs2).text = x2 from rfl] at htxt
            rw [htxt]
            rw [show (Node.mk t1 a1 x1 cs1).children = cs1 from rfl,
              show (Node.mk t2 a2 x2 cs2).children = cs2 from rfl] at hkeq
            rw [hkeq]

/-- The change flag is false exactly when the two subtrees carry the same
identity key. -/
theorem compareNodes_changed_iff (a b : Node) :
    (compareNodes (some a) (some b)).changed = false ↔ nodeKey a = nodeKey b := by
  constructor
  · intro h
    exact compareFuel_changed_key (optWeight (some a) + optWeight (some b)) a b le_rfl h
  · intro h
    rw [compareNodes_keyEq h]

/-! ### Canonicalization: the stored key, and invariance under child permutation -/

instance : IsTotal (Node × Key) pairKeyLe :=
  ⟨fun p q => keyCmp_lawful.le_total p.2 q.2⟩

instance : IsTrans (Node × Key) pairKeyLe :=
  ⟨fun _ _ _ h1 h2 => keyCmp_lawful.le_trans h1 h2⟩

instance : IsAntisymm Key (cmpLe keyCmp) :=
  ⟨fun _ _ h1 h2 => keyCmp_lawful.le_antisymm h1 h2⟩

theorem sorted_proj_eq {l1 l2 : List (Node × Key)}
    (hp : List.Perm (l1.map Prod.snd) (l2.map Prod.snd)) :
    (List.insertionSort pairKeyLe l1).map Prod.snd =
      (List.insertionSort pairKeyLe l2).map Prod.snd := by
  refine List.eq_of_perm_of_sorted (r := cmpLe keyCmp) ?_ ?_ ?_
  · exact ((List.perm_insertionSort pairKeyLe l1).map Prod.snd).trans
      (hp.trans ((List.perm_insertionSort pairKeyLe l2).map Prod.snd).symm)
  · exact List.Pairwise.map Prod.snd (fun p q hpq => hpq)
      (List.sorted_insertionSort pairKeyLe l1)
  · exact List.Pairwise.map Prod.snd (fun p q hpq => hpq)
      (List.sorted_insertionSort pairKeyLe l2)

/-- The key returned by `sort_and_key` is the key that `compare_nodes` later
recomputes from the sorted tree it stored. -/
theorem canonKey_spec : ∀ n : Nat, ∀ t : Node, nodeWeight t ≤ n →
    nodeKey (canonPair t).1 = (canonPair t).2 := by
  intro n
  induction n with
  | zero =>
    intro t hw
    have := nodeWeight_pos t
    omega
  | succ n ih =>
    intro t hw
    cases t with
    | mk tg a x cs =>
      have hcs : ∀ p ∈ List.insertionSort pairKeyLe (canonPairList cs),
          nodeKey p.1 = p.2 := by
        intro p hp
        have hp2 : p ∈ canonPairList cs :=
          (List.perm_insertionSort pairKeyLe (canonPairList cs)).mem_iff.mp hp
        rw [canonPairList_eq_map, List.mem_map] at hp2
        obtain ⟨c, hc, he⟩ := hp2
        have hwc : nodeWeight c ≤ n := by
          have h1 := nodeWeight_le_of_mem hc
          have h2 := nodeWeight_children (Node.mk tg a x cs)
          rw [show (Node.mk tg a x cs).children = cs from rfl] at h2
          omega
        rw [← he]
        exact ih c hwc
      rw [canonPair, nodeKey]
      have hlist : ∀ l : List (Node × Key), (∀ p ∈ l, nodeKey p.1 = p.2) →
          nodeKeyList (l.map Prod.fst) = l.map Prod.snd := by
        intro l
        induction l with
        | nil =>
          intro _
          rfl
        | cons p l ihl =>
          intro hall
          rw [List.map_cons, List.map_cons, nodeKeyList,
            hall p (List.mem_cons_self p l), ihl (fun q hq =>
              hall q (List.mem_cons_of_mem p hq))]
      rw [hlist _ hcs]

theorem nodeKey_canonNode (t : Node) : nodeKey (canonNode t) = canonKey t :=
  canonKey_spec (nodeWeight t) t le_rfl

theorem treePerm_canonKey {t t' : Node} (h : TreePerm t t') :
    canonKey t = canonKey t' := by
  have main : ∀ t t' : Node, TreePerm t t' → canonKey t = canonKey t' := by
    intro t0 t1 h0
    refine @TreePerm.rec
      (fun t t' _ => canonKey t = canonKey t')
      (fun cs ds _ =>
        List.Perm ((canonPairList cs).map Prod.snd) ((canonPairList ds).map Prod.snd))
      ?_ ?_ ?_ ?_ ?_ t0 t1 h0
    · intro tg a x cs ds hcd ih
      have ceq : ∀ (tg : String) (a : List (String × String)) (x : Option String)
          (cs : List Node), canonKey (Node.mk tg a x cs) =
            Key.node tg (sortPairs a) (stripStr (x.getD ""))
              ((List.insertionSort pairKeyLe (canonPairList cs)).map Prod.snd) :=
        fun _ _ _ _ => rfl
      rw [ceq, ceq, sorted_proj_eq ih]
    · exact List.Perm.refl _
    · intro c d cs ds hcd hlist ih1 ih2
      rw [canonPairList, canonPairList, List.map_cons, List.map_cons]
      rw [show (canonPair c).2 = canonKey c from rfl,
        show (canonPair d).2 = canonKey d from rfl, ih1]
      exact ih2.cons (canonKey d)
    · intro c d cs
      rw [canonPairList, canonPairList, canonPairList, canonPairList,
        List.map_cons, List.map_cons, List.map_cons, List.map_cons]
      exact List.Perm.swap (canonPair d).2 (canonPair c).2 _
    · intro cs ds es h1 h2 ih1 ih2
      exact ih1.trans ih2
  exact main t t' h

theorem treePerm_canon_nodeKey {t t' : Node} (h : TreePerm t t') :
    nodeKey (canonNode t) = nodeKey (canonNode t') := by
  rw [nodeKey_canonNode, nodeKey_canonNode]
  exact treePerm_canonKey h

/-! ### Symmetry of the change flag -/

theorem compareNodes_changed_symm (oa ob : Option Node) :
    (compareNodes oa ob).changed = (compareNodes ob oa).changed := by
  cases oa with
  | none =>
    cases ob with
    | none => rfl
    | some b =>
      have hw := nodeWeight_pos b
      have h1 : optWeight none + optWeight (some b) = (nodeWeight b - 1) + 1 := by
        rw [optWeight, optWeight]
        omega
      have h2 : optWeight (some b) + optWeight none = (nodeWeight b - 1) + 1 := by
        rw [optWeight, optWeight]
        omega
      rw [compareNodes, compareNodes, h1, h2, compareFuel, compareFuel]
  | some a =>
    cases ob with
    | none =>
      have hw := nodeWeight_pos a
      have h1 : optWeight (some a) + optWeight none = (nodeWeight a - 1) + 1 := by
        rw [optWeight, optWeight]
        omega
      have h2 : optWeight none + optWeight (some a) = (nodeWeight a - 1) + 1 := by
        rw [optWeight, optWeight]
        omega
      rw [compareNodes, compareNodes, h1, h2, compareFuel, compareFuel]
    | some b =>
      by_cases hk : nodeKey a = nodeKey b
      · rw [compareNodes_keyEq hk, compareNodes_keyEq hk.symm]
      · cases hab : (compareNodes (some a) (some b)).changed with
        | false => exact absurd ((compareNodes_changed_iff a b).mp hab) hk
        | true =>
          cases hba : (compareNodes (some b) (some a)).changed with
          | false =>
            exact absurd ((compareNodes_changed_iff b a).mp hba).symm hk
          | true => rfl

/-! ### The claims -/

theorem mismatchCompare_eq (a b : Node) :
    mismatchCompare a b =
      ⟨some (if countLinesA (markTree removedStyle a) (aIsLeaf (markTree removedStyle a)) <
          countLinesA (markTree addedStyle b) (aIsLeaf (markTree addedStyle b)) then
          setAppend (markTree removedStyle a)
            (countLinesA (markTree addedStyle b) (aIsLeaf (markTree addedStyle b)) -
             countLinesA (markTree removedStyle a) (aIsLeaf (markTree removedStyle a)))
        else markTree removedStyle a),
       some (if countLinesA (markTree addedStyle b) (aIsLeaf (markTree addedStyle b)) <
          countLinesA (markTree removedStyle a) (aIsLeaf (markTree removedStyle a)) then
          setAppend (markTree addedStyle b)
            (countLinesA (markTree removedStyle a) (aIsLeaf (markTree removedStyle a)) -
             countLinesA (markTree addedStyle b) (aIsLeaf (markTree addedStyle b)))
        else markTree addedStyle b),
       true, ⟨1, 1, 0⟩⟩ := rfl

/-- C1: every comparison result has both output sides present or both absent,
and the two sides always render to the same total number of lines, spacer
lines included. -/
theorem c1_line_balance (oa ob : Option Node) :
    (compareNodes oa ob).left.isSome = (compareNodes oa ob).right.isSome ∧
    optLines (compareNodes oa ob).left = optLines (compareNodes oa ob).right :=
  ⟨(compareNodes_ResOK oa ob).1, (compareNodes_ResOK oa ob).2.1⟩

/-- C2: diffing any document against itself reports no change, zero counters,
and the "no changes" marker on both output sides. -/
theorem c2_idempotence (fromstring : String → Option Node) (s : String) :
    (computeDiff fromstring s s).changed = false ∧
    (computeDiff fromstring s s).left = noChangesMarker ∧
    (computeDiff fromstring s s).right = noChangesMarker ∧
    (computeDiff fromstring s s).addedCount = 0 ∧
    (computeDiff fromstring s s).removedCount = 0 ∧
    (computeDiff fromstring s s).modifiedCount = 0 := by
  have hres : compareNodes (parseClean fromstring s) (parseClean fromstring s) =
      ⟨none, none, false, Stats.zero⟩ := by
    cases hp : parseClean fromstring s with
    | none => rfl
    | some t => exact compareNodes_keyEq rfl
  have hd : computeDiff fromstring s s =
      ⟨noChangesMarker, noChangesMarker, false, 0, 0, 0⟩ := by
    rw [computeDiff, hres]
    rfl
  rw [hd]
  exact ⟨rfl, rfl, rfl, rfl, rfl, rfl⟩

/-- C3: a paired comparison that registers no change returns
`(None, None, false)` with zero counters, so the whole candidate subtree is
dropped; on the `config`/`a`/`b`/`c` example the diff reports exactly one
modification and keeps only the `config` → `a` → `c` chain, dropping `b`
(which is not a configured context tag). -/
theorem c3_pruning :
    (∀ a b : Node, (compareNodes (some a) (some b)).changed = false →
      compareNodes (some a) (some b) = ⟨none, none, false, Stats.zero⟩) ∧
    (compareNodes (some exCfgBefore) (some exCfgAfter)).stats = ⟨0, 0, 1⟩ ∧
    (compareNodes (some exCfgBefore) (some exCfgAfter)).left =
      some (.node "config" [] none (some "") 0
        [.node "a" [] none (some "") 0
          [.node "c" [] (some "color:#ff8800;")
            (some "<span style=\"color:#ff8800; font-weight:bold;\">2</span>") 0 []]]) ∧
    "b" ∉ contextTags := by
  refine ⟨?_, rfl, rfl, by decide⟩
  intro a b h
  exact compareNodes_keyEq ((compareNodes_changed_iff a b).mp h)

/-- C4: a paired comparison of nodes with different tags counts one removal
plus one addition and never a modification, the rendered heights are
equalized, and the shorter marked block receives a trailing spacer of exactly
the height difference; the `x`/`y` scenario yields `added=1`, `removed=1`,
`modified=0`. -/
theorem c4_tag_mismatch :
    (∀ a b : Node, a.tag ≠ b.tag →
      (compareNodes (some a) (some b)).stats = ⟨1, 1, 0⟩ ∧
      optLines (compareNodes (some a) (some b)).left =
        optLines (compareNodes (some a) (some b)).right ∧
      (serializeLines (markTree removedStyle a) < serializeLines (markTree addedStyle b) →
        (compareNodes (some a) (some b)).left =
          some (setAppend (markTree removedStyle a)
            (serializeLines (markTree addedStyle b) -
              serializeLines (markTree removedStyle a))) ∧
        (compareNodes (some a) (some b)).right = some (markTree addedStyle b)) ∧
      (serializeLines (markTree addedStyle b) < serializeLines (markTree removedStyle a) →
        (compareNodes (some a) (some b)).right =
          some (setAppend (markTree addedStyle b)
            (serializeLines (markTree removedStyle a) -
              serializeLines (markTree addedStyle b))) ∧
        (compareNodes (some a) (some b)).left = some (markTree removedStyle a))) ∧
    (compareNodes (some exCfgX) (some exCfgY)).stats = ⟨1, 1, 0⟩ := by
  refine ⟨?_, rfl⟩
  intro a b h
  have hw1 := nodeWeight_pos a
  have hw2 := nodeWeight_pos b
  have hcmp : compareNodes (some a) (some b) = mismatchCompare a b := by
    have hf : optWeight (some a) + optWeight (some b) =
        (nodeWeight a + nodeWeight b - 1) + 1 := by
      rw [optWeight, optWeight]
      omega
    rw [compareNodes, hf, compareFuel, if_pos h]
  refine ⟨by rw [hcmp, mismatchCompare_eq], by rw [hcmp]; exact (mismatch_ResOK a b).2.1,
    ?_, ?_⟩
  · intro hlt
    have hn : ¬ (serializeLines (markTree addedStyle b) <
        serializeLines (markTree removedStyle a)) := by omega
    rw [hcmp, mismatchCompare_eq, ← markTree_lines removedStyle a,
      ← markTree_lines addedStyle b, if_pos hlt, if_neg hn]
    exact ⟨rfl, rfl⟩
  · intro hlt
    have hn : ¬ (serializeLines (markTree removedStyle a) <
        serializeLines (markTree addedStyle b)) := by omega
    rw [hcmp, mismatchCompare_eq, ← markTree_lines removedStyle a,
      ← markTree_lines addedStyle b, if_neg hn, if_pos hlt]
    exact ⟨rfl, rfl⟩

/-- C5: a one-sided comparison marks the whole present subtree and pairs it
with a spacer placeholder of exactly its rendered height, counting one
removal (or one addition); in the insertion scenario the before side holds a
spacer of the inserted element's rendered height and the counters are
`added=1`, `removed=0`. -/
theorem c5_one_sided :
    (∀ a : Node, compareNodes (some a) none =
      ⟨some (markTree removedStyle a),
       some (.spacer (serializeLines (markTree removedStyle a))), true, ⟨0, 1, 0⟩⟩) ∧
    (∀ b : Node, compareNodes none (some b) =
      ⟨some (.spacer (serializeLines (markTree addedStyle b))),
       some (markTree addedStyle b), true, ⟨1, 0, 0⟩⟩) ∧
    (compareNodes (some exInsBefore) (some exInsAfter)).stats = ⟨1, 0, 0⟩ ∧
    (compareNodes (some exInsBefore) (some exInsAfter)).left =
      some (.node "config" [] none (some "") 0
        [.spacer (serializeLines (markTree addedStyle (.mk "b" [] (some "2") [])))]) := by
  refine ⟨?_, ?_, rfl, rfl⟩
  · intro a
    have hw := nodeWeight_pos a
    have hf : optWeight (some a) + optWeight none = (nodeWeight a - 1) + 1 := by
      rw [optWeight, optWeight]
      omega
    rw [compareNodes, hf, compareFuel_rem,
      show (mkRemoved a).1 = markTree removedStyle a from rfl,
      show (mkRemoved a).2 = ATree.spacer (countLinesA (markTree removedStyle a)
        (aIsLeaf (markTree removedStyle a))) from rfl, ← markTree_lines]
  · intro b
    have hw := nodeWeight_pos b
    have hf : optWeight none + optWeight (some b) = (nodeWeight b - 1) + 1 := by
      rw [optWeight, optWeight]
      omega
    rw [compareNodes, hf, compareFuel_add,
      show (mkAdded b).2 = markTree addedStyle b from rfl,
      show (mkAdded b).1 = ATree.spacer (countLinesA (markTree addedStyle b)
        (aIsLeaf (markTree addedStyle b))) from rfl, ← markTree_lines]

/-- C6 counterexample: neither `count_lines` satisfies the specified height
contract verbatim — the `-11` version counts an explicit spacer as 1 rather
than its stored value, and the `-6` version adds the `__append_spacer__`
annotation on containers. -/
theorem c6_cex :
    ¬ heightSpec (fun t => countLinesA t (aIsLeaf t)) ∧ ¬ heightSpec countLines6 := by
  constructor
  · intro hspec
    exact absurd (hspec.1 5) (by decide)
  · intro hspec
    have := hspec.2.2 "t" [] none none 2 [.node "c" [] none none 0 []]
      (List.cons_ne_nil _ _)
    exact absurd this (by decide)

/-- C6 (amended): the `-6` height function counts a spacer as its stored
value, a childless element as 1, and a container as `2 + text + children`
plus its `__append_spacer__` annotation; the `-11` height function has no
spacer rule (an explicit spacer counts as a plain leaf) and otherwise follows
the leaf/container rules. -/
theorem c6_amended :
    (∀ n, countLines6 (.spacer n) = n) ∧
    (∀ t a d x app, countLines6 (.node t a d x app []) = 1) ∧
    (∀ t a d x app cs, cs ≠ [] → countLines6 (.node t a d x app cs) =
      2 + (if textHasContent x then 1 else 0) + (cs.map countLines6).sum + app) ∧
    (∀ n, countLinesA (.spacer n) (aIsLeaf (.spacer n)) = 1) ∧
    (∀ t a d x app, countLinesA (.node t a d x app []) (aIsLeaf (.node t a d x app [])) = 1) ∧
    (∀ t a d x app cs, cs ≠ [] →
      countLinesA (.node t a d x app cs) (aIsLeaf (.node t a d x app cs)) =
        2 + (if textHasContent x then 1 else 0) +
          (cs.map (fun c => countLinesA c (aIsLeaf c))).sum) := by
  refine ⟨fun n => rfl, fun t a d x app => rfl, ?_, fun n => rfl,
    fun t a d x app => rfl, ?_⟩
  · intro t a d x app cs hne
    cases cs with
    | nil => exact absurd rfl hne
    | cons c cs =>
      rw [countLines6, if_neg (by rw [List.isEmpty_cons]; exact Bool.false_ne_true),
        ← countChildren6_eq_sum]
  · intro t a d x app cs hne
    cases cs with
    | nil => exact absurd rfl hne
    | cons c cs =>
      rw [show aIsLeaf (.node t a d x app (c :: cs)) = false from rfl, countLinesA,
        if_neg Bool.false_ne_true, ← countChildrenA_eq_sum]

/-- C7: reordering children anywhere in a tree, with tags, attributes, text
and descendants unchanged, canonicalizes to the same sorted tree, so the diff
of the two canonicalized trees reports no change and zero counters. -/
theorem c7_move_insensitivity (t t' : Node) (h : TreePerm t t') :
    compareNodes (some (canonNode t)) (some (canonNode t')) =
      ⟨none, none, false, Stats.zero⟩ :=
  compareNodes_keyEq (treePerm_canon_nodeKey h)

/-- Witness for C7: swapping the two children of `<r><b>1</b><c>2</c></r>`
is a child permutation and the canonicalized diff reports no change. -/
theorem c7_witness :
    TreePerm exPermL exPermR ∧
    compareNodes (some (canonNode exPermL)) (some (canonNode exPermR)) =
      ⟨none, none, false, Stats.zero⟩ :=
  ⟨TreePerm.node "r" [] none (ChildPerm.swap exB1 exC2 []),
   c7_move_insensitivity exPermL exPermR
     (TreePerm.node "r" [] none (ChildPerm.swap exB1 exC2 []))⟩

set_option maxRecDepth 3000 in
/-- C8 counterexample: the three counters are not symmetric under swapping
the inputs — on the first document pair `added` forward differs from
`removed` backward (and vice versa), and on the second pair the `modified`
counters of the two directions differ, because the autojunk popularity
heuristic of `difflib.SequenceMatcher` purges keys of the second sequence
only. -/
theorem c8_cex :
    (computeDiff cexOracle "A1" "B1").addedCount ≠
      (computeDiff cexOracle "B1" "A1").removedCount ∧
    (computeDiff cexOracle "A1" "B1").removedCount ≠
      (computeDiff cexOracle "B1" "A1").addedCount ∧
    (computeDiff cexOracle "A2" "B2").modifiedCount ≠
      (computeDiff cexOracle "B2" "A2").modifiedCount :=
  ⟨by decide, by decide, by decide⟩

/-- C8 (amended): the boolean change flag is symmetric under swapping the two
inputs, for every pair of documents. -/
theorem c8_flag_symmetry (fromstring : String → Option Node) (sa sb : String) :
    (computeDiff fromstring sa sb).changed = (computeDiff fromstring sb sa).changed :=
  compareNodes_changed_symm (parseClean fromstring sa) (parseClean fromstring sb)

/-- C9: the returned change flag is true exactly when the sum of the three
returned counters is positive. -/
theorem c9_changed_iff_counters (fromstring : String → Option Node) (ba aa : String) :
    (computeDiff fromstring ba aa).changed = true ↔
      0 < (computeDiff fromstring ba aa).addedCount +
          (computeDiff fromstring ba aa).removedCount +
          (computeDiff fromstring ba aa).modifiedCount := by
  have h := (compareNodes_ResOK (parseClean fromstring ba) (parseClean fromstring aa)).2.2.1
  rw [Stats.total] at h
  exact h

/-- C10: blank or unparsable input yields an absent tree; two absent trees
diff to the "no changes" markers with no change and zero counters; an absent
tree against a present one reports exactly one addition (or, swapped, one
removal) and nothing else. -/
theorem c10_blank_inputs (fromstring : String → Option Node) (s s' : String) :
    (fromstring s = none ∨ s = "" ∨ stripStr s = "" → parseClean fromstring s = none) ∧
    (parseClean fromstring s = none → parseClean fromstring s' = none →
      computeDiff fromstring s s' =
        ⟨noChangesMarker, noChangesMarker, false, 0, 0, 0⟩) ∧
    (∀ t : Node, parseClean fromstring s = none → parseClean fromstring s' = some t →
      (computeDiff fromstring s s').changed = true ∧
      (computeDiff fromstring s s').addedCount = 1 ∧
      (computeDiff fromstring s s').removedCount = 0 ∧
      (computeDiff fromstring s s').modifiedCount = 0) ∧
    (∀ t : Node, parseClean fromstring s = some t → parseClean fromstring s' = none →
      (computeDiff fromstring s s').changed = true ∧
      (computeDiff fromstring s s').removedCount = 1 ∧
      (computeDiff fromstring s s').addedCount = 0 ∧
      (computeDiff fromstring s s').modifiedCount = 0) := by
  refine ⟨?_, ?_, ?_, ?_⟩
  · intro h
    rw [parseClean]
    by_cases hb : s = "" ∨ stripStr s = ""
    · rw [if_pos hb]
    · rw [if_neg hb]
      rcases h with h | h | h
      · rw [h]
        rfl
      · exact absurd (Or.inl h) hb
      · exact absurd (Or.inr h) hb
  · intro h1 h2
    have hd : computeDiff fromstring s s' =
        ⟨noChangesMarker, noChangesMarker, false, 0, 0, 0⟩ := by
      rw [computeDiff, h1, h2]
      rfl
    exact hd
  · intro t h1 h2
    have hw := nodeWeight_pos t
    have hc : compareNodes (parseClean fromstring s) (parseClean fromstring s') =
        ⟨some (mkAdded t).1, some (mkAdded t).2, true, ⟨1, 0, 0⟩⟩ := by
      rw [h1, h2]
      have hf : optWeight none + optWeight (some t) = (nodeWeight t - 1) + 1 := by
        rw [optWeight, optWeight]
        omega
      rw [compareNodes, hf, compareFuel_add]
    refine ⟨?_, ?_, ?_, ?_⟩
    · show (compareNodes (parseClean fromstring s) (parseClean fromstring s')).changed = true
      rw [hc]
    · show (compareNodes (parseClean fromstring s)
          (parseClean fromstring s')).stats.added = 1
      rw [hc]
    · show (compareNodes (parseClean fromstring s)
          (parseClean fromstring s')).stats.removed = 0
      rw [hc]
    · show (compareNodes (parseClean fromstring s)
          (parseClean fromstring s')).stats.modified = 0
      rw [hc]
  · intro t h1 h2
    have hw := nodeWeight_pos t
    have hc : compareNodes (parseClean fromstring s) (parseClean fromstring s') =
        ⟨some (mkRemoved t).1, some (mkRemoved t).2, true, ⟨0, 1, 0⟩⟩ := by
      rw [h1, h2]
      have hf : optWeight (some t) + optWeight none = (nodeWeight t - 1) + 1 := by
        rw [optWeight, optWeight]
        omega
      rw [compareNodes, hf, compareFuel_rem]
    refine ⟨?_, ?_, ?_, ?_⟩
    · show (compareNodes (parseClean fromstring s) (parseClean fromstring s')).changed = true
      rw [hc]
    · show (compareNodes (parseClean fromstring s)
          (parseClean fromstring s')).stats.removed = 1
      rw [hc]
    · show (compareNodes (parseClean fromstring s)
          (parseClean fromstring s')).stats.added = 0
      rw [hc]
    · show (compareNodes (parseClean fromstring s)
          (parseClean fromstring s')).stats.modified = 0
      rw [hc]

end XSD
